import Mathlib

/-!
The ledger parser and canonical serializer of ldg.

A shallow embedding of `parser/parser.go` and `parser/transaction.go`.

* A Go `string` is a sequence of bytes; it is embedded as a `List Char`, every
  element standing for one byte.
* A Go run-time panic (index or slice out of range, nil dereference) is an
  explicit `Fault`; functions that can panic return `Except Fault _`.
* The pointers `*Transaction` and `*Posting` held by the `Parser` are addresses
  into an explicit `Heap`.
-/

namespace Ldg

/-- A Go string: a sequence of bytes. -/
abbrev Str := List Char

/-- The ways an execution can fail to return normally. -/
inductive Fault where
  | outOfRange
  | nilDeref
  | dangling
  | outOfFuel
  deriving DecidableEq, Repr

instance {ε α : Type} [DecidableEq ε] [DecidableEq α] : DecidableEq (Except ε α)
  | .ok a, .ok b => if h : a = b then isTrue (by rw [h]) else isFalse (by intro e; cases e; exact h rfl)
  | .error a, .error b =>
    if h : a = b then isTrue (by rw [h]) else isFalse (by intro e; cases e; exact h rfl)
  | .ok _, .error _ => isFalse (by intro e; cases e)
  | .error _, .ok _ => isFalse (by intro e; cases e)

/-! ## parser.go: character and trimming helpers -/

/-- Go `isSpace`: the byte is a space or a tab. -/
def isSpace (c : Char) : Bool := c == ' ' || c == '\t'

/-- Go `indexSpace`: index of the first space or tab; `none` stands for `-1`. -/
def indexSpace : Str → Option Nat
  | [] => none
  | c :: cs => if isSpace c then some 0 else (indexSpace cs).map (· + 1)

/-- Go `indexNotSpace`: index of the first byte that is neither space nor tab;
`none` stands for `-1`. -/
def indexNotSpace : Str → Option Nat
  | [] => none
  | c :: cs => if !isSpace c then some 0 else (indexNotSpace cs).map (· + 1)

/-- Go `isEmptyLine`. -/
def isEmptyLine (s : Str) : Bool := (indexNotSpace s).isNone

/-- Go `trimSpaceLeft`. -/
def trimSpaceLeft (s : Str) : Str :=
  match indexNotSpace s with
  | none => []
  | some idx => s.drop idx

/-- The loop of Go `trimSpaceRight`; the argument is `i + 1` for the loop
variable `i`, which runs from `len(s) - 1` down to `0`. -/
def trimSpaceRightFrom (s : Str) : Nat → Str
  | 0 => []
  | i + 1 =>
    match s[i]? with
    | some c => if !isSpace c then s.take (i + 1) else trimSpaceRightFrom s i
    | none => trimSpaceRightFrom s i

/-- Go `trimSpaceRight`. -/
def trimSpaceRight (s : Str) : Str := trimSpaceRightFrom s s.length

/-- Go `strings.IndexByte`; `none` stands for `-1`. -/
def indexByte (s : Str) (b : Char) : Option Nat :=
  match s with
  | [] => none
  | c :: cs => if c == b then some 0 else (indexByte cs b).map (· + 1)

/-- Go `strings.IndexAny` for a set of ASCII bytes; `none` stands for `-1`. -/
def indexAny (s : Str) (chars : Str) : Option Nat :=
  match s with
  | [] => none
  | c :: cs => if chars.contains c then some 0 else (indexAny cs chars).map (· + 1)

/-- Go `strings.TrimSuffix(s, "\n")`. -/
def trimSuffixLF (s : Str) : Str :=
  match s.getLast? with
  | some '\n' => s.dropLast
  | _ => s

/-! ## transaction.go: the records -/

/-- Go `Posting`. -/
structure Posting where
  Account : Str := []
  Amount : Str := []
  AmountExtra : Str := []
  DirectTag : Str := []
  ExtraTags : List Str := []
  deriving DecidableEq, Repr

/-- Go `Transaction`, over the representation `P` of its postings: `Posting`
for the value a caller sees through the pointers, an address for the object
as stored on the heap. `Status` is a rune, `0` when there is no marker. -/
structure TransactionOf (P : Type) where
  Date : Str := []
  Status : Int := 0
  Description : Str := []
  Tags : List Str := []
  Postings : List P := []
  deriving DecidableEq, Repr

/-- A transaction as the caller of `Parse` sees it. -/
abbrev Transaction := TransactionOf Posting

/-! ## parser.go: the two tokenizers -/

/-- Go `parseHeader`. The returned transaction has no tags and no postings. -/
def parseHeader {P : Type} (line : Str) : TransactionOf P :=
  let (date, line) :=
    match indexSpace line with
    | none => (line, [])
    | some space => (line.take space, trimSpaceLeft (line.drop space))
  let (status, line) :=
    match line with
    | [] => (0, line)
    | c :: rest =>
      if c == '*' || c == '!' then ((c.toNat : Int), trimSpaceLeft rest) else (0, line)
  { Date := date, Status := status, Description := line }

/-- The scanning loop of Go `parsePosting`: `rest` is `line[i:]`, `space` the
index of the last space seen (`-1` at the start). The result is the pair
`(account, line)` after the loop; without a `break` the account is empty and
the line unchanged. The slice `line[:i-1]` panics when `i - 1` is negative. -/
def scanAccount (line : Str) : Str → Nat → Int → Except Fault (Str × Str)
  | [], _, _ => .ok ([], line)
  | c :: rest, i, space =>
    if c == '\t' then
      .ok (trimSpaceRight (line.take i), line.drop (i + 1))
    else if c == ' ' then
      if space == (i : Int) - 1 then
        if i = 0 then .error .outOfRange
        else .ok (line.take (i - 1), line.drop (i + 1))
      else scanAccount line rest (i + 1) i
    else scanAccount line rest (i + 1) space

/-- Go `parsePosting`. -/
def parsePosting (line : Str) : Except Fault Posting := do
  let (account, line) ← scanAccount line line 0 (-1)
  let (account, line) :=
    if account == [] then (trimSpaceRight line, []) else (account, line)
  let amount := trimSpaceLeft line
  let (directTag, amount) :=
    match indexByte amount ';' with
    | some i => (amount.drop i, trimSpaceRight (amount.take i))
    | none => ([], trimSpaceRight amount)
  let (amountExtra, amount) :=
    match indexAny amount ['@', '='] with
    | some i => (amount.drop i, trimSpaceRight (amount.take i))
    | none => ([], amount)
  return { Account := account, Amount := amount, AmountExtra := amountExtra,
           DirectTag := directTag }

/-! ## The part of Go's `fmt` and `unicode/utf8` that `Transaction.write` uses -/

/-- Number of bytes `utf8.RuneCountInString` advances over at the start of a
non-empty string: the length of a well-formed UTF-8 sequence, `1` for a byte
that does not start one. -/
def runeSize (s : Str) : Nat :=
  match s with
  | [] => 1
  | c :: rest =>
    let n := c.toNat
    let inRange (lo hi : Nat) (x : Option Char) : Bool :=
      match x with
      | some d => decide (lo ≤ d.toNat) && decide (d.toNat ≤ hi)
      | none => false
    let seq (size lo hi : Nat) : Nat :=
      if rest.length + 1 < size then 1
      else if !inRange lo hi rest[0]? then 1
      else if size == 2 then 2
      else if !inRange 0x80 0xBF rest[1]? then 1
      else if size == 3 then 3
      else if !inRange 0x80 0xBF rest[2]? then 1
      else 4
    if n < 0x80 then 1
    else if n < 0xC2 then 1
    else if n < 0xE0 then seq 2 0x80 0xBF
    else if n == 0xE0 then seq 3 0xA0 0xBF
    else if n == 0xED then seq 3 0x80 0x9F
    else if n < 0xF0 then seq 3 0x80 0xBF
    else if n == 0xF0 then seq 4 0x90 0xBF
    else if n < 0xF4 then seq 4 0x80 0xBF
    else if n == 0xF4 then seq 4 0x80 0x8F
    else 1

/-- The loop of `utf8.RuneCountInString`, one rune per unit of fuel. -/
def runeCountFuel : Nat → Str → Nat
  | 0, _ => 0
  | _ + 1, [] => 0
  | fuel + 1, c :: rest => 1 + runeCountFuel fuel ((c :: rest).drop (runeSize (c :: rest)))

/-- Go `utf8.RuneCountInString`. -/
def runeCount (s : Str) : Nat := runeCountFuel s.length s

/-- Go `utf8.EncodeRune` behind the verb `%c`. -/
def encodeRune (r : Int) : Str :=
  let n := r.toNat
  let b (x : Nat) : Char := Char.ofNat x
  if r < 0 then [b 0xEF, b 0xBF, b 0xBD]
  else if n < 0x80 then [b n]
  else if n < 0x800 then [b (0xC0 + n / 64), b (0x80 + n % 64)]
  else if 0x10FFFF < n || (0xD800 ≤ n && n ≤ 0xDFFF) then [b 0xEF, b 0xBF, b 0xBD]
  else if n < 0x10000 then [b (0xE0 + n / 4096), b (0x80 + n / 64 % 64), b (0x80 + n % 64)]
  else [b (0xF0 + n / 262144), b (0x80 + n / 4096 % 64), b (0x80 + n / 64 % 64),
        b (0x80 + n % 64)]

/-- The directive `%[1]*[2]s` of `fmt.Sprintf` for the width argument `w` and
the string `s`. A width beyond one million in magnitude is refused by `fmt`
(`tooLarge` in `fmt/print.go`): it writes `%!(BADWIDTH)` and then the string
unpadded. A negative width means left-justify. The padding is counted in runes
(`padString` in `fmt/format.go`). -/
def fmtWidthS (w : Int) (s : Str) : Str :=
  if w > 1000000 || w < -1000000 then "%!(BADWIDTH)".toList ++ s
  else
    let wid := w.natAbs
    let minus := decide (w < 0)
    if wid == 0 then s
    else
      let padding := List.replicate (wid - runeCount s) ' '
      if minus then s ++ padding else padding ++ s

/-! ## transaction.go: the serializer -/

/-- The body of the loop over `tr.Postings` in Go `Transaction.write`: the
line of one posting, then one line for each of its extra tags. -/
def writePosting (p : Posting) : Str :=
  let line :=
    if p.Amount != [] || p.AmountExtra != [] then
      let amount := p.Amount
      let amountExtra := if p.AmountExtra != [] then " ".toList ++ p.AmountExtra else []
      let amountExtra :=
        if p.DirectTag != [] then amountExtra ++ ("  ".toList ++ p.DirectTag) else amountExtra
      let accountWidth : Int :=
        if (p.Account.length : Int) + 2 < 48 - (amount.length : Int) then
          48 - (amount.length : Int)
        else (p.Account.length : Int) + 2
      "    ".toList ++ fmtWidthS (-accountWidth) p.Account ++ amount ++ amountExtra ++ ['\n']
    else
      let amountExtra := if p.DirectTag != [] then "  ".toList ++ p.DirectTag else []
      "    ".toList ++ p.Account ++ amountExtra ++ ['\n']
  line ++ (p.ExtraTags.map (fun tag => "    ".toList ++ tag ++ ['\n'])).flatten

/-- Go `Transaction.write`, returning what it writes. -/
def Transaction.write (tr : Transaction) : Str :=
  let status := if tr.Status != 0 then encodeRune tr.Status ++ [' '] else []
  tr.Date ++ [' '] ++ status ++ tr.Description ++ ['\n']
    ++ (tr.Tags.map (fun tag => "    ".toList ++ tag ++ ['\n'])).flatten
    ++ (tr.Postings.map writePosting).flatten

/-- Go `Transaction.String`. -/
def Transaction.String (tr : Transaction) : Str := tr.write

/-- Go `serializeTransactions` (parser_test.go), which is also what `fmtCmd`
prints: the transactions rendered in order, a line feed before each but the
first. -/
def serializeTransactions : List Transaction → Str
  | [] => []
  | t :: ts => t.String ++ (ts.map (fun u => '\n' :: u.String)).flatten

/-! ## parser.go: the parser -/

/-- An address of an object on the heap. -/
abbrev Addr := Nat

/-- The `Transaction` and `Posting` objects allocated so far; an object's
address is its position. A stored transaction holds the addresses of its
postings (`[]*Posting`). -/
structure Heap where
  transactions : List (TransactionOf Addr) := []
  postings : List Posting := []
  deriving DecidableEq, Repr

/-- Go `Parser`. `tr` and `p` are pointers, `none` for `nil`. -/
structure Parser where
  input : Str := []
  lineno : Nat := 0
  cur : Str := []
  eof : Bool := false
  transactions : List Addr := []
  tr : Option Addr := none
  p : Option Addr := none
  deriving DecidableEq, Repr

/-- The two functions a Go `stateFn` can be; a `nil` state is `none` of
`Option StateFn`. -/
inductive StateFn where
  | parseFile
  | parseTransaction
  deriving DecidableEq, Repr

/-- The error value of `parseFile`, made by
`fmt.Errorf("line %d: expected a transaction header, but got a posting", lineno)`:
it is determined by the line number it was made for. -/
structure ParseError where
  lineno : Nat
  deriving DecidableEq, Repr

/-- The text of the error, Go `err.Error()`. -/
def ParseError.Error (e : ParseError) : Str :=
  "line ".toList ++ (Nat.repr e.lineno).toList
    ++ ": expected a transaction header, but got a posting".toList

/-- The error `parseFile` returns at line `lineno`. -/
def syntaxError (lineno : Nat) : ParseError := { lineno := lineno }

/-- What a state function leaves: the parser, the heap, the next state, and the
error. -/
abbrev StepResult := Except Fault (Parser × Heap × Option StateFn × Option ParseError)

/-- Go `Parser.next`. -/
def Parser.next (p : Parser) : Parser :=
  let (line, p) :=
    match indexByte p.input '\n' with
    | none => (p.input, { p with input := [], eof := true })
    | some idx => (p.input.take (idx + 1), { p with input := p.input.drop (idx + 1) })
  if line != [] then { p with lineno := p.lineno + 1, cur := trimSuffixLF line } else p

/-- Go `parseFile`. -/
def parseFile (p : Parser) (h : Heap) : StepResult :=
  if p.eof then .ok (p, h, none, none)
  else if isEmptyLine p.cur then .ok (p, h, some .parseFile, none)
  else
    match p.cur with
    | [] => .error .outOfRange
    | c :: _ =>
      if isSpace c then .ok (p, h, none, some (syntaxError p.lineno))
      else
        let a := h.transactions.length
        let h := { h with transactions := h.transactions ++ [parseHeader p.cur] }
        .ok ({ p with tr := some a, p := none, transactions := p.transactions ++ [a] }, h,
             some .parseTransaction, none)

/-- The assignment through a `*Transaction`: `nil` panics. -/
def Heap.updateTransaction (h : Heap) (ptr : Option Addr)
    (f : TransactionOf Addr → TransactionOf Addr) : Except Fault Heap :=
  match ptr with
  | none => .error .nilDeref
  | some a =>
    match h.transactions[a]? with
    | none => .error .dangling
    | some t => .ok { h with transactions := h.transactions.set a (f t) }

/-- The assignment through a `*Posting`. -/
def Heap.updatePosting (h : Heap) (a : Addr) (f : Posting → Posting) : Except Fault Heap :=
  match h.postings[a]? with
  | none => .error .dangling
  | some q => .ok { h with postings := h.postings.set a (f q) }

/-- The test `p.cur != "" && !isSpace(p.cur[0])` of Go `parseTransaction`. -/
def notIndented (cur : Str) : Bool :=
  match cur with
  | [] => false
  | c :: _ => !isSpace c

/-- Go `parseTransaction`. -/
def parseTransaction (p : Parser) (h : Heap) : StepResult :=
  if p.eof then .ok (p, h, none, none)
  else
    if notIndented p.cur then parseFile p h
    else
      let line := trimSpaceLeft p.cur
      match line with
      | [] => .ok (p, h, some .parseFile, none)
      | c :: _ =>
        if c == ';' then
          match p.p with
          | none => do
            let h ← h.updateTransaction p.tr (fun t => { t with Tags := t.Tags ++ [line] })
            .ok (p, h, some .parseTransaction, none)
          | some b => do
            let h ← h.updatePosting b (fun q => { q with ExtraTags := q.ExtraTags ++ [line] })
            .ok (p, h, some .parseTransaction, none)
        else do
          let q ← parsePosting line
          let b := h.postings.length
          let h := { h with postings := h.postings ++ [q] }
          let p := { p with p := some b }
          let h ← h.updateTransaction p.tr (fun t => { t with Postings := t.Postings ++ [b] })
          .ok (p, h, some .parseTransaction, none)

/-- Dispatch on the value of a `stateFn`. -/
def StateFn.run : StateFn → Parser → Heap → StepResult
  | .parseFile => Ldg.parseFile
  | .parseTransaction => Ldg.parseTransaction

/-- The `for` loop of Go `Parser.Parse`, bounded by `fuel` iterations. -/
def parseLoop :
    Nat → StateFn → Parser → Heap → Except Fault (Parser × Heap × Option ParseError)
  | 0, _, _, _ => .error .outOfFuel
  | fuel + 1, state, p, h =>
    match state.run p.next h with
    | .error e => .error e
    | .ok (p, h, _, some err) => .ok (p, h, some err)
    | .ok (p, h, none, none) => .ok (p, h, none)
    | .ok (p, h, some state, none) => parseLoop fuel state p h

/-- Go `Parser.Parse`: the fields `cur`, `tr` and `p` keep what the parser
held before the call. The loop gets one iteration for each byte of the content
and one more. The result is the parser after the call, the heap, and the
error; the returned slice is the parser's `transactions`. -/
def Parser.Parse (p : Parser) (h : Heap) (content : Str) :
    Except Fault (Parser × Heap × Option ParseError) :=
  parseLoop (content.length + 1) .parseFile
    { p with input := content, lineno := 0, eof := false, transactions := [] } h

/-- The postings behind a list of `*Posting`. -/
def Heap.readPostings (h : Heap) : List Addr → Except Fault (List Posting)
  | [] => .ok []
  | a :: as =>
    match h.postings[a]?, h.readPostings as with
    | some q, .ok qs => .ok (q :: qs)
    | none, _ => .error .dangling
    | _, .error e => .error e

/-- The transactions behind a list of `*Transaction`, with their postings. -/
def Heap.readTransactions (h : Heap) : List Addr → Except Fault (List Transaction)
  | [] => .ok []
  | a :: as =>
    match h.transactions[a]? with
    | none => .error .dangling
    | some t =>
      match h.readPostings t.Postings, h.readTransactions as with
      | .ok qs, .ok ts =>
        .ok ({ Date := t.Date, Status := t.Status, Description := t.Description,
               Tags := t.Tags, Postings := qs } :: ts)
      | .error e, _ => .error e
      | _, .error e => .error e

/-- Go `Parse`: a new parser on an empty heap. The result is what the caller
can observe: the transactions reached through the returned pointers, and the
error. -/
def Parse (content : Str) : Except Fault (List Transaction × Option ParseError) :=
  match Parser.Parse {} {} content with
  | .error e => .error e
  | .ok (p, h, err) =>
    match h.readTransactions p.transactions with
    | .error e => .error e
    | .ok ts => .ok (ts, err)

/-! ## A value-level description of the assembler

The parser's loop is compared with a fold over the lines of the input that
works on transaction values instead of heap objects. -/

/-- The posting `parsePosting` returns; the empty posting where it panics. -/
def postingOf (line : Str) : Posting :=
  match parsePosting line with
  | .ok q => q
  | .error _ => {}

/-- The lines of a text that end in a line feed, without the line feed, in
order. -/
def terminatedLines : Str → List Str
  | [] => []
  | c :: cs =>
    if c == '\n' then [] :: terminatedLines cs
    else
      match terminatedLines cs with
      | [] => []
      | l :: ls => (c :: l) :: ls

/-- What follows the last line feed of a text (the whole text when it has
none). -/
def unterminatedRest : Str → Str
  | [] => []
  | c :: cs =>
    if c == '\n' then unterminatedRest cs
    else
      match terminatedLines cs with
      | [] => c :: unterminatedRest cs
      | _ :: _ => unterminatedRest cs

/-- The lines, each followed by a line feed, put together. -/
def joinLines (ls : List Str) : Str := (ls.map (fun l => l ++ ['\n'])).flatten

/-- The assembler's state on values: the transactions that no later line can
change, and the transaction under construction (`none` at file scope). -/
structure Asm where
  closed : List Transaction := []
  current : Option Transaction := none
  deriving DecidableEq, Repr

/-- All transactions of an assembler state, in order. -/
def Asm.out (σ : Asm) : List Transaction := σ.closed ++ σ.current.toList

/-- The state function the parser is in. -/
def Asm.state (σ : Asm) : StateFn :=
  match σ.current with
  | none => .parseFile
  | some _ => .parseTransaction

/-- A comment line in a transaction body: a tag of the transaction while it has
no posting, an extra tag of its last posting afterwards. -/
def addComment (t : Transaction) (line : Str) : Transaction :=
  match t.Postings.getLast? with
  | none => { t with Tags := t.Tags ++ [line] }
  | some q =>
    { t with Postings := t.Postings.dropLast ++ [{ q with ExtraTags := q.ExtraTags ++ [line] }] }

/-- One line at file scope; `none` is the syntax error. -/
def fileStep (closed : List Transaction) (cur : Str) : Option Asm :=
  if isEmptyLine cur then some { closed := closed, current := none }
  else
    match cur with
    | [] => some { closed := closed, current := none }
    | c :: _ =>
      if isSpace c then none
      else some { closed := closed, current := some (parseHeader cur) }

/-- One line of input; `none` is the syntax error. -/
def Asm.step (σ : Asm) (cur : Str) : Option Asm :=
  match σ.current with
  | none => fileStep σ.closed cur
  | some t =>
    if notIndented cur then fileStep (σ.closed ++ [t]) cur
    else
      match trimSpaceLeft cur with
      | [] => some { closed := σ.closed ++ [t], current := none }
      | c :: l =>
        if c == ';' then some { closed := σ.closed, current := some (addComment t (c :: l)) }
        else
          let q := postingOf (c :: l)
          some { closed := σ.closed, current := some { t with Postings := t.Postings ++ [q] } }

/-- The fold over the lines that end in a line feed, from state `σ` after
`n` lines: the transactions and the error. -/
def Asm.run (σ : Asm) (n : Nat) : List Str → List Transaction × Option ParseError
  | [] => (σ.out, none)
  | l :: ls =>
    match σ.step l with
    | none => (σ.out, some (syntaxError (n + 1)))
    | some σ' => Asm.run σ' (n + 1) ls

/-- The value-level result for a whole text. -/
def assemble (content : Str) : List Transaction × Option ParseError :=
  Asm.run {} 0 (terminatedLines content)

/-- The heap objects of a list of transactions whose postings are stored
consecutively from address `m`. -/
def cellsOf (m : Nat) : List Transaction → List (TransactionOf Addr)
  | [] => []
  | t :: ts =>
    { Date := t.Date, Status := t.Status, Description := t.Description, Tags := t.Tags,
      Postings := List.range' m t.Postings.length } :: cellsOf (m + t.Postings.length) ts

/-- The postings of a list of transactions, in order. -/
def postsOf (ts : List Transaction) : List Posting := (ts.map (·.Postings)).flatten

/-- The parser and heap that hold the assembler state `σ`, on top of the
objects `T0` and `P0` that were on the heap before the call. -/
structure Holds (T0 : List (TransactionOf Addr)) (P0 : List Posting)
    (p : Parser) (h : Heap) (σ : Asm) : Prop where
  transactions : h.transactions = T0 ++ cellsOf P0.length σ.out
  postings : h.postings = P0 ++ postsOf σ.out
  slice : p.transactions = List.range' T0.length σ.out.length
  tr : ∀ t, σ.current = some t → p.tr = some (T0.length + σ.closed.length)
  p : ∀ t, σ.current = some t →
    p.p = if t.Postings = [] then none else some (P0.length + (postsOf σ.out).length - 1)

/-! ## Vocabulary of the statements -/

/-- The line begins with a space or a tab. -/
def beginsWithSpace (l : Str) : Bool :=
  match l with
  | [] => false
  | c :: _ => isSpace c

/-- The line begins with the byte `b`. -/
def beginsWith (b : Char) (l : Str) : Bool :=
  match l with
  | [] => false
  | c :: _ => c == b

/-- Whether a result of `Parse` carries an error. -/
def returnsError (r : Except Fault (List Transaction × Option ParseError)) : Bool :=
  match r with
  | .ok (_, some _) => true
  | _ => false

/-- All lines of a text: those that end in a line feed and, when it is not
empty, the text after the last line feed. -/
def physicalLines (s : Str) : List Str :=
  terminatedLines s ++ (if unterminatedRest s = [] then [] else [unterminatedRest s])

/-- The condition under which C3 expects an error: some non-blank line begins
with a space or tab and no earlier line is a header line (non-blank, not
beginning with a space or tab). -/
def indentedBeforeAnyHeader : List Str → Bool
  | [] => false
  | l :: ls =>
    if notIndented l then false
    else if beginsWithSpace l && !isEmptyLine l then true
    else indentedBeforeAnyHeader ls

/-- The tags C8 gives the transaction: the body lines (left-trimmed) that begin
with `;` and precede every posting line, verbatim. -/
def specTags (body : List Str) : List Str := body.takeWhile (beginsWith ';')

/-- The postings C8 gives the transaction, from the left-trimmed body lines:
each line that does not begin with `;` contributes the posting of
`parsePosting`, and the lines beginning with `;` that follow it, up to the next
posting line, are its extra tags. -/
def specPostings : List Str → List Posting
  | [] => []
  | l :: ls =>
    if beginsWith ';' l then specPostings ls
    else
      { Account := (postingOf l).Account, Amount := (postingOf l).Amount,
        AmountExtra := (postingOf l).AmountExtra, DirectTag := (postingOf l).DirectTag,
        ExtraTags := ls.takeWhile (beginsWith ';') } :: specPostings ls

/-- One body line (left-trimmed) applied to the transaction under construction. -/
def bodyLine (t : Transaction) (l : Str) : Transaction :=
  if beginsWith ';' l then addComment t l
  else { t with Postings := t.Postings ++ [postingOf l] }

/-- The text has no account separator: no tab and no two consecutive spaces. -/
def NoSeparator (a : Str) : Prop := '\t' ∉ a ∧ ¬ [' ', ' '] <:+: a

instance (a : Str) : Decidable (NoSeparator a) := by
  unfold NoSeparator; exact inferInstance

/-- The part of Go `parsePosting` after the scanning loop, for the account and
the remaining line the loop leaves. -/
def finishPosting (account line : Str) : Posting :=
  let (account, line) :=
    if account == [] then (trimSpaceRight line, []) else (account, line)
  let amount := trimSpaceLeft line
  let (directTag, amount) :=
    match indexByte amount ';' with
    | some i => (amount.drop i, trimSpaceRight (amount.take i))
    | none => ([], trimSpaceRight amount)
  let (amountExtra, amount) :=
    match indexAny amount ['@', '='] with
    | some i => (amount.drop i, trimSpaceRight (amount.take i))
    | none => ([], amount)
  { Account := account, Amount := amount, AmountExtra := amountExtra, DirectTag := directTag }

/-- The comment split of Go `parsePosting` on the working amount text: the
direct tag and the amount text left of it. -/
def commentSplit (amount : Str) : Str × Str :=
  match indexByte amount ';' with
  | some i => (amount.drop i, trimSpaceRight (amount.take i))
  | none => ([], trimSpaceRight amount)

/-- The annotation split of Go `parsePosting`: the amount extra and the amount. -/
def annotationSplit (amount : Str) : Str × Str :=
  match indexAny amount ['@', '='] with
  | some i => (amount.drop i, trimSpaceRight (amount.take i))
  | none => ([], amount)

/-- The shape of a posting that `parsePosting` returns. -/
structure PostingShape (q : Posting) : Prop where
  account_start : notIndented q.Account = true
  account_nosep : NoSeparator q.Account
  account_end : ∀ c, q.Account.getLast? = some c → isSpace c = false
  amount_chars : ∀ c ∈ q.Amount, c ≠ ';' ∧ c ≠ '@' ∧ c ≠ '='
  amount_start : beginsWithSpace q.Amount = false
  amount_end : ∀ c, q.Amount.getLast? = some c → isSpace c = false
  extra_start : q.AmountExtra = [] ∨ beginsWith '@' q.AmountExtra = true
    ∨ beginsWith '=' q.AmountExtra = true
  extra_chars : ';' ∉ q.AmountExtra
  extra_end : ∀ c, q.AmountExtra.getLast? = some c → isSpace c = false
  tag_start : q.DirectTag = [] ∨ beginsWith ';' q.DirectTag = true

/-- What holds of every posting that `Parse` returns. -/
structure CanonPosting (q : Posting) : Prop where
  shape : PostingShape q
  not_comment : beginsWith ';' q.Account = false
  no_lf : '\n' ∉ q.Account ∧ '\n' ∉ q.Amount ∧ '\n' ∉ q.AmountExtra ∧ '\n' ∉ q.DirectTag
  extra_tags : ∀ tag ∈ q.ExtraTags, beginsWith ';' tag = true ∧ '\n' ∉ tag

/-- What holds of every transaction that `Parse` returns. -/
structure CanonTransaction (t : Transaction) : Prop where
  date_start : notIndented t.Date = true
  date_chars : ∀ c ∈ t.Date, isSpace c = false ∧ c ≠ '\n'
  status : t.Status = 0 ∨ t.Status = 42 ∨ t.Status = 33
  desc_start : beginsWithSpace t.Description = false
  desc_marker : t.Status = 0 →
    beginsWith '*' t.Description = false ∧ beginsWith '!' t.Description = false
  desc_lf : '\n' ∉ t.Description
  tags : ∀ tag ∈ t.Tags, beginsWith ';' tag = true ∧ '\n' ∉ tag
  postings : ∀ q ∈ t.Postings, CanonPosting q

/-! ## The lines of the canonical text -/

/-- The header line `Transaction.write` writes, without its line feed. -/
def headerLine (t : Transaction) : Str :=
  t.Date ++ [' '] ++ (if t.Status != 0 then encodeRune t.Status ++ [' '] else []) ++ t.Description

/-- The line of a tag or extra tag, without its line feed. -/
def tagLine (tag : Str) : Str := "    ".toList ++ tag

/-- The line `Transaction.write` writes for a posting, without the four
spaces in front and without the line feed. -/
def postingText (p : Posting) : Str :=
  if p.Amount != [] || p.AmountExtra != [] then
    let amount := p.Amount
    let amountExtra := if p.AmountExtra != [] then " ".toList ++ p.AmountExtra else []
    let amountExtra :=
      if p.DirectTag != [] then amountExtra ++ ("  ".toList ++ p.DirectTag) else amountExtra
    let accountWidth : Int :=
      if (p.Account.length : Int) + 2 < 48 - (amount.length : Int) then
        48 - (amount.length : Int)
      else (p.Account.length : Int) + 2
    fmtWidthS (-accountWidth) p.Account ++ amount ++ amountExtra
  else
    let amountExtra := if p.DirectTag != [] then "  ".toList ++ p.DirectTag else []
    p.Account ++ amountExtra

/-- The lines written for a posting: its own and those of its extra tags. -/
def postingLines (p : Posting) : List Str :=
  ("    ".toList ++ postingText p) :: p.ExtraTags.map tagLine

/-- The lines written for a transaction. -/
def canonLines (t : Transaction) : List Str :=
  headerLine t :: (t.Tags.map tagLine ++ (t.Postings.map postingLines).flatten)

/-- The lines of `serializeTransactions`: an empty line before every
transaction but the first. -/
def textLines : List Transaction → List Str
  | [] => []
  | t :: ts => canonLines t ++ (ts.map (fun u => [] :: canonLines u)).flatten

/-- The amount and the amount extra of `q` are what the annotation split
makes of the text `T`, trimmed on both sides: from the first `@` or `=` on it
is the amount extra, and what stands before, right-trimmed, is the amount;
without `@` and `=` there is no amount extra and the trimmed text is the
amount. -/
def AmountFieldsFrom (q : Posting) (T : Str) : Prop :=
  (∀ u b v, trimSpaceRight (trimSpaceLeft T) = u ++ b :: v → (b = '@' ∨ b = '=') →
      (∀ c ∈ u, c ≠ '@' ∧ c ≠ '=') → q.AmountExtra = b :: v ∧ q.Amount = trimSpaceRight u)
    ∧ ((∀ c ∈ T, c ≠ '@' ∧ c ≠ '=') →
        q.AmountExtra = [] ∧ q.Amount = trimSpaceRight (trimSpaceLeft T))

/-- The variable `accountWidth` of `Transaction.write`, for a posting with an
amount or an amount extra. -/
def accountWidth (p : Posting) : Int :=
  if (p.Account.length : Int) + 2 < 48 - (p.Amount.length : Int) then
    48 - (p.Amount.length : Int)
  else (p.Account.length : Int) + 2

/-- The variable `amountExtra` of `Transaction.write` when the posting line is
formatted, for a posting with an amount or an amount extra. -/
def amountSuffix (p : Posting) : Str :=
  let amountExtra := if p.AmountExtra != [] then " ".toList ++ p.AmountExtra else []
  if p.DirectTag != [] then amountExtra ++ ("  ".toList ++ p.DirectTag) else amountExtra

/-- The lines `Transaction.write` writes for the extra tags of a posting. -/
def extraTagLines (p : Posting) : Str :=
  (p.ExtraTags.map (fun tag => "    ".toList ++ tag ++ ['\n'])).flatten

/-- The specification's `field_width`:
`max(48 - length(amount), length(account) + 2)`, the difference signed. -/
def specFieldWidth (p : Posting) : Int :=
  max (48 - (p.Amount.length : Int)) ((p.Account.length : Int) + 2)

/-- The posting line in the words of the specification, for a posting with
an amount or an amount extra: four spaces, the account padded on the right
with spaces to `specFieldWidth` characters, the amount, one space and the
amount extra if there is one, two spaces and the direct tag if there is one,
the line feed. -/
def specPostingLine (p : Posting) : Str :=
  "    ".toList
    ++ (p.Account ++ List.replicate ((specFieldWidth p).toNat - p.Account.length) ' ')
    ++ p.Amount
    ++ (if p.AmountExtra = [] then [] else ' ' :: p.AmountExtra)
    ++ (if p.DirectTag = [] then [] else ' ' :: ' ' :: p.DirectTag)
    ++ ['\n']

/-- The first line that is not blank, if there is one, does not begin with a
space or a tab. -/
def startsAtHeader : List Str → Bool
  | [] => true
  | l :: ls => if isEmptyLine l then startsAtHeader ls else notIndented l

/-! # Theorems -/

/-! ## Facts about the helpers -/

theorem isSpace_iff (c : Char) : isSpace c = true ↔ c = ' ' ∨ c = '\t' := by
  simp [isSpace]

theorem indexSpace_eq_none {s : Str} (h : ∀ c ∈ s, isSpace c = false) : indexSpace s = none := by
  induction s with
  | nil => rfl
  | cons c cs ih =>
    have hc : isSpace c = false := h c (List.mem_cons_self _ _)
    have hcs : ∀ d ∈ cs, isSpace d = false := fun d hd => h d (List.mem_cons_of_mem _ hd)
    simp [indexSpace, hc, ih hcs]

theorem indexSpace_append {d : Str} (h : ∀ c ∈ d, isSpace c = false) (c : Char)
    (hc : isSpace c = true) (r : Str) : indexSpace (d ++ c :: r) = some d.length := by
  induction d with
  | nil => simp [indexSpace, hc]
  | cons a as ih =>
    have ha : isSpace a = false := h a (List.mem_cons_self _ _)
    have has : ∀ d ∈ as, isSpace d = false := fun d hd => h d (List.mem_cons_of_mem _ hd)
    simp [indexSpace, ha, ih has]

theorem trimSpaceLeft_eq_dropWhile (s : Str) : trimSpaceLeft s = s.dropWhile isSpace := by
  induction s with
  | nil => rfl
  | cons c cs ih =>
    unfold trimSpaceLeft at ih ⊢
    cases hc : isSpace c
    · simp [indexNotSpace, hc, List.dropWhile]
    · simp only [indexNotSpace, hc, List.dropWhile, Bool.not_true, Bool.false_eq_true, if_false]
      cases hi : indexNotSpace cs with
      | none => rw [hi] at ih; simpa using ih
      | some k => rw [hi] at ih; simpa using ih

theorem isEmptyLine_iff (s : Str) : isEmptyLine s = true ↔ ∀ c ∈ s, isSpace c = true := by
  induction s with
  | nil => simp [isEmptyLine, indexNotSpace]
  | cons c cs ih =>
    unfold isEmptyLine at ih ⊢
    cases hc : isSpace c
    · simp [indexNotSpace, hc]
    · simp only [indexNotSpace, hc, Bool.not_true, Bool.false_eq_true, if_false, List.mem_cons,
        forall_eq_or_imp, true_and]
      rw [← ih]
      cases indexNotSpace cs <;> simp

theorem trimSpaceRightFrom_eq (s : Str) (n : Nat) (h : n ≤ s.length) :
    trimSpaceRightFrom s n = (s.take n).rdropWhile isSpace := by
  induction n with
  | zero => simp [trimSpaceRightFrom]
  | succ n ih =>
    have hn : n < s.length := h
    have ht : s.take (n + 1) = s.take n ++ [s[n]] := by
      rw [List.take_succ, List.getElem?_eq_getElem hn]; rfl
    simp only [trimSpaceRightFrom, List.getElem?_eq_getElem hn, ht, List.rdropWhile_concat]
    cases hc : isSpace s[n]
    · simp
    · simp [ih (Nat.le_of_lt hn)]

theorem trimSpaceRight_eq_rdropWhile (s : Str) : trimSpaceRight s = s.rdropWhile isSpace := by
  rw [trimSpaceRight, trimSpaceRightFrom_eq s _ (Nat.le_refl _), List.take_length]

theorem dropWhile_isSpace_run {w : Str} (hw : ∀ c ∈ w, isSpace c = true) (x : Str)
    (hx : ∀ c ∈ x.head?, isSpace c = false) : (w ++ x).dropWhile isSpace = x := by
  induction w with
  | nil =>
    cases x with
    | nil => rfl
    | cons a as =>
      have : isSpace a = false := hx a (by simp)
      simp [List.dropWhile, this]
  | cons a as ih =>
    have ha : isSpace a = true := hw a (List.mem_cons_self _ _)
    have has : ∀ d ∈ as, isSpace d = true := fun d hd => hw d (List.mem_cons_of_mem _ hd)
    simp [List.dropWhile, ha, ih has]

/-- C9: a header line with no space and no tab is all date: no status (the
rune stays 0), an empty description, whatever the line ends in. -/
theorem parseHeader_no_whitespace {P : Type} (line : Str)
    (h : ∀ c ∈ line, isSpace c = false) :
    (parseHeader line : TransactionOf P)
      = { Date := line, Status := 0, Description := [], Tags := [], Postings := [] } := by
  simp [parseHeader, indexSpace_eq_none h]

theorem parseHeader_no_whitespace_witness :
    (parseHeader "2022/05/12*".toList : Transaction)
      = { Date := "2022/05/12*".toList, Status := 0, Description := [], Tags := [],
          Postings := [] } :=
  parseHeader_no_whitespace "2022/05/12*".toList (by decide)

/-- C10: after the date and the run of spaces and tabs that follows it, one
marker `*` or `!` is the status and the text after the marker, left-trimmed,
is the description; when the text after the run starts with another byte, there
is no status and the description is that text. -/
theorem parseHeader_status {P : Type} (d w1 w2 x y : Str) (m c : Char)
    (hd : ∀ a ∈ d, isSpace a = false)
    (hw1 : w1 ≠ [] ∧ ∀ a ∈ w1, isSpace a = true)
    (hm : m = '*' ∨ m = '!')
    (hw2 : ∀ a ∈ w2, isSpace a = true)
    (hx : ∀ a ∈ x.head?, isSpace a = false)
    (hc : c ≠ '*' ∧ c ≠ '!' ∧ isSpace c = false) :
    (parseHeader (d ++ w1 ++ m :: (w2 ++ x)) : TransactionOf P)
        = { Date := d, Status := (m.toNat : Int), Description := x, Tags := [], Postings := [] }
      ∧ (parseHeader (d ++ w1 ++ c :: y) : TransactionOf P)
        = { Date := d, Status := 0, Description := c :: y, Tags := [], Postings := [] } := by
  obtain ⟨hne, hw1⟩ := hw1
  obtain ⟨a, w, rfl⟩ := List.exists_cons_of_ne_nil hne
  have ha : isSpace a = true := hw1 a (List.mem_cons_self _ _)
  have hmsp : isSpace m = false := by rcases hm with rfl | rfl <;> decide
  have hidx : ∀ r : Str, indexSpace (d ++ a :: w ++ r) = some d.length := by
    intro r
    have := indexSpace_append hd a ha (w ++ r)
    simpa using this
  have hdrop : ∀ r : Str, (d ++ a :: w ++ r).drop d.length = (a :: w) ++ r := by
    intro r; simp
  have htake : ∀ r : Str, (d ++ a :: w ++ r).take d.length = d := by
    intro r; simp
  constructor
  · have h1 : trimSpaceLeft ((a :: w) ++ m :: (w2 ++ x)) = m :: (w2 ++ x) := by
      rw [trimSpaceLeft_eq_dropWhile]
      exact dropWhile_isSpace_run hw1 _ (by simpa using hmsp)
    have h2 : trimSpaceLeft (w2 ++ x) = x := by
      rw [trimSpaceLeft_eq_dropWhile]
      exact dropWhile_isSpace_run hw2 _ hx
    have hm' : (m == '*' || m == '!') = true := by rcases hm with rfl | rfl <;> decide
    simp only [parseHeader, hidx, hdrop, htake, h1, h2, hm', if_true]
  · have h1 : trimSpaceLeft ((a :: w) ++ c :: y) = c :: y := by
      rw [trimSpaceLeft_eq_dropWhile]
      exact dropWhile_isSpace_run hw1 _ (by simpa using hc.2.2)
    have hc' : (c == '*' || c == '!') = false := by simp [hc.1, hc.2.1]
    simp only [parseHeader, hidx, hdrop, htake, h1, hc', Bool.false_eq_true, if_false]

theorem parseHeader_status_witness :
    (parseHeader ("2022-05-12".toList ++ "\t    ".toList ++ '*' :: ("   \t ".toList ++ "*Test".toList))
        : Transaction)
        = { Date := "2022-05-12".toList, Status := 42, Description := "*Test".toList, Tags := [],
            Postings := [] }
      ∧ (parseHeader ("2022-05-12".toList ++ "\t    ".toList ++ 'T' :: "est ".toList) : Transaction)
        = { Date := "2022-05-12".toList, Status := 0, Description := 'T' :: "est ".toList,
            Tags := [], Postings := [] } :=
  parseHeader_status "2022-05-12".toList "\t    ".toList "   \t ".toList "*Test".toList
    "est ".toList '*' 'T' (by decide) (by decide) (by decide) (by decide) (by decide) (by decide)

/-! ## The posting tokenizer returns -/

theorem scanAccount_ok (line rest : Str) (i : Nat) (space : Int) (hi : 0 < i) :
    ∃ r, scanAccount line rest i space = .ok r := by
  induction rest generalizing i space with
  | nil => exact ⟨_, rfl⟩
  | cons c rest ih =>
    unfold scanAccount
    split
    · exact ⟨_, rfl⟩
    · split
      · split
        · rw [if_neg (Nat.pos_iff_ne_zero.mp hi)]; exact ⟨_, rfl⟩
        · exact ih (i + 1) i (Nat.succ_pos _)
      · exact ih (i + 1) space (Nat.succ_pos _)

theorem parsePosting_ok (c : Char) (l : Str) (hc : c ≠ ' ') :
    parsePosting (c :: l) = .ok (postingOf (c :: l)) := by
  have hs : ∃ r, scanAccount (c :: l) (c :: l) 0 (-1) = .ok r := by
    unfold scanAccount
    split
    · exact ⟨_, rfl⟩
    · rw [if_neg (by simpa using hc)]
      exact scanAccount_ok _ _ _ _ (Nat.succ_pos _)
  obtain ⟨r, hr⟩ := hs
  have : ∃ q, parsePosting (c :: l) = .ok q := by
    unfold parsePosting
    rw [hr]
    exact ⟨_, rfl⟩
  obtain ⟨q, hq⟩ := this
  rw [postingOf, hq]

/-! ## Reading the heap back -/

@[simp] theorem postsOf_nil : postsOf [] = [] := rfl

@[simp] theorem postsOf_cons (t : Transaction) (ts : List Transaction) :
    postsOf (t :: ts) = t.Postings ++ postsOf ts := rfl

@[simp] theorem postsOf_append (A B : List Transaction) :
    postsOf (A ++ B) = postsOf A ++ postsOf B := by
  simp [postsOf]

@[simp] theorem cellsOf_length (m : Nat) (ts : List Transaction) :
    (cellsOf m ts).length = ts.length := by
  induction ts generalizing m with
  | nil => rfl
  | cons t ts ih => simp [cellsOf, ih]

theorem cellsOf_append (m : Nat) (A B : List Transaction) :
    cellsOf m (A ++ B) = cellsOf m A ++ cellsOf (m + (postsOf A).length) B := by
  induction A generalizing m with
  | nil => simp [cellsOf]
  | cons t A ih => simp [cellsOf, ih, Nat.add_assoc]

theorem readPostings_range (h : Heap) (X Y Z : List Posting)
    (hp : h.postings = X ++ Y ++ Z) :
    h.readPostings (List.range' X.length Y.length) = .ok Y := by
  induction Y generalizing X with
  | nil => rfl
  | cons y Y ih =>
    have h1 : h.postings[X.length]? = some y := by
      rw [hp, List.append_assoc, List.getElem?_append_right (Nat.le_refl _)]; simp
    have h2 := ih (X ++ [y]) (by rw [hp]; simp)
    simp only [List.length_append, List.length_singleton] at h2
    simp only [List.length_cons, List.range'_succ, Heap.readPostings, h1, h2]

theorem readTransactions_range (h : Heap) (T0 : List (TransactionOf Addr)) (P0 : List Posting)
    (A B : List Transaction)
    (ht : h.transactions = T0 ++ cellsOf P0.length (A ++ B))
    (hp : h.postings = P0 ++ postsOf (A ++ B)) :
    h.readTransactions (List.range' (T0.length + A.length) B.length) = .ok B := by
  induction B generalizing A with
  | nil => rfl
  | cons t B ih =>
    have h1 : h.transactions[T0.length + A.length]?
        = some { Date := t.Date, Status := t.Status, Description := t.Description,
                 Tags := t.Tags,
                 Postings := List.range' (P0.length + (postsOf A).length) t.Postings.length } := by
      rw [ht, cellsOf_append, ← List.append_assoc]
      rw [List.getElem?_append_right (by simp)]
      simp [cellsOf]
    have h2 : h.readPostings (List.range' (P0.length + (postsOf A).length) t.Postings.length)
        = .ok t.Postings := by
      have := readPostings_range h (P0 ++ postsOf A) t.Postings (postsOf B)
        (by rw [hp]; simp)
      simpa using this
    have h3 := ih (A ++ [t]) (by rw [ht]; simp) (by rw [hp]; simp)
    simp only [List.length_append, List.length_singleton, ← Nat.add_assoc] at h3
    simp only [List.length_cons, List.range'_succ, Heap.readTransactions, h1, h2, h3]

theorem Holds.read {T0 : List (TransactionOf Addr)} {P0 : List Posting} {p : Parser} {h : Heap}
    {σ : Asm} (H : Holds T0 P0 p h σ) : h.readTransactions p.transactions = .ok σ.out := by
  have := readTransactions_range h T0 P0 [] σ.out (by simpa using H.transactions)
    (by simpa using H.postings)
  rw [H.slice]
  simpa using this

/-! ## One step of the parser against one step on values -/

theorem parseHeader_cell (line : Str) :
    (parseHeader line : TransactionOf Addr)
      = { Date := (parseHeader line : Transaction).Date,
          Status := (parseHeader line : Transaction).Status,
          Description := (parseHeader line : Transaction).Description,
          Tags := (parseHeader line : Transaction).Tags,
          Postings := [] }
    ∧ (parseHeader line : Transaction).Postings = [] := by
  unfold parseHeader
  constructor <;> rfl

theorem head_trimSpaceLeft {s l : Str} {c : Char} (h : trimSpaceLeft s = c :: l) :
    isSpace c = false := by
  rw [trimSpaceLeft_eq_dropWhile] at h
  have := List.head_dropWhile_not isSpace s (by rw [h]; simp)
  simpa [h] using this

theorem parseFile_spec (T0 : List (TransactionOf Addr)) (P0 : List Posting) (p : Parser)
    (h : Heap) (ts : List Transaction)
    (ht : h.transactions = T0 ++ cellsOf P0.length ts)
    (hp : h.postings = P0 ++ postsOf ts)
    (hs : p.transactions = List.range' T0.length ts.length)
    (he : p.eof = false) :
    match fileStep ts p.cur with
    | none => parseFile p h = .ok (p, h, none, some (syntaxError p.lineno))
    | some σ' => ∃ p' h', parseFile p h = .ok (p', h', some σ'.state, none)
        ∧ Holds T0 P0 p' h' σ' ∧ p'.input = p.input ∧ p'.lineno = p.lineno
        ∧ p'.eof = false := by
  unfold fileStep parseFile
  simp only [he, Bool.false_eq_true, if_false]
  by_cases hb : isEmptyLine p.cur = true
  · simp only [hb, if_true]
    refine ⟨p, h, rfl, ⟨?_, ?_, ?_, ?_, ?_⟩, rfl, rfl, he⟩
    · simpa [Asm.out] using ht
    · simpa [Asm.out] using hp
    · simpa [Asm.out] using hs
    · intro t ht; cases ht
    · intro t ht; cases ht
  · simp only [hb, Bool.false_eq_true, if_false]
    cases hcur : p.cur with
    | nil => rw [hcur] at hb; exact absurd rfl hb
    | cons c l =>
      by_cases hc : isSpace c = true
      · simp only [hc, if_true, Bool.false_eq_true, if_false]
      · simp only [hc, Bool.false_eq_true, if_false]
        refine ⟨_, _, rfl, ⟨?_, ?_, ?_, ?_, ?_⟩, rfl, rfl, rfl⟩
        · simp only [Asm.out, Option.toList, cellsOf_append, ht, List.append_assoc, cellsOf]
          rw [(parseHeader_cell (c :: l)).1, (parseHeader_cell (c :: l)).2]
          simp
        · simp [Asm.out, hp, postsOf, (parseHeader_cell (c :: l)).2]
        · simp [Asm.out, hs, ht, List.range'_concat]
        · intro t _; simp [ht]
        · intro t ht'
          simp only [Option.some.injEq] at ht'
          subst ht'
          simp [(parseHeader_cell (c :: l)).2]

theorem updateTransaction_last (h : Heap) (A : List (TransactionOf Addr))
    (x : TransactionOf Addr) (f : TransactionOf Addr → TransactionOf Addr)
    (hA : h.transactions = A ++ [x]) :
    h.updateTransaction (some A.length) f = .ok { h with transactions := A ++ [f x] } := by
  have h1 : h.transactions[A.length]? = some x := by
    rw [hA, List.getElem?_append_right (Nat.le_refl _)]; simp
  simp only [Heap.updateTransaction, h1, hA]
  simp

theorem updatePosting_last (h : Heap) (A : List Posting) (x : Posting) (f : Posting → Posting)
    (hA : h.postings = A ++ [x]) :
    h.updatePosting A.length f = .ok { h with postings := A ++ [f x] } := by
  have h1 : h.postings[A.length]? = some x := by
    rw [hA, List.getElem?_append_right (Nat.le_refl _)]; simp
  simp only [Heap.updatePosting, h1, hA]
  simp

theorem parseTransaction_spec {T0 : List (TransactionOf Addr)} {P0 : List Posting} {p : Parser}
    {h : Heap} {σ : Asm} (H : Holds T0 P0 p h σ) (t : Transaction) (hc : σ.current = some t)
    (he : p.eof = false) :
    match σ.step p.cur with
    | none => parseTransaction p h = .ok (p, h, none, some (syntaxError p.lineno))
    | some σ' => ∃ p' h', parseTransaction p h = .ok (p', h', some σ'.state, none)
        ∧ Holds T0 P0 p' h' σ' ∧ p'.input = p.input ∧ p'.lineno = p.lineno
        ∧ p'.eof = false := by
  obtain ⟨closed, current⟩ := σ
  simp only at hc
  subst hc
  have Ht := H.transactions
  have Hp := H.postings
  have Hs := H.slice
  have Htr := H.tr t rfl
  have Hpp := H.p t rfl
  simp only [Asm.out, Option.toList] at Ht Hp Hs Htr Hpp
  unfold Asm.step parseTransaction
  simp only [he, Bool.false_eq_true, if_false]
  by_cases hr : notIndented p.cur = true
  · simp only [hr, if_true]
    exact parseFile_spec T0 P0 p h (closed ++ [t]) Ht Hp Hs he
  · simp only [hr, Bool.false_eq_true, if_false]
    cases hl : trimSpaceLeft p.cur with
    | nil =>
      refine ⟨p, h, rfl, ⟨?_, ?_, ?_, ?_, ?_⟩, rfl, rfl, he⟩
      · simpa [Asm.out] using Ht
      · simpa [Asm.out] using Hp
      · simpa [Asm.out] using Hs
      · intro t ht; cases ht
      · intro t ht; cases ht
    | cons c l =>
      have hcs : isSpace c = false := head_trimSpaceLeft hl
      have Ht' : h.transactions = (T0 ++ cellsOf P0.length closed)
          ++ [{ Date := t.Date, Status := t.Status, Description := t.Description,
                Tags := t.Tags,
                Postings := List.range' (P0.length + (postsOf closed).length)
                  t.Postings.length }] := by
        rw [Ht, cellsOf_append]; simp [cellsOf]
      have Htr' : p.tr = some (T0 ++ cellsOf P0.length closed).length := by
        rw [Htr]; simp
      by_cases hsc : (c == ';') = true
      · simp only [hsc, if_true]
        cases hq : t.Postings.getLast? with
        | none =>
          have hnil : t.Postings = [] := List.getLast?_eq_none_iff.mp hq
          rw [hnil] at Hpp
          simp only [if_true] at Hpp
          simp only [Hpp, Htr', updateTransaction_last h _ _ _ Ht']
          refine ⟨_, _, rfl, ⟨?_, ?_, ?_, ?_, ?_⟩, rfl, rfl, he⟩
          · simp [Asm.out, addComment, hq, cellsOf_append, cellsOf]
          · simp [Asm.out, addComment, hq, Hp]
          · simpa [Asm.out] using Hs
          · intro u _; simpa using Htr
          · intro u hu
            simp only [Option.some.injEq] at hu
            subst hu
            simp [addComment, hq, hnil, Hpp]
        | some q =>
          obtain ⟨qs, hqs⟩ : ∃ qs, t.Postings = qs ++ [q] := by
            have hne : t.Postings ≠ [] := by
              intro h0; rw [h0] at hq; cases hq
            refine ⟨t.Postings.dropLast, ?_⟩
            have := List.dropLast_append_getLast hne
            rw [List.getLast?_eq_getLast _ hne] at hq
            simp only [Option.some.injEq] at hq
            rw [hq] at this
            exact this.symm
          have hne : t.Postings ≠ [] := by rw [hqs]; simp
          have Hp' : h.postings = (P0 ++ postsOf closed ++ qs) ++ [q] := by
            rw [Hp]; simp [hqs]
          have Hpp' : p.p = some (P0 ++ postsOf closed ++ qs).length := by
            rw [Hpp, if_neg hne]; simp [hqs]; omega
          simp only [Hpp', updatePosting_last h _ _ _ Hp']
          refine ⟨_, _, rfl, ⟨?_, ?_, ?_, ?_, ?_⟩, rfl, rfl, he⟩
          · simp [Asm.out, addComment, hq, cellsOf_append, cellsOf, Ht, hqs]
          · simp [Asm.out, addComment, hq, hqs]
          · simpa [Asm.out] using Hs
          · intro u _; simpa using Htr
          · intro u hu
            simp only [Option.some.injEq] at hu
            subst hu
            simp [addComment, hq, hqs, Hpp', Asm.out]
            omega
      · simp only [hsc, Bool.false_eq_true, if_false]
        have hc' : c ≠ ' ' := by
          intro h0; rw [h0] at hcs; exact absurd hcs (by decide)
        rw [parsePosting_ok c l hc']
        have Ht2 : (Heap.mk h.transactions (h.postings ++ [postingOf (c :: l)])).transactions
            = (T0 ++ cellsOf P0.length closed)
              ++ [{ Date := t.Date, Status := t.Status, Description := t.Description,
                    Tags := t.Tags,
                    Postings := List.range' (P0.length + (postsOf closed).length)
                      t.Postings.length }] := Ht'
        simp only [bind, Except.bind, Htr', updateTransaction_last _ _ _ _ Ht2]
        refine ⟨_, _, rfl, ⟨?_, ?_, ?_, ?_, ?_⟩, rfl, rfl, rfl⟩
        · simp [Asm.out, cellsOf_append, cellsOf, Hp, List.range'_concat, Nat.add_assoc]
        · simp [Asm.out, Hp]
        · simpa [Asm.out] using Hs
        · intro u _; simp
        · intro u hu
          simp only [Option.some.injEq] at hu
          subst hu
          simp [Hp, Asm.out]
          simp only [← Nat.add_assoc, Nat.add_sub_cancel]

/-! ## Lines -/

theorem indexByte_eq_none {s : Str} {b : Char} (h : b ∉ s) : indexByte s b = none := by
  induction s with
  | nil => rfl
  | cons c cs ih =>
    have hc : (c == b) = false := by
      simp only [beq_eq_false_iff_ne, ne_eq]
      intro e; exact h (by simp [e])
    have hcs : b ∉ cs := fun hm => h (List.mem_cons_of_mem _ hm)
    simp [indexByte, hc, ih hcs]

theorem indexByte_append {l : Str} {b : Char} (h : b ∉ l) (rest : Str) :
    indexByte (l ++ b :: rest) b = some l.length := by
  induction l with
  | nil => simp [indexByte]
  | cons c cs ih =>
    have hc : (c == b) = false := by
      simp only [beq_eq_false_iff_ne, ne_eq]
      intro e; exact h (by simp [e])
    have hcs : b ∉ cs := fun hm => h (List.mem_cons_of_mem _ hm)
    simp [indexByte, hc, ih hcs]

theorem trimSuffixLF_concat (l : Str) : trimSuffixLF (l ++ ['\n']) = l := by
  simp [trimSuffixLF]

theorem terminatedLines_no_lf (s : Str) : ∀ l ∈ terminatedLines s, '\n' ∉ l := by
  induction s with
  | nil => simp [terminatedLines]
  | cons c cs ih =>
    unfold terminatedLines
    by_cases hc : (c == '\n') = true
    · simp only [hc, if_true, List.mem_cons, forall_eq_or_imp]
      exact ⟨by simp, ih⟩
    · simp only [hc, Bool.false_eq_true, if_false]
      cases ht : terminatedLines cs with
      | nil => simp
      | cons l ls =>
        rw [ht] at ih
        simp only [List.mem_cons, forall_eq_or_imp] at ih ⊢
        refine ⟨?_, ih.2⟩
        simp only [List.mem_cons, not_or]
        exact ⟨fun e => hc (by simp [← e]), ih.1⟩

theorem unterminatedRest_no_lf (s : Str) : '\n' ∉ unterminatedRest s := by
  induction s with
  | nil => simp [unterminatedRest]
  | cons c cs ih =>
    unfold unterminatedRest
    by_cases hc : (c == '\n') = true
    · simpa only [hc, if_true] using ih
    · simp only [hc, Bool.false_eq_true, if_false]
      cases terminatedLines cs with
      | nil =>
        simp only [List.mem_cons, not_or]
        exact ⟨fun e => hc (by simp [← e]), ih⟩
      | cons l ls => exact ih

theorem joinLines_cons (l : Str) (ls : List Str) :
    joinLines (l :: ls) = l ++ '\n' :: joinLines ls := by
  simp [joinLines]

theorem lines_decompose (s : Str) :
    s = joinLines (terminatedLines s) ++ unterminatedRest s := by
  induction s with
  | nil => rfl
  | cons c cs ih =>
    unfold terminatedLines unterminatedRest
    by_cases hc : (c == '\n') = true
    · have : c = '\n' := by simpa using hc
      simp only [hc, if_true, joinLines_cons, List.nil_append, List.cons_append]
      rw [← ih, this]
    · simp only [hc, Bool.false_eq_true, if_false]
      cases ht : terminatedLines cs with
      | nil =>
        rw [ht] at ih
        simp only [joinLines, List.map_nil, List.flatten_nil, List.nil_append] at ih ⊢
        rw [← ih]
      | cons l ls =>
        rw [ht] at ih
        simp only [joinLines_cons, List.cons_append] at ih ⊢
        rw [← ih]

/-! ## The loop of `Parser.Parse` -/

theorem next_line (p : Parser) (l rest : Str) (hl : '\n' ∉ l)
    (hi : p.input = l ++ '\n' :: rest) :
    p.next = { p with input := rest, lineno := p.lineno + 1, cur := l } := by
  have h1 : (l ++ '\n' :: rest).take (l.length + 1) = l ++ ['\n'] := by
    rw [show l ++ '\n' :: rest = (l ++ ['\n']) ++ rest by simp]
    rw [List.take_left' (by simp)]
  have h2 : (l ++ '\n' :: rest).drop (l.length + 1) = rest := by
    rw [show l ++ '\n' :: rest = (l ++ ['\n']) ++ rest by simp]
    rw [List.drop_left' (by simp)]
  simp only [Parser.next, hi, indexByte_append hl, h1, h2, trimSuffixLF_concat]
  simp

theorem next_eof (p : Parser) (hi : '\n' ∉ p.input) :
    p.next.eof = true ∧ p.next.transactions = p.transactions := by
  simp only [Parser.next, indexByte_eq_none hi]
  split <;> simp

theorem Holds.congr {T0 : List (TransactionOf Addr)} {P0 : List Posting} {p p' : Parser}
    {h : Heap} {σ : Asm} (H : Holds T0 P0 p h σ) (h1 : p'.transactions = p.transactions)
    (h2 : p'.tr = p.tr) (h3 : p'.p = p.p) : Holds T0 P0 p' h σ :=
  ⟨H.transactions, H.postings, h1 ▸ H.slice, fun t ht => h2 ▸ H.tr t ht,
    fun t ht => h3 ▸ H.p t ht⟩

theorem run_step {T0 : List (TransactionOf Addr)} {P0 : List Posting} {p : Parser}
    {h : Heap} {σ : Asm} (H : Holds T0 P0 p h σ) (he : p.eof = false) :
    match σ.step p.cur with
    | none => σ.state.run p h = .ok (p, h, none, some (syntaxError p.lineno))
    | some σ' => ∃ p' h', σ.state.run p h = .ok (p', h', some σ'.state, none)
        ∧ Holds T0 P0 p' h' σ' ∧ p'.input = p.input ∧ p'.lineno = p.lineno
        ∧ p'.eof = false := by
  cases hc : σ.current with
  | none =>
    have h1 : σ.state = .parseFile := by simp [Asm.state, hc]
    have h2 : σ.step p.cur = fileStep σ.closed p.cur := by simp [Asm.step, hc]
    rw [h1, h2]
    exact parseFile_spec T0 P0 p h σ.closed (by simpa [Asm.out, hc] using H.transactions)
      (by simpa [Asm.out, hc] using H.postings) (by simpa [Asm.out, hc] using H.slice) he
  | some t =>
    have h1 : σ.state = .parseTransaction := by simp [Asm.state, hc]
    rw [h1]
    exact parseTransaction_spec H t hc he

theorem parseLoop_spec (T0 : List (TransactionOf Addr)) (P0 : List Posting) (rest : Str)
    (hrest : '\n' ∉ rest) :
    ∀ (ls : List Str) (fuel : Nat) (p : Parser) (h : Heap) (σ : Asm),
      (∀ l ∈ ls, '\n' ∉ l) → Holds T0 P0 p h σ → p.input = joinLines ls ++ rest →
      p.eof = false → ls.length < fuel →
      ∃ p' h', parseLoop fuel σ.state p h = .ok (p', h', (σ.run p.lineno ls).2)
        ∧ h'.readTransactions p'.transactions = .ok (σ.run p.lineno ls).1
  | [], fuel, p, h, σ, _, H, hi, _, hf => by
    obtain ⟨f, rfl⟩ : ∃ f, fuel = f + 1 := ⟨fuel - 1, by omega⟩
    have hin : '\n' ∉ p.input := by rw [hi]; simpa [joinLines] using hrest
    obtain ⟨h1, h2⟩ := next_eof p hin
    have hrun : σ.state.run p.next h = .ok (p.next, h, none, none) := by
      cases σ.state <;> simp [StateFn.run, parseFile, parseTransaction, h1]
    refine ⟨p.next, h, ?_, ?_⟩
    · simp [parseLoop, hrun, Asm.run]
    · rw [h2]; exact H.read
  | l :: ls, fuel, p, h, σ, hls, H, hi, he, hf => by
    obtain ⟨f, rfl⟩ : ∃ f, fuel = f + 1 := ⟨fuel - 1, by simp at hf; omega⟩
    have hl : '\n' ∉ l := hls l (List.mem_cons_self _ _)
    have hnext := next_line p l (joinLines ls ++ rest) hl (by rw [hi, joinLines_cons]; simp)
    have H' : Holds T0 P0 p.next h σ := H.congr (by rw [hnext]) (by rw [hnext]) (by rw [hnext])
    have he' : p.next.eof = false := by rw [hnext]; exact he
    have hcur : p.next.cur = l := by rw [hnext]
    have hno : p.next.lineno = p.lineno + 1 := by rw [hnext]
    have hin : p.next.input = joinLines ls ++ rest := by rw [hnext]
    have hstep := run_step H' he'
    rw [hcur] at hstep
    cases hs : σ.step l with
    | none =>
      rw [hs] at hstep
      simp only at hstep
      refine ⟨p.next, h, ?_, ?_⟩
      · simp [parseLoop, hstep, Asm.run, hs, hno]
      · simp only [Asm.run, hs]; exact H'.read
    | some σ' =>
      rw [hs] at hstep
      obtain ⟨p', h', hr, Hn, hi', hn', he''⟩ := hstep
      have := parseLoop_spec T0 P0 rest hrest ls f p' h' σ'
        (fun l hl => hls l (List.mem_cons_of_mem _ hl)) Hn (by rw [hi', hin]) he''
        (by simp at hf; omega)
      obtain ⟨p'', h'', hloop, hread⟩ := this
      refine ⟨p'', h'', ?_, ?_⟩
      · simp only [parseLoop, hr, Asm.run, hs]
        rw [hloop, hn', hno]
      · simp only [Asm.run, hs]
        rw [hread, hn', hno]

theorem terminatedLines_length_le (s : Str) : (terminatedLines s).length ≤ s.length := by
  induction s with
  | nil => simp [terminatedLines]
  | cons c cs ih =>
    unfold terminatedLines
    split
    · simpa using ih
    · cases ht : terminatedLines cs with
      | nil => simp
      | cons l ls =>
        rw [ht] at ih
        simp only [List.length_cons] at ih ⊢
        omega

/-- `Parser.Parse` on any parser and heap returns, and what it returns is the
value-level result `assemble`: the fields left over from an earlier call play
no part. -/
theorem Parser.Parse_from_any_state (p0 : Parser) (h0 : Heap) (content : Str) :
    ∃ p' h', Parser.Parse p0 h0 content = .ok (p', h', (assemble content).2)
      ∧ h'.readTransactions p'.transactions = .ok (assemble content).1 := by
  have H : Holds h0.transactions h0.postings
      { p0 with input := content, lineno := 0, eof := false, transactions := [] } h0 {} :=
    ⟨(by simp [Asm.out, cellsOf]), (by simp [Asm.out]), (by simp [Asm.out]),
      (fun t ht => by cases ht), (fun t ht => by cases ht)⟩
  have := parseLoop_spec h0.transactions h0.postings (unterminatedRest content)
    (unterminatedRest_no_lf content) (terminatedLines content) (content.length + 1) _ h0 {}
    (terminatedLines_no_lf content) H (lines_decompose content) rfl
    (Nat.lt_succ_of_le (terminatedLines_length_le content))
  exact this

/-- `Parse` never panics and always returns: its result is `assemble`. -/
theorem Parse_eq_assemble (content : Str) : Parse content = .ok (assemble content) := by
  obtain ⟨p', h', h1, h2⟩ := Parser.Parse_from_any_state {} {} content
  simp only [Parse, h1, h2]

/-! ## Steps of the value-level assembler -/

theorem isEmptyLine_cons_of_not_space {c : Char} (l : Str) (hc : isSpace c = false) :
    isEmptyLine (c :: l) = false := by
  simp [isEmptyLine, indexNotSpace, hc]

theorem notIndented_eq_true {l : Str} (h : notIndented l = true) :
    ∃ c r, l = c :: r ∧ isSpace c = false := by
  cases l with
  | nil => simp [notIndented] at h
  | cons c r => exact ⟨c, r, rfl, by simpa [notIndented] using h⟩

theorem beginsWithSpace_eq_true {l : Str} (h : beginsWithSpace l = true) :
    ∃ c r, l = c :: r ∧ isSpace c = true := by
  cases l with
  | nil => simp [beginsWithSpace] at h
  | cons c r => exact ⟨c, r, rfl, by simpa [beginsWithSpace] using h⟩

theorem notIndented_of_isEmptyLine {l : Str} (h : isEmptyLine l = true) :
    notIndented l = false := by
  cases l with
  | nil => rfl
  | cons c r =>
    have := (isEmptyLine_iff (c :: r)).mp h c (List.mem_cons_self _ _)
    simp [notIndented, this]

theorem trimSpaceLeft_eq_nil_iff (l : Str) : trimSpaceLeft l = [] ↔ isEmptyLine l = true := by
  rw [trimSpaceLeft_eq_dropWhile, isEmptyLine_iff, List.dropWhile_eq_nil_iff]

theorem fileStep_header (closed : List Transaction) {l : Str} (h : notIndented l = true) :
    fileStep closed l = some { closed := closed, current := some (parseHeader l) } := by
  obtain ⟨c, r, rfl, hc⟩ := notIndented_eq_true h
  simp [fileStep, isEmptyLine_cons_of_not_space r hc, hc]

theorem fileStep_blank (closed : List Transaction) {l : Str} (h : isEmptyLine l = true) :
    fileStep closed l = some { closed := closed, current := none } := by
  simp [fileStep, h]

theorem fileStep_indented (closed : List Transaction) {l : Str}
    (h : beginsWithSpace l = true) (hne : isEmptyLine l = false) :
    fileStep closed l = none := by
  obtain ⟨c, r, rfl, hc⟩ := beginsWithSpace_eq_true h
  simp [fileStep, hne, hc]

theorem fileStep_eq_none_iff (closed : List Transaction) (l : Str) :
    fileStep closed l = none ↔ (beginsWithSpace l = true ∧ isEmptyLine l = false) := by
  by_cases hb : isEmptyLine l = true
  · simp [fileStep, hb]
  · cases l with
    | nil => exact absurd rfl hb
    | cons c r =>
      by_cases hc : isSpace c = true <;> simp [fileStep, hb, hc, beginsWithSpace]

theorem step_file (σ : Asm) (l : Str) (h : σ.current = none) :
    σ.step l = fileStep σ.closed l := by
  simp [Asm.step, h]

theorem step_body_header (σ : Asm) (t : Transaction) {l : Str} (h : σ.current = some t)
    (hl : notIndented l = true) :
    σ.step l = some { closed := σ.closed ++ [t], current := some (parseHeader l) } := by
  simp [Asm.step, h, hl, fileStep_header _ hl]

theorem step_body_blank (σ : Asm) (t : Transaction) {l : Str} (h : σ.current = some t)
    (hl : isEmptyLine l = true) :
    σ.step l = some { closed := σ.closed ++ [t], current := none } := by
  simp [Asm.step, h, notIndented_of_isEmptyLine hl, (trimSpaceLeft_eq_nil_iff l).mpr hl]

theorem step_body_comment (σ : Asm) (t : Transaction) {l : Str} (h : σ.current = some t)
    (hl : notIndented l = false) (hc : beginsWith ';' (trimSpaceLeft l) = true) :
    σ.step l = some { closed := σ.closed, current := some (addComment t (trimSpaceLeft l)) } := by
  cases ht : trimSpaceLeft l with
  | nil => rw [ht] at hc; simp [beginsWith] at hc
  | cons c r =>
    rw [ht] at hc
    have : (c == ';') = true := by simpa [beginsWith] using hc
    simp [Asm.step, h, hl, ht, this]

theorem step_body_posting (σ : Asm) (t : Transaction) {l : Str} (h : σ.current = some t)
    (hl : notIndented l = false) (hne : isEmptyLine l = false)
    (hc : beginsWith ';' (trimSpaceLeft l) = false) :
    σ.step l = some (Asm.mk σ.closed
        (some { t with Postings := t.Postings ++ [postingOf (trimSpaceLeft l)] }))
    ∧ parsePosting (trimSpaceLeft l) = .ok (postingOf (trimSpaceLeft l)) := by
  cases ht : trimSpaceLeft l with
  | nil =>
    have := (trimSpaceLeft_eq_nil_iff l).mp ht
    rw [this] at hne; cases hne
  | cons c r =>
    rw [ht] at hc
    have hc1 : (c == ';') = false := by simpa [beginsWith] using hc
    have hc2 : c ≠ ' ' := by
      intro e
      have := head_trimSpaceLeft ht
      rw [e] at this; exact absurd this (by decide)
    exact ⟨by simp [Asm.step, h, hl, ht, hc1], parsePosting_ok c r hc2⟩

/-! ## Texts given line by line -/

theorem terminatedLines_line (l rest : Str) (hl : '\n' ∉ l) :
    terminatedLines (l ++ '\n' :: rest) = l :: terminatedLines rest := by
  induction l with
  | nil => simp [terminatedLines]
  | cons c cs ih =>
    have hc : (c == '\n') = false := by
      simp only [beq_eq_false_iff_ne, ne_eq]
      intro e; exact hl (by simp [e])
    have hcs : '\n' ∉ cs := fun hm => hl (List.mem_cons_of_mem _ hm)
    simp [terminatedLines, hc, ih hcs]

theorem terminatedLines_joinLines (ls : List Str) (rest : Str) (hls : ∀ l ∈ ls, '\n' ∉ l) :
    terminatedLines (joinLines ls ++ rest) = ls ++ terminatedLines rest := by
  induction ls with
  | nil => simp [joinLines]
  | cons l ls ih =>
    have h1 : '\n' ∉ l := hls l (List.mem_cons_self _ _)
    have h2 : ∀ l ∈ ls, '\n' ∉ l := fun l hl => hls l (List.mem_cons_of_mem _ hl)
    rw [joinLines_cons, List.append_assoc, List.cons_append, terminatedLines_line _ _ h1, ih h2]
    rfl

theorem terminatedLines_of_no_lf (r : Str) (hr : '\n' ∉ r) : terminatedLines r = [] := by
  induction r with
  | nil => rfl
  | cons c cs ih =>
    have hc : (c == '\n') = false := by
      simp only [beq_eq_false_iff_ne, ne_eq]
      intro e; exact hr (by simp [e])
    have hcs : '\n' ∉ cs := fun hm => hr (List.mem_cons_of_mem _ hm)
    simp [terminatedLines, hc, ih hcs]

/-- The text after the last line feed plays no part in the result of `Parse`:
only the lines that end in a line feed are dispatched. -/
theorem Parse_joinLines (ls : List Str) (r : Str) (hls : ∀ l ∈ ls, '\n' ∉ l) (hr : '\n' ∉ r) :
    Parse (joinLines ls ++ r) = .ok (Asm.run {} 0 ls) := by
  rw [Parse_eq_assemble, assemble, terminatedLines_joinLines ls r hls,
    terminatedLines_of_no_lf r hr, List.append_nil]

/-- C5: a final line without a line feed is not dispatched. `Parse` of the
one-line text `2022/05/12` returns no transaction (and no error), although with
a line feed after it the same line gives one transaction. -/
theorem Parse_last_line_without_lf :
    Parse "2022/05/12".toList = .ok ([], none)
      ∧ Parse "2022/05/12\n".toList
          = .ok ([{ Date := "2022/05/12".toList, Status := 0, Description := [], Tags := [],
                    Postings := [] }], none) := by
  decide

theorem no_lf_of_isEmptyLine {l : Str} (h : isEmptyLine l = true) : '\n' ∉ l := by
  intro hm
  have := (isEmptyLine_iff l).mp h _ hm
  exact absurd this (by decide)

theorem notIndented_of_beginsWithSpace {l : Str} (h : beginsWithSpace l = true) :
    notIndented l = false := by
  obtain ⟨c, r, rfl, hc⟩ := beginsWithSpace_eq_true h
  simp [notIndented, hc]

theorem run_cons_some {σ σ' : Asm} (n : Nat) {l : Str} (ls : List Str) (h : σ.step l = some σ') :
    Asm.run σ n (l :: ls) = Asm.run σ' (n + 1) ls := by
  simp [Asm.run, h]

theorem run_cons_none {σ : Asm} (n : Nat) {l : Str} (ls : List Str) (h : σ.step l = none) :
    Asm.run σ n (l :: ls) = (σ.out, some (syntaxError (n + 1))) := by
  simp [Asm.run, h]

theorem run_append_blank (σ : Asm) (n : Nat) (blanks ls : List Str) (hc : σ.current = none)
    (hb : ∀ b ∈ blanks, isEmptyLine b = true) :
    Asm.run σ n (blanks ++ ls) = Asm.run σ (n + blanks.length) ls := by
  induction blanks generalizing n with
  | nil => rfl
  | cons b bs ih =>
    have h1 : isEmptyLine b = true := hb b (List.mem_cons_self _ _)
    have h2 : ∀ b ∈ bs, isEmptyLine b = true := fun b hm => hb b (List.mem_cons_of_mem _ hm)
    have h3 : σ.step b = some σ := by
      rw [step_file σ b hc, fileStep_blank _ h1]
      cases σ; simp only at hc; rw [hc]
    have h4 : n + (b :: bs).length = n + 1 + bs.length := by
      simp only [List.length_cons]; omega
    rw [List.cons_append, run_cons_some _ _ h3, ih (n + 1) h2, h4]

/-- C7: after `k` blank lines, a non-blank line that begins with a space or
tab makes `Parse` return no transaction and the error for line `k + 1`, whose
text is `line <k+1>: expected a transaction header, but got a posting`;
blank lines are counted, and what follows the line plays no part. -/
theorem Parse_error_line_number (blanks : List Str) (l rest : Str)
    (hb : ∀ b ∈ blanks, isEmptyLine b = true)
    (hl : beginsWithSpace l = true ∧ isEmptyLine l = false ∧ '\n' ∉ l) :
    Parse (joinLines (blanks ++ [l]) ++ rest)
        = .ok ([], some (syntaxError (blanks.length + 1)))
      ∧ (syntaxError (blanks.length + 1)).lineno = blanks.length + 1
      ∧ (syntaxError (blanks.length + 1)).Error
          = "line ".toList ++ (Nat.repr (blanks.length + 1)).toList
              ++ ": expected a transaction header, but got a posting".toList := by
  refine ⟨?_, rfl, rfl⟩
  have hls : ∀ x ∈ blanks ++ [l], '\n' ∉ x := by
    intro x hx
    rcases List.mem_append.mp hx with hx | hx
    · exact no_lf_of_isEmptyLine (hb x hx)
    · simp only [List.mem_singleton] at hx; rw [hx]; exact hl.2.2
  rw [Parse_eq_assemble, assemble, terminatedLines_joinLines _ _ hls, List.append_assoc,
    run_append_blank _ _ _ _ rfl hb]
  have : (({} : Asm).step l) = none := by
    rw [step_file _ _ rfl]; exact fileStep_indented _ hl.1 hl.2.1
  simp [Asm.run, this, Asm.out]

theorem Parse_error_line_number_witness :
    Parse (joinLines (["".toList, " \t".toList] ++ ["    Assets:Cash".toList]) ++ "x\n y".toList)
        = .ok ([], some (syntaxError (["".toList, " \t".toList].length + 1)))
      ∧ (syntaxError (["".toList, " \t".toList].length + 1)).lineno
          = ["".toList, " \t".toList].length + 1
      ∧ (syntaxError (["".toList, " \t".toList].length + 1)).Error
          = "line ".toList ++ (Nat.repr (["".toList, " \t".toList].length + 1)).toList
              ++ ": expected a transaction header, but got a posting".toList :=
  Parse_error_line_number ["".toList, " \t".toList] "    Assets:Cash".toList "x\n y".toList
    (by decide) (by decide)

/-- C4 as stated fails: with a blank line between two posting lines, `Parse`
returns the syntax error for line 4 and a transaction that has only the first
posting, not a transaction with both postings and no error. -/
theorem blank_line_in_body_counterexample :
    Parse "2022/05/12 x\n a\n\n b\n".toList
        = .ok ([{ Date := "2022/05/12".toList, Status := 0, Description := "x".toList,
                  Tags := [], Postings := [{ Account := "a".toList }] }],
               some (syntaxError 4))
      ∧ ¬ ∃ t : Transaction, Parse "2022/05/12 x\n a\n\n b\n".toList = .ok ([t], none) := by
  have h : Parse "2022/05/12 x\n a\n\n b\n".toList
        = .ok ([{ Date := "2022/05/12".toList, Status := 0, Description := "x".toList,
                  Tags := [], Postings := [{ Account := "a".toList }] }],
               some (syntaxError 4)) := by decide
  refine ⟨h, ?_⟩
  rintro ⟨t, ht⟩
  rw [h] at ht
  cases ht

/-- C4 amended: a blank line inside a transaction body ends the transaction
and the assembler is back at file scope. For a header line `h`, posting lines
`p1` and `p2` (indented, not blank, not comments) and a blank line `b`,
`Parse` of the four lines returns the syntax error for line 4 together with
exactly one transaction, which has the fields of `parseHeader h`, no tags and
the single posting `parsePosting` gives for the left-trimmed `p1`. -/
theorem blank_line_ends_transaction (h p1 b p2 : Str)
    (hh : notIndented h = true ∧ '\n' ∉ h)
    (hp1 : beginsWithSpace p1 = true ∧ isEmptyLine p1 = false
      ∧ beginsWith ';' (trimSpaceLeft p1) = false ∧ '\n' ∉ p1)
    (hb : isEmptyLine b = true)
    (hp2 : beginsWithSpace p2 = true ∧ isEmptyLine p2 = false
      ∧ beginsWith ';' (trimSpaceLeft p2) = false ∧ '\n' ∉ p2) :
    ∃ q1, parsePosting (trimSpaceLeft p1) = .ok q1
      ∧ Parse (joinLines [h, p1, b, p2])
        = .ok ([{ Date := (parseHeader h : Transaction).Date,
                  Status := (parseHeader h : Transaction).Status,
                  Description := (parseHeader h : Transaction).Description,
                  Tags := [], Postings := [q1] }], some (syntaxError 4)) := by
  refine ⟨postingOf (trimSpaceLeft p1), ?_, ?_⟩
  · exact (step_body_posting ⟨[], some (parseHeader h)⟩ _ rfl
      (notIndented_of_beginsWithSpace hp1.1) hp1.2.1 hp1.2.2.1).2
  · have hls : ∀ x ∈ [h, p1, b, p2], '\n' ∉ x := by
      intro x hx
      simp only [List.mem_cons, List.mem_singleton, List.not_mem_nil, or_false] at hx
      rcases hx with rfl | rfl | rfl | rfl
      · exact hh.2
      · exact hp1.2.2.2
      · exact no_lf_of_isEmptyLine hb
      · exact hp2.2.2.2
    have := Parse_joinLines [h, p1, b, p2] [] hls (by simp)
    rw [List.append_nil] at this
    rw [this]
    have ht : (parseHeader h : Transaction).Tags = [] := by unfold parseHeader; rfl
    have hp : (parseHeader h : Transaction).Postings = [] := (parseHeader_cell h).2
    have s1 : (({} : Asm).step h) = some ⟨[], some (parseHeader h)⟩ := by
      rw [step_file _ _ rfl]; exact fileStep_header _ hh.1
    obtain ⟨t1, ht1⟩ : ∃ t1 : Transaction, t1 =
        { Date := (parseHeader h : Transaction).Date,
          Status := (parseHeader h : Transaction).Status,
          Description := (parseHeader h : Transaction).Description,
          Tags := [], Postings := [postingOf (trimSpaceLeft p1)] } := ⟨_, rfl⟩
    have s2 : (Asm.mk [] (some (parseHeader h))).step p1 = some ⟨[], some t1⟩ := by
      rw [(step_body_posting ⟨[], some (parseHeader h)⟩ _ rfl
        (notIndented_of_beginsWithSpace hp1.1) hp1.2.1 hp1.2.2.1).1, ht1, ht, hp]
      rfl
    have s3 : (Asm.mk [] (some t1)).step b = some ⟨[t1], none⟩ :=
      step_body_blank ⟨[], some t1⟩ _ rfl hb
    have s4 : (Asm.mk [t1] none).step p2 = none := by
      rw [step_file _ _ rfl]; exact fileStep_indented _ hp2.1 hp2.2.1
    rw [run_cons_some _ _ s1, run_cons_some _ _ s2, run_cons_some _ _ s3, run_cons_none _ _ s4,
      ← ht1]
    simp [Asm.out]

theorem blank_line_ends_transaction_witness :
    ∃ q1, parsePosting (trimSpaceLeft "    a  1".toList) = .ok q1
      ∧ Parse (joinLines ["2022/05/12 * x".toList, "    a  1".toList, " ".toList, "    b".toList])
        = .ok ([{ Date := (parseHeader "2022/05/12 * x".toList : Transaction).Date,
                  Status := (parseHeader "2022/05/12 * x".toList : Transaction).Status,
                  Description := (parseHeader "2022/05/12 * x".toList : Transaction).Description,
                  Tags := [], Postings := [q1] }], some (syntaxError 4)) :=
  blank_line_ends_transaction "2022/05/12 * x".toList "    a  1".toList " ".toList
    "    b".toList (by decide) (by decide) (by decide) (by decide)

/-! ## When `Parse` returns an error -/

theorem step_eq_none_iff (σ : Asm) (l : Str) :
    σ.step l = none ↔ σ.current = none ∧ beginsWithSpace l = true ∧ isEmptyLine l = false := by
  cases hc : σ.current with
  | none => rw [step_file σ l hc, fileStep_eq_none_iff]; simp
  | some t =>
    simp only [false_and, iff_false, reduceCtorEq]
    by_cases hn : notIndented l = true
    · rw [step_body_header σ t hc hn]; simp
    · simp only [Bool.not_eq_true] at hn
      simp only [Asm.step, hc, hn, Bool.false_eq_true, if_false]
      cases trimSpaceLeft l with
      | nil => simp
      | cons c r => by_cases h : (c == ';') = true <;> simp [h]

theorem step_current_eq_none_iff {σ σ' : Asm} {l : Str} (h : σ.step l = some σ') :
    σ'.current = none ↔ isEmptyLine l = true := by
  by_cases hb : isEmptyLine l = true
  · cases hc : σ.current with
    | none =>
      rw [step_file σ l hc, fileStep_blank _ hb] at h
      simp only [Option.some.injEq] at h
      simp [← h, hb]
    | some t =>
      rw [step_body_blank σ t hc hb] at h
      simp only [Option.some.injEq] at h
      simp [← h, hb]
  · simp only [hb, iff_false]
    have hne : trimSpaceLeft l ≠ [] := fun e => hb ((trimSpaceLeft_eq_nil_iff l).mp e)
    cases hc : σ.current with
    | none =>
      rw [step_file σ l hc] at h
      cases l with
      | nil => exact absurd rfl hb
      | cons c r =>
        simp only [Bool.not_eq_true] at hb
        by_cases hs : isSpace c = true
        · simp [fileStep, hb, hs] at h
        · simp only [fileStep, hb, hs, Bool.false_eq_true, if_false, Option.some.injEq] at h
          simp [← h]
    | some t =>
      by_cases hn : notIndented l = true
      · rw [step_body_header σ t hc hn] at h
        simp only [Option.some.injEq] at h
        simp [← h]
      · simp only [Bool.not_eq_true] at hn
        simp only [Asm.step, hc, hn, Bool.false_eq_true, if_false] at h
        cases ht : trimSpaceLeft l with
        | nil => exact absurd ht hne
        | cons c r =>
          rw [ht] at h
          by_cases hsc : (c == ';') = true
          · simp only [hsc, if_true, Option.some.injEq] at h
            simp [← h]
          · simp only [hsc, Bool.false_eq_true, if_false, Option.some.injEq] at h
            simp [← h]

theorem run_error_iff (ls : List Str) : ∀ (σ : Asm) (n : Nat),
    (Asm.run σ n ls).2.isSome = true ↔
      ∃ pre l post, ls = pre ++ l :: post ∧ beginsWithSpace l = true ∧ isEmptyLine l = false
        ∧ ((pre = [] ∧ σ.current = none) ∨ ∃ pre' b, pre = pre' ++ [b] ∧ isEmptyLine b = true) := by
  induction ls with
  | nil => intro σ n; simp [Asm.run]
  | cons l0 ls ih =>
    intro σ n
    cases hs : σ.step l0 with
    | none =>
      rw [run_cons_none _ _ hs]
      obtain ⟨h1, h2, h3⟩ := (step_eq_none_iff σ l0).mp hs
      simp only [Option.isSome_some, true_iff]
      exact ⟨[], l0, ls, rfl, h2, h3, Or.inl ⟨rfl, h1⟩⟩
    | some σ' =>
      rw [run_cons_some _ _ hs, ih σ' (n + 1)]
      have hcur := step_current_eq_none_iff hs
      have hnn : ¬ (σ.current = none ∧ beginsWithSpace l0 = true ∧ isEmptyLine l0 = false) := by
        rw [← step_eq_none_iff, hs]; simp
      constructor
      · rintro ⟨pre, l, post, rfl, h2, h3, h4⟩
        refine ⟨l0 :: pre, l, post, rfl, h2, h3, Or.inr ?_⟩
        rcases h4 with ⟨rfl, h4⟩ | ⟨pre', b, rfl, hb⟩
        · exact ⟨[], l0, rfl, hcur.mp h4⟩
        · exact ⟨l0 :: pre', b, rfl, hb⟩
      · rintro ⟨pre, l, post, he, h2, h3, h4⟩
        cases pre with
        | nil =>
          simp only [List.nil_append, List.cons.injEq] at he
          obtain ⟨rfl, rfl⟩ := he
          rcases h4 with ⟨_, h4⟩ | ⟨pre', b, hp, _⟩
          · exact absurd ⟨h4, h2, h3⟩ hnn
          · simp at hp
        | cons a pre =>
          simp only [List.cons_append, List.cons.injEq] at he
          obtain ⟨rfl, rfl⟩ := he
          refine ⟨pre, l, post, rfl, h2, h3, ?_⟩
          rcases h4 with ⟨hp, _⟩ | ⟨pre', b, hp, hb⟩
          · simp at hp
          · cases pre' with
            | nil =>
              simp only [List.nil_append, List.cons.injEq] at hp
              obtain ⟨rfl, rfl⟩ := hp
              exact Or.inl ⟨rfl, hcur.mpr hb⟩
            | cons a' pre' =>
              simp only [List.cons_append, List.cons.injEq] at hp
              obtain ⟨rfl, rfl⟩ := hp
              exact Or.inr ⟨pre', b, rfl, hb⟩

/-- C3 as stated fails: the text below has a header line before its indented
line, so the condition of C3 does not hold, and `Parse` returns an error all
the same, because the blank line took the assembler back to file scope. -/
theorem Parse_error_condition_counterexample :
    ¬ (returnsError (Parse "2022/05/12 x\n\n a\n".toList) = true
        ↔ indentedBeforeAnyHeader (physicalLines "2022/05/12 x\n\n a\n".toList) = true) := by
  decide

/-- C3 amended: for a text whose lines all end in a line feed, `Parse` returns
an error if and only if some non-blank line that begins with a space or tab is
the first line of the text or comes directly after a blank line. -/
theorem Parse_error_iff (ls : List Str) (hls : ∀ l ∈ ls, '\n' ∉ l) :
    returnsError (Parse (joinLines ls)) = true ↔
      ∃ pre l post, ls = pre ++ l :: post ∧ beginsWithSpace l = true ∧ isEmptyLine l = false
        ∧ (pre = [] ∨ ∃ pre' b, pre = pre' ++ [b] ∧ isEmptyLine b = true) := by
  have := Parse_joinLines ls [] hls (by simp)
  rw [List.append_nil] at this
  rw [this]
  have h2 := run_error_iff ls {} 0
  have h3 : returnsError (.ok (Asm.run {} 0 ls)) = (Asm.run {} 0 ls).2.isSome := by
    rcases Asm.run {} 0 ls with ⟨ts, _ | e⟩ <;> rfl
  rw [h3, h2]
  simp

theorem Parse_error_iff_witness :
    returnsError (Parse (joinLines ["x".toList, "".toList, " a".toList])) = true ↔
      ∃ pre l post, ["x".toList, "".toList, " a".toList] = pre ++ l :: post
        ∧ beginsWithSpace l = true ∧ isEmptyLine l = false
        ∧ (pre = [] ∨ ∃ pre' b, pre = pre' ++ [b] ∧ isEmptyLine b = true) :=
  Parse_error_iff ["x".toList, "".toList, " a".toList] (by decide)

/-! ## The transactions returned with an error -/

theorem run_error_before (ls : List Str) : ∀ (σ : Asm) (k : Nat) (ts : List Transaction)
    (e : ParseError), Asm.run σ k ls = (ts, some e) →
      k < e.lineno ∧ Asm.run σ k (ls.take (e.lineno - 1 - k)) = (ts, none) := by
  induction ls with
  | nil => intro σ k ts e h; simp [Asm.run] at h
  | cons l ls ih =>
    intro σ k ts e h
    cases hs : σ.step l with
    | none =>
      rw [run_cons_none _ _ hs] at h
      simp only [Prod.mk.injEq, Option.some.injEq] at h
      obtain ⟨rfl, rfl⟩ := h
      simp [syntaxError, Asm.run]
    | some σ' =>
      rw [run_cons_some _ _ hs] at h
      obtain ⟨h1, h2⟩ := ih σ' (k + 1) ts e h
      refine ⟨by omega, ?_⟩
      have : e.lineno - 1 - k = (e.lineno - 1 - (k + 1)) + 1 := by omega
      rw [this, List.take_succ_cons, run_cons_some _ _ hs, h2]

/-- C6: when `Parse` returns an error, made for line `n`, the transactions
returned with it are those `Parse` returns, without error, for the first
`n - 1` lines of the text (each with its line feed). -/
theorem Parse_error_partial_result (s : Str) (ts : List Transaction) (e : ParseError)
    (h : Parse s = .ok (ts, some e)) :
    Parse (joinLines ((terminatedLines s).take (e.lineno - 1))) = .ok (ts, none) := by
  rw [Parse_eq_assemble] at h
  simp only [Except.ok.injEq] at h
  have h2 := (run_error_before _ _ _ _ _ h).2
  have hls : ∀ l ∈ (terminatedLines s).take (e.lineno - 1), '\n' ∉ l :=
    fun l hl => terminatedLines_no_lf s l (List.mem_of_mem_take hl)
  have := Parse_joinLines _ [] hls (by simp)
  rw [List.append_nil] at this
  rw [this, ← h2]
  rfl

theorem Parse_error_partial_result_witness :
    Parse (joinLines ((terminatedLines "2022/05/12 x\n a\n\n b\n c".toList).take
      ((syntaxError 4).lineno - 1)))
      = .ok ([{ Date := "2022/05/12".toList, Status := 0, Description := "x".toList,
                Tags := [], Postings := [{ Account := "a".toList }] }], none) :=
  Parse_error_partial_result "2022/05/12 x\n a\n\n b\n c".toList _ (syntaxError 4) (by decide)

/-! ## One transaction and its body -/

theorem parsePosting_extraTags {l : Str} {q : Posting} (h : parsePosting l = .ok q) :
    q.ExtraTags = [] := by
  unfold parsePosting at h
  cases hs : scanAccount l l 0 (-1) with
  | error e => rw [hs] at h; cases h
  | ok r =>
    rw [hs] at h
    simp only [bind, Except.bind, pure, Except.pure] at h
    cases h
    rfl

theorem postingOf_extraTags (l : Str) : (postingOf l).ExtraTags = [] := by
  unfold postingOf
  cases h : parsePosting l with
  | error e => rfl
  | ok q => exact parsePosting_extraTags h

theorem run_body (body : List Str) : ∀ (cl : List Transaction) (t : Transaction) (n : Nat),
    (∀ l ∈ body, beginsWithSpace l = true ∧ isEmptyLine l = false) →
    Asm.run ⟨cl, some t⟩ n body = (cl ++ [(body.map trimSpaceLeft).foldl bodyLine t], none) := by
  induction body with
  | nil => intro cl t n _; simp [Asm.run, Asm.out]
  | cons l body ih =>
    intro cl t n hb
    have h1 := hb l (List.mem_cons_self _ _)
    have h2 : ∀ l ∈ body, beginsWithSpace l = true ∧ isEmptyLine l = false :=
      fun l hl => hb l (List.mem_cons_of_mem _ hl)
    have hstep : (Asm.mk cl (some t)).step l = some ⟨cl, some (bodyLine t (trimSpaceLeft l))⟩ := by
      by_cases hc : beginsWith ';' (trimSpaceLeft l) = true
      · rw [step_body_comment _ t rfl (notIndented_of_beginsWithSpace h1.1) hc]
        simp [bodyLine, hc]
      · simp only [Bool.not_eq_true] at hc
        rw [(step_body_posting _ t rfl (notIndented_of_beginsWithSpace h1.1) h1.2 hc).1]
        simp [bodyLine, hc]
    rw [run_cons_some _ _ hstep, ih cl _ (n + 1) h2]
    simp

theorem foldl_bodyLine (bs : List Str) : ∀ t : Transaction,
    bs.foldl bodyLine t =
      match t.Postings.getLast? with
      | none => { t with Tags := t.Tags ++ specTags bs, Postings := specPostings bs }
      | some q =>
        { t with Postings := t.Postings.dropLast
            ++ [{ q with ExtraTags := q.ExtraTags ++ specTags bs }] ++ specPostings bs } := by
  induction bs with
  | nil =>
    intro t
    cases hq : t.Postings.getLast? with
    | none =>
      have : t.Postings = [] := List.getLast?_eq_none_iff.mp hq
      simp [specTags, specPostings, ← this]
    | some q =>
      have hne : t.Postings ≠ [] := by intro h0; rw [h0] at hq; cases hq
      have h1 := List.dropLast_append_getLast hne
      rw [List.getLast?_eq_getLast _ hne] at hq
      simp only [Option.some.injEq] at hq
      rw [hq] at h1
      simp [specTags, specPostings, h1]
  | cons l bs ih =>
    intro t
    rw [List.foldl_cons, ih]
    by_cases hc : beginsWith ';' l = true
    · cases hq : t.Postings.getLast? with
      | none => simp [bodyLine, hc, addComment, hq, specTags, specPostings]
      | some q => simp [bodyLine, hc, addComment, hq, specTags, specPostings]
    · simp only [Bool.not_eq_true] at hc
      cases hq : t.Postings.getLast? with
      | none =>
        have : t.Postings = [] := List.getLast?_eq_none_iff.mp hq
        simp [bodyLine, hc, specTags, specPostings, this, postingOf_extraTags]
      | some q =>
        have hne : t.Postings ≠ [] := by intro h0; rw [h0] at hq; cases hq
        have h1 := List.dropLast_append_getLast hne
        rw [List.getLast?_eq_getLast _ hne] at hq
        simp only [Option.some.injEq] at hq
        rw [hq] at h1
        simp [bodyLine, hc, specTags, specPostings, postingOf_extraTags, h1]

/-- C8: a header line followed by indented non-blank lines, all ending in a
line feed, gives no error and exactly one transaction. Its date, status and
description are those of `parseHeader`; of the left-trimmed body lines, those
beginning with `;` before the first posting line are its tags, every other
line contributes the posting of `parsePosting` (which returns on each of
them), and the lines beginning with `;` after a posting line are the extra
tags of the most recent posting. -/
theorem Parse_single_transaction (h : Str) (body : List Str)
    (hh : notIndented h = true ∧ '\n' ∉ h)
    (hb : ∀ l ∈ body, beginsWithSpace l = true ∧ isEmptyLine l = false ∧ '\n' ∉ l) :
    Parse (joinLines (h :: body))
        = .ok ([{ Date := (parseHeader h : Transaction).Date,
                  Status := (parseHeader h : Transaction).Status,
                  Description := (parseHeader h : Transaction).Description,
                  Tags := specTags (body.map trimSpaceLeft),
                  Postings := specPostings (body.map trimSpaceLeft) }], none)
      ∧ ∀ l ∈ body.map trimSpaceLeft, beginsWith ';' l = false →
          parsePosting l = .ok (postingOf l) := by
  constructor
  · have hls : ∀ x ∈ h :: body, '\n' ∉ x := by
      intro x hx
      rcases List.mem_cons.mp hx with rfl | hx
      · exact hh.2
      · exact (hb x hx).2.2
    have := Parse_joinLines (h :: body) [] hls (by simp)
    rw [List.append_nil] at this
    have s1 : (({} : Asm).step h) = some ⟨[], some (parseHeader h)⟩ := by
      rw [step_file _ _ rfl]; exact fileStep_header _ hh.1
    have ht : (parseHeader h : Transaction).Tags = [] := by unfold parseHeader; rfl
    have hp : (parseHeader h : Transaction).Postings = [] := (parseHeader_cell h).2
    rw [this, run_cons_some _ _ s1, run_body body [] _ _ (fun l hl => ⟨(hb l hl).1, (hb l hl).2.1⟩),
      foldl_bodyLine]
    simp [hp, ht]
  · intro l hl hc
    obtain ⟨l0, hl0, rfl⟩ := List.mem_map.mp hl
    exact (step_body_posting ⟨[], some (parseHeader h)⟩ _ rfl
      (notIndented_of_beginsWithSpace (hb l0 hl0).1) (hb l0 hl0).2.1 hc).2

theorem Parse_single_transaction_witness :
    Parse (joinLines ("2022/05/12 * Supermarket".toList ::
        ["    ; ID: 12345".toList, "    Expenses:Food  10.00 EUR  ; :FOO:".toList,
         "\t; more".toList, "    Assets:Cash".toList]))
        = .ok ([{ Date := (parseHeader "2022/05/12 * Supermarket".toList : Transaction).Date,
                  Status := (parseHeader "2022/05/12 * Supermarket".toList : Transaction).Status,
                  Description :=
                    (parseHeader "2022/05/12 * Supermarket".toList : Transaction).Description,
                  Tags := specTags
                    (["    ; ID: 12345".toList, "    Expenses:Food  10.00 EUR  ; :FOO:".toList,
                      "\t; more".toList, "    Assets:Cash".toList].map trimSpaceLeft),
                  Postings := specPostings
                    (["    ; ID: 12345".toList, "    Expenses:Food  10.00 EUR  ; :FOO:".toList,
                      "\t; more".toList, "    Assets:Cash".toList].map trimSpaceLeft) }], none)
      ∧ ∀ l ∈ ["    ; ID: 12345".toList, "    Expenses:Food  10.00 EUR  ; :FOO:".toList,
                "\t; more".toList, "    Assets:Cash".toList].map trimSpaceLeft,
          beginsWith ';' l = false → parsePosting l = .ok (postingOf l) :=
  Parse_single_transaction "2022/05/12 * Supermarket".toList
    ["    ; ID: 12345".toList, "    Expenses:Food  10.00 EUR  ; :FOO:".toList,
     "\t; more".toList, "    Assets:Cash".toList] (by decide) (by decide)

/-! ## The scanning loop of `parsePosting` -/

theorem parsePosting_eq_finish {l acc r : Str} (h : scanAccount l l 0 (-1) = .ok (acc, r)) :
    parsePosting l = .ok (finishPosting acc r) := by
  unfold parsePosting
  rw [h]
  rfl

theorem NoSeparator.of_append_left {a b : Str} (h : NoSeparator (a ++ b)) : NoSeparator a :=
  ⟨fun hm => h.1 (List.mem_append_left _ hm),
   fun hi => h.2 (hi.trans (List.infix_append' [] a b))⟩

theorem NoSeparator.last_ne_space {pre r : Str} (h : NoSeparator (pre ++ ' ' :: r)) :
    pre.getLast? ≠ some ' ' := by
  intro hl
  obtain ⟨p, rfl⟩ : ∃ p, pre = p ++ [' '] := by
    rcases pre.eq_nil_or_concat with h0 | ⟨p, b, h1⟩
    · rw [h0] at hl; simp at hl
    · rw [List.concat_eq_append] at h1
      rw [h1, List.getLast?_concat] at hl
      simp only [Option.some.injEq] at hl
      exact ⟨p, by rw [h1, hl]⟩
  apply h.2
  refine ⟨p, r, ?_⟩
  simp

/-- The loop runs over a stretch `mid` that has no separator and leaves the
index of the last space in a state that tells whether the text scanned so far
ends in a space. -/
theorem scanAccount_skip (line : Str) : ∀ (mid pre rest : Str) (space : Int),
    pre ≠ [] → NoSeparator (pre ++ mid) → space < pre.length →
    (space = (pre.length : Int) - 1 ↔ pre.getLast? = some ' ') →
    ∃ space' : Int, space' < (pre ++ mid).length
      ∧ (space' = ((pre ++ mid).length : Int) - 1 ↔ (pre ++ mid).getLast? = some ' ')
      ∧ scanAccount line (mid ++ rest) pre.length space
          = scanAccount line rest (pre ++ mid).length space' := by
  intro mid
  induction mid with
  | nil =>
    intro pre rest space _ _ h3 h4
    exact ⟨space, by simpa using h3, by simpa using h4, by simp⟩
  | cons c mid ih =>
    intro pre rest space h1 h2 h3 h4
    have hassoc : pre ++ c :: mid = (pre ++ [c]) ++ mid := by simp
    have hctab : (c == '\t') = false := by
      simp only [beq_eq_false_iff_ne, ne_eq]
      intro e; exact h2.1 (by simp [e])
    have hne : pre ++ [c] ≠ [] := by simp
    have hns : NoSeparator ((pre ++ [c]) ++ mid) := by rw [← hassoc]; exact h2
    have hlen : ((pre ++ [c]).length : Int) = pre.length + 1 := by simp
    by_cases hc : (c == ' ') = true
    · have hceq : c = ' ' := by simpa using hc
      subst hceq
      have hlast : pre.getLast? ≠ some ' ' := NoSeparator.last_ne_space h2
      have hsp : (space == (pre.length : Int) - 1) = false := by
        simp only [beq_eq_false_iff_ne, ne_eq]
        exact fun e => hlast (h4.mp e)
      obtain ⟨space', g1, g2, g3⟩ := ih (pre ++ [' ']) rest (pre.length : Int) hne hns
        (by rw [hlen]; omega) (by rw [hlen]; simp)
      refine ⟨space', by rw [hassoc]; exact g1, by rw [hassoc]; exact g2, ?_⟩
      rw [hassoc, ← g3]
      simp [scanAccount, hsp]
    · simp only [Bool.not_eq_true] at hc
      have hcne : c ≠ ' ' := by simpa using hc
      obtain ⟨space', g1, g2, g3⟩ := ih (pre ++ [c]) rest space hne hns
        (by rw [hlen]; omega)
        (by
          rw [hlen, List.getLast?_concat]
          constructor
          · intro e; omega
          · intro e; simp only [Option.some.injEq] at e; exact absurd e hcne)
      refine ⟨space', by rw [hassoc]; exact g1, by rw [hassoc]; exact g2, ?_⟩
      rw [hassoc, ← g3]
      simp [scanAccount, hctab, hc]

theorem scanAccount_start (c : Char) (l : Str) (hc : isSpace c = false) :
    scanAccount (c :: l) (c :: l) 0 (-1) = scanAccount (c :: l) l 1 (-1) := by
  have h1 : (c == '\t') = false := by
    simp only [beq_eq_false_iff_ne, ne_eq]; intro e; rw [e] at hc; exact absurd hc (by decide)
  have h2 : (c == ' ') = false := by
    simp only [beq_eq_false_iff_ne, ne_eq]; intro e; rw [e] at hc; exact absurd hc (by decide)
  simp [scanAccount, h1, h2]

/-- The loop from the start of a line, over a first stretch `a` that has no
separator and begins with a byte that is not a space or tab. -/
theorem scanAccount_front (a rest : Str) (ha : NoSeparator a) (hf : notIndented a = true) :
    ∃ space' : Int, (space' = (a.length : Int) - 1 ↔ a.getLast? = some ' ')
      ∧ scanAccount (a ++ rest) (a ++ rest) 0 (-1) = scanAccount (a ++ rest) rest a.length space' := by
  obtain ⟨c, m, rfl, hc⟩ := notIndented_eq_true hf
  have hcne : c ≠ ' ' := by intro e; rw [e] at hc; exact absurd hc (by decide)
  obtain ⟨space', _, g2, g3⟩ := scanAccount_skip (c :: m ++ rest) m [c] rest (-1) (by simp)
    (by simpa using ha) (by simp)
    (by
      constructor
      · intro e; simp at e
      · intro e; simp only [List.getLast?_singleton, Option.some.injEq] at e
        exact absurd e hcne)
  refine ⟨space', by simpa using g2, ?_⟩
  rw [List.cons_append, scanAccount_start c (m ++ rest) hc]
  simpa using g3

theorem scanAccount_two_spaces (a r : Str) (ha : NoSeparator a) (hf : notIndented a = true)
    (hl : a.getLast? ≠ some ' ') :
    scanAccount (a ++ ' ' :: ' ' :: r) (a ++ ' ' :: ' ' :: r) 0 (-1) = .ok (a, r) := by
  obtain ⟨space', g1, g2⟩ := scanAccount_front a (' ' :: ' ' :: r) ha hf
  have hsp : (space' == (a.length : Int) - 1) = false := by
    simp only [beq_eq_false_iff_ne, ne_eq]
    exact fun e => hl (g1.mp e)
  have hpos : a.length ≠ 0 := by
    obtain ⟨c, m, rfl, _⟩ := notIndented_eq_true hf
    simp
  have h1 : (a ++ ' ' :: ' ' :: r).take a.length = a := by simp
  have h2 : (a ++ ' ' :: ' ' :: r).drop (a.length + 1 + 1) = r := by
    rw [show a ++ ' ' :: ' ' :: r = (a ++ [' ', ' ']) ++ r by simp]
    rw [List.drop_left' (by simp)]
  rw [g2]
  simp only [scanAccount, hsp]
  simp [h1, h2]

theorem scanAccount_tab (a r : Str) (ha : NoSeparator a) (hf : notIndented a = true) :
    scanAccount (a ++ '\t' :: r) (a ++ '\t' :: r) 0 (-1) = .ok (trimSpaceRight a, r) := by
  obtain ⟨space', _, g2⟩ := scanAccount_front a ('\t' :: r) ha hf
  have h1 : (a ++ '\t' :: r).take a.length = a := by simp
  have h2 : (a ++ '\t' :: r).drop (a.length + 1) = r := by
    rw [show a ++ '\t' :: r = (a ++ ['\t']) ++ r by simp]
    rw [List.drop_left' (by simp)]
  rw [g2]
  simp [scanAccount, h1, h2]

theorem scanAccount_no_separator (a : Str) (ha : NoSeparator a) (hf : notIndented a = true) :
    scanAccount a a 0 (-1) = .ok ([], a) := by
  obtain ⟨space', _, g2⟩ := scanAccount_front a [] ha hf
  simp only [List.append_nil] at g2
  rw [g2]
  simp [scanAccount]

theorem trimSpaceRight_eq_self {a : Str} (h : ∀ c, a.getLast? = some c → isSpace c = false) :
    trimSpaceRight a = a := by
  rw [trimSpaceRight_eq_rdropWhile, List.rdropWhile_eq_self_iff]
  intro hne
  have := h _ (List.getLast?_eq_getLast _ hne)
  simp [this]

/-! ## A header line and one posting line -/

theorem parsePosting_two_spaces (a r : Str) (ha : NoSeparator a) (hf : notIndented a = true)
    (hl : a.getLast? ≠ some ' ') :
    parsePosting (a ++ ' ' :: ' ' :: r) = .ok (finishPosting a r) :=
  parsePosting_eq_finish (scanAccount_two_spaces a r ha hf hl)

theorem parsePosting_tab (a r : Str) (ha : NoSeparator a) (hf : notIndented a = true) :
    parsePosting (a ++ '\t' :: r) = .ok (finishPosting (trimSpaceRight a) r) :=
  parsePosting_eq_finish (scanAccount_tab a r ha hf)

theorem parsePosting_no_separator (a : Str) (ha : NoSeparator a) (hf : notIndented a = true) :
    parsePosting a = .ok (finishPosting [] a) :=
  parsePosting_eq_finish (scanAccount_no_separator a ha hf)

theorem postingOf_eq {l : Str} {q : Posting} (h : parsePosting l = .ok q) : postingOf l = q := by
  rw [postingOf, h]

theorem trimSpaceLeft_run {w : Str} (hw : ∀ c ∈ w, isSpace c = true) {l : Str}
    (hl : notIndented l = true) : trimSpaceLeft (w ++ l) = l := by
  obtain ⟨c, r, rfl, hc⟩ := notIndented_eq_true hl
  rw [trimSpaceLeft_eq_dropWhile]
  exact dropWhile_isSpace_run hw _ (by simpa using hc)

theorem Parse_header_posting (h w l : Str) (hh : notIndented h = true ∧ '\n' ∉ h)
    (hw : w ≠ [] ∧ ∀ c ∈ w, isSpace c = true)
    (hl : notIndented l = true ∧ beginsWith ';' l = false ∧ '\n' ∉ l) :
    Parse (joinLines [h, w ++ l])
      = .ok ([{ Date := (parseHeader h : Transaction).Date,
                Status := (parseHeader h : Transaction).Status,
                Description := (parseHeader h : Transaction).Description,
                Tags := [], Postings := [postingOf l] }], none) := by
  have htrim : trimSpaceLeft (w ++ l) = l := trimSpaceLeft_run hw.2 hl.1
  have hwl : '\n' ∉ w ++ l := by
    intro hm
    rcases List.mem_append.mp hm with hm | hm
    · exact absurd (hw.2 _ hm) (by decide)
    · exact hl.2.2 hm
  have hls : ∀ x ∈ [h, w ++ l], '\n' ∉ x := by
    intro x hx
    simp only [List.mem_cons, List.mem_singleton, List.not_mem_nil, or_false] at hx
    rcases hx with rfl | rfl
    · exact hh.2
    · exact hwl
  have hni : notIndented (w ++ l) = false := by
    obtain ⟨c, r, rfl⟩ := List.exists_cons_of_ne_nil hw.1
    simp [notIndented, hw.2 c (List.mem_cons_self _ _)]
  have hne : isEmptyLine (w ++ l) = false := by
    cases hb : isEmptyLine (w ++ l) with
    | false => rfl
    | true =>
      have := (trimSpaceLeft_eq_nil_iff _).mpr hb
      rw [htrim] at this
      rw [this] at hl
      simp [notIndented] at hl
  have := Parse_joinLines [h, w ++ l] [] hls (by simp)
  rw [List.append_nil] at this
  have ht : (parseHeader h : Transaction).Tags = [] := by unfold parseHeader; rfl
  have hp : (parseHeader h : Transaction).Postings = [] := (parseHeader_cell h).2
  have s1 : (({} : Asm).step h) = some ⟨[], some (parseHeader h)⟩ := by
    rw [step_file _ _ rfl]; exact fileStep_header _ hh.1
  have s2 := (step_body_posting ⟨[], some (parseHeader h)⟩ _ rfl hni hne
    (by rw [htrim]; exact hl.2.1)).1
  rw [this, run_cons_some _ _ s1, run_cons_some _ _ s2, htrim, ht, hp]
  simp [Asm.run, Asm.out]

/-! ## Accounts too wide for `fmt` -/

theorem NoSeparator.of_no_space {s : Str} (h : ∀ c ∈ s, isSpace c = false) : NoSeparator s := by
  constructor
  · intro hm; exact absurd (h _ hm) (by decide)
  · intro hi
    have : ' ' ∈ s := hi.subset (by simp)
    exact absurd (h _ this) (by decide)

theorem finishPosting_account (a r : Str) (ha : a ≠ []) :
    finishPosting a r
      = { Account := a, Amount := (finishPosting ['x'] r).Amount,
          AmountExtra := (finishPosting ['x'] r).AmountExtra,
          DirectTag := (finishPosting ['x'] r).DirectTag, ExtraTags := [] } := by
  obtain ⟨c, m, rfl⟩ := List.exists_cons_of_ne_nil ha
  rfl

theorem finishPosting_nil (l : Str) (hl : ∀ c, l.getLast? = some c → isSpace c = false) :
    finishPosting [] l
      = { Account := l, Amount := [], AmountExtra := [], DirectTag := [], ExtraTags := [] } := by
  have : finishPosting [] l = Posting.mk (trimSpaceRight l) [] [] [] [] := rfl
  rw [this, trimSpaceRight_eq_self hl]

theorem writePosting_wide (a m : Str) (hm : m ≠ []) (hlen : 999999 ≤ a.length) :
    writePosting { Account := a, Amount := m }
      = "    ".toList ++ ("%!(BADWIDTH)".toList ++ a) ++ m ++ ['\n'] := by
  have h1 : ¬ ((a.length : Int) + 2 < 48 - (m.length : Int)) := by omega
  have h2 : (-((a.length : Int) + 2) > 1000000 || -((a.length : Int) + 2) < -1000000) = true := by
    simp only [Bool.or_eq_true, decide_eq_true_eq]
    right; omega
  have h3 : (m != []) = true := by simpa using hm
  simp only [writePosting, h3, Bool.true_or, if_true, h1, if_false, fmtWidthS, h2]
  simp

theorem wide_account_facts (a : Str) (ha : ∀ c ∈ a, c = 'a') (hlen : 999999 ≤ a.length) :
    (∀ c ∈ "%!(BADWIDTH)".toList ++ a ++ "1".toList, isSpace c = false ∧ c ≠ '\n')
      ∧ (∀ c ∈ a, isSpace c = false ∧ c ≠ '\n')
      ∧ notIndented a = true ∧ beginsWith ';' a = false := by
  have h1 : ∀ c ∈ a, isSpace c = false ∧ c ≠ '\n' := by
    intro c hc; rw [ha c hc]; exact ⟨by decide, by decide⟩
  have h2 : ∀ c ∈ "%!(BADWIDTH)".toList, isSpace c = false ∧ c ≠ '\n' := by decide
  have h3 : ∀ c ∈ "1".toList, isSpace c = false ∧ c ≠ '\n' := by decide
  refine ⟨?_, h1, ?_, ?_⟩
  · intro c hc
    rcases List.mem_append.mp hc with hc | hc
    · rcases List.mem_append.mp hc with hc | hc
      · exact h2 c hc
      · exact h1 c hc
    · exact h3 c hc
  · cases a with
    | nil => simp at hlen
    | cons c m => rw [ha c (List.mem_cons_self _ _)]; rfl
  · cases a with
    | nil => rfl
    | cons c m => rw [ha c (List.mem_cons_self _ _)]; rfl

theorem last_of_all {s : Str} {P : Char → Prop} (h : ∀ c ∈ s, P c) :
    ∀ c, s.getLast? = some c → P c :=
  fun c hc => h c (List.mem_of_getLast?_eq_some hc)

/-- A posting whose account has 999999 bytes or more is written without
padding and behind the text `%!(BADWIDTH)`; read again, the line has no
separator, so account, marker text and amount come back as one account. -/
theorem round_trip_wide_account (a : Str) (ha : ∀ c ∈ a, c = 'a') (hlen : 999999 ≤ a.length) :
    Parse ("d\n ".toList ++ a ++ "  1\n".toList)
        = .ok ([{ Date := "d".toList, Status := 0, Description := [], Tags := [],
                  Postings := [{ Account := a, Amount := "1".toList }] }], none)
      ∧ serializeTransactions
          [{ Date := "d".toList, Status := 0, Description := [], Tags := [],
             Postings := [{ Account := a, Amount := "1".toList }] }]
        = "d \n    %!(BADWIDTH)".toList ++ a ++ "1\n".toList
      ∧ Parse ("d \n    %!(BADWIDTH)".toList ++ a ++ "1\n".toList)
        = .ok ([{ Date := "d".toList, Status := 0, Description := [], Tags := [],
                  Postings := [{ Account := "%!(BADWIDTH)".toList ++ a ++ "1".toList }] }],
               none) := by
  obtain ⟨hB, hA, hni, hsc⟩ := wide_account_facts a ha hlen
  have hne : a ≠ [] := by intro e; rw [e] at hlen; simp at hlen
  refine ⟨?_, ?_, ?_⟩
  · have hx : "d\n ".toList ++ a ++ "  1\n".toList
        = joinLines ["d".toList, " ".toList ++ (a ++ ' ' :: ' ' :: "1".toList)] := by
      simp [joinLines]
    have hl : '\n' ∉ a ++ ' ' :: ' ' :: "1".toList := by
      intro hm
      rcases List.mem_append.mp hm with hm | hm
      · exact (hA _ hm).2 rfl
      · revert hm; decide
    have hni2 : notIndented (a ++ ' ' :: ' ' :: "1".toList) = true := by
      obtain ⟨c, m, rfl, hc⟩ := notIndented_eq_true hni
      simp [notIndented, hc]
    have hsc2 : beginsWith ';' (a ++ ' ' :: ' ' :: "1".toList) = false := by
      obtain ⟨c, m, rfl, hc⟩ := notIndented_eq_true hni
      simpa [beginsWith] using hsc
    have hp := parsePosting_two_spaces a "1".toList (NoSeparator.of_no_space (fun c hc => (hA c hc).1))
      hni (fun e => absurd (last_of_all hA _ e).1 (by decide))
    rw [hx, Parse_header_posting _ _ _ (by decide) (by decide) ⟨hni2, hsc2, hl⟩,
      postingOf_eq hp, finishPosting_account _ _ hne]
    rfl
  · have := writePosting_wide a "1".toList (by decide) hlen
    simp only [serializeTransactions, Transaction.String, Transaction.write, List.map_cons,
      List.map_nil, List.flatten_cons, List.flatten_nil, this]
    simp
  · have hx : "d \n    %!(BADWIDTH)".toList ++ a ++ "1\n".toList
        = joinLines ["d ".toList, "    ".toList ++ ("%!(BADWIDTH)".toList ++ a ++ "1".toList)] := by
      simp [joinLines]
    have hni2 : notIndented ("%!(BADWIDTH)".toList ++ a ++ "1".toList) = true := rfl
    have hsc2 : beginsWith ';' ("%!(BADWIDTH)".toList ++ a ++ "1".toList) = false := rfl
    have hp := parsePosting_no_separator _ (NoSeparator.of_no_space (fun c hc => (hB c hc).1)) hni2
    rw [hx, Parse_header_posting _ _ _ (by decide) (by decide)
        ⟨hni2, hsc2, fun hm => (hB _ hm).2 rfl⟩,
      postingOf_eq hp, finishPosting_nil _ (fun c hc => (last_of_all hB c hc).1)]
    rfl

/-- C2: the structural round trip fails for an account of 999999 bytes. `Parse`
gives the posting with that account and the amount `1`; its canonical
rendering, parsed again, gives a posting with no amount whose account is the
text `%!(BADWIDTH)`, the old account and the old amount in one. -/
theorem structural_round_trip_wide_account :
    Parse ("d\n ".toList ++ List.replicate 999999 'a' ++ "  1\n".toList)
        = .ok ([{ Date := "d".toList, Status := 0, Description := [], Tags := [],
                  Postings := [{ Account := List.replicate 999999 'a',
                                 Amount := "1".toList }] }], none)
      ∧ serializeTransactions
          [{ Date := "d".toList, Status := 0, Description := [], Tags := [],
             Postings := [{ Account := List.replicate 999999 'a', Amount := "1".toList }] }]
        = "d \n    %!(BADWIDTH)".toList ++ List.replicate 999999 'a' ++ "1\n".toList
      ∧ Parse ("d \n    %!(BADWIDTH)".toList ++ List.replicate 999999 'a' ++ "1\n".toList)
        = .ok ([{ Date := "d".toList, Status := 0, Description := [], Tags := [],
                  Postings := [{ Account := "%!(BADWIDTH)".toList
                                   ++ List.replicate 999999 'a' ++ "1".toList }] }],
               none) :=
  round_trip_wide_account (List.replicate 999999 'a') (fun _ hc => List.eq_of_mem_replicate hc)
    (by rw [List.length_replicate])

/-- The canonical text of a posting with a wide account is not a fixed point
when the amount holds a tab: the second rendering has the text `%!(BADWIDTH)`
twice. -/
theorem fixed_point_wide_account (a : Str) (ha : ∀ c ∈ a, c = 'a') (hlen : 999999 ≤ a.length) :
    Parse ("d\n ".toList ++ a ++ "  1\t2\n".toList)
        = .ok ([{ Date := "d".toList, Status := 0, Description := [], Tags := [],
                  Postings := [{ Account := a, Amount := "1\t2".toList }] }], none)
      ∧ serializeTransactions
          [{ Date := "d".toList, Status := 0, Description := [], Tags := [],
             Postings := [{ Account := a, Amount := "1\t2".toList }] }]
        = "d \n    %!(BADWIDTH)".toList ++ a ++ "1\t2\n".toList
      ∧ Parse ("d \n    %!(BADWIDTH)".toList ++ a ++ "1\t2\n".toList)
        = .ok ([{ Date := "d".toList, Status := 0, Description := [], Tags := [],
                  Postings := [{ Account := "%!(BADWIDTH)".toList ++ a ++ "1".toList,
                                 Amount := "2".toList }] }], none)
      ∧ serializeTransactions
          [{ Date := "d".toList, Status := 0, Description := [], Tags := [],
             Postings := [{ Account := "%!(BADWIDTH)".toList ++ a ++ "1".toList,
                            Amount := "2".toList }] }]
        = "d \n    %!(BADWIDTH)%!(BADWIDTH)".toList ++ a ++ "12\n".toList
      ∧ "d \n    %!(BADWIDTH)%!(BADWIDTH)".toList ++ a ++ "12\n".toList
        ≠ "d \n    %!(BADWIDTH)".toList ++ a ++ "1\t2\n".toList := by
  obtain ⟨hB, hA, hni, hsc⟩ := wide_account_facts a ha hlen
  have hne : a ≠ [] := by intro e; rw [e] at hlen; simp at hlen
  refine ⟨?_, ?_, ?_, ?_, ?_⟩
  · have hx : "d\n ".toList ++ a ++ "  1\t2\n".toList
        = joinLines ["d".toList, " ".toList ++ (a ++ ' ' :: ' ' :: "1\t2".toList)] := by
      simp [joinLines]
    have hl : '\n' ∉ a ++ ' ' :: ' ' :: "1\t2".toList := by
      intro hm
      rcases List.mem_append.mp hm with hm | hm
      · exact (hA _ hm).2 rfl
      · revert hm; decide
    have hni2 : notIndented (a ++ ' ' :: ' ' :: "1\t2".toList) = true := by
      obtain ⟨c, m, rfl, hc⟩ := notIndented_eq_true hni
      simp [notIndented, hc]
    have hsc2 : beginsWith ';' (a ++ ' ' :: ' ' :: "1\t2".toList) = false := by
      obtain ⟨c, m, rfl, hc⟩ := notIndented_eq_true hni
      simpa [beginsWith] using hsc
    have hp := parsePosting_two_spaces a "1\t2".toList
      (NoSeparator.of_no_space (fun c hc => (hA c hc).1))
      hni (fun e => absurd (last_of_all hA _ e).1 (by decide))
    rw [hx, Parse_header_posting _ _ _ (by decide) (by decide) ⟨hni2, hsc2, hl⟩,
      postingOf_eq hp, finishPosting_account _ _ hne]
    rfl
  · have := writePosting_wide a "1\t2".toList (by decide) hlen
    simp only [serializeTransactions, Transaction.String, Transaction.write, List.map_cons,
      List.map_nil, List.flatten_cons, List.flatten_nil, this]
    simp
  · have hx : "d \n    %!(BADWIDTH)".toList ++ a ++ "1\t2\n".toList
        = joinLines ["d ".toList,
            "    ".toList ++ (("%!(BADWIDTH)".toList ++ a ++ "1".toList) ++ '\t' :: "2".toList)] := by
      simp [joinLines]
    have hni2 : notIndented ("%!(BADWIDTH)".toList ++ a ++ "1".toList) = true := rfl
    have hni3 : notIndented
        (("%!(BADWIDTH)".toList ++ a ++ "1".toList) ++ '\t' :: "2".toList) = true := rfl
    have hsc3 : beginsWith ';'
        (("%!(BADWIDTH)".toList ++ a ++ "1".toList) ++ '\t' :: "2".toList) = false := rfl
    have hl : '\n' ∉ ("%!(BADWIDTH)".toList ++ a ++ "1".toList) ++ '\t' :: "2".toList := by
      intro hm
      rcases List.mem_append.mp hm with hm | hm
      · exact (hB _ hm).2 rfl
      · revert hm; decide
    have hp := parsePosting_tab _ "2".toList
      (NoSeparator.of_no_space (fun c hc => (hB c hc).1)) hni2
    rw [hx, Parse_header_posting _ _ _ (by decide) (by decide) ⟨hni3, hsc3, hl⟩,
      postingOf_eq hp, trimSpaceRight_eq_self (fun c hc => (last_of_all hB c hc).1),
      finishPosting_account _ _ (by simp)]
    rfl
  · have := writePosting_wide ("%!(BADWIDTH)".toList ++ a ++ "1".toList) "2".toList (by decide)
      (by simp only [List.length_append]; omega)
    simp only [serializeTransactions, Transaction.String, Transaction.write, List.map_cons,
      List.map_nil, List.flatten_cons, List.flatten_nil, this]
    simp
  · intro e
    have := congrArg List.length e
    simp only [List.length_append] at this
    have h1 : "d \n    %!(BADWIDTH)%!(BADWIDTH)".toList.length = 31 := by decide
    have h2 : "12\n".toList.length = 3 := by decide
    have h3 : "d \n    %!(BADWIDTH)".toList.length = 19 := by decide
    have h4 : "1\t2\n".toList.length = 4 := by decide
    rw [h1, h2, h3, h4] at this
    omega

/-- C1: the canonical text is not a fixed point for an account of 999999 bytes
and an amount that holds a tab. The first rendering is
`d`, then the posting line `%!(BADWIDTH)aa..a1<tab>2` without padding; parsed
again it gives the account `%!(BADWIDTH)aa..a1` with the amount `2`, whose
rendering carries `%!(BADWIDTH)` twice and differs from the first. -/
theorem canonical_text_wide_account :
    Parse ("d\n ".toList ++ List.replicate 999999 'a' ++ "  1\t2\n".toList)
        = .ok ([{ Date := "d".toList, Status := 0, Description := [], Tags := [],
                  Postings := [{ Account := List.replicate 999999 'a',
                                 Amount := "1\t2".toList }] }], none)
      ∧ serializeTransactions
          [{ Date := "d".toList, Status := 0, Description := [], Tags := [],
             Postings := [{ Account := List.replicate 999999 'a', Amount := "1\t2".toList }] }]
        = "d \n    %!(BADWIDTH)".toList ++ List.replicate 999999 'a' ++ "1\t2\n".toList
      ∧ Parse ("d \n    %!(BADWIDTH)".toList ++ List.replicate 999999 'a' ++ "1\t2\n".toList)
        = .ok ([{ Date := "d".toList, Status := 0, Description := [], Tags := [],
                  Postings := [{ Account := "%!(BADWIDTH)".toList
                                   ++ List.replicate 999999 'a' ++ "1".toList,
                                 Amount := "2".toList }] }], none)
      ∧ serializeTransactions
          [{ Date := "d".toList, Status := 0, Description := [], Tags := [],
             Postings := [{ Account := "%!(BADWIDTH)".toList
                              ++ List.replicate 999999 'a' ++ "1".toList,
                            Amount := "2".toList }] }]
        = "d \n    %!(BADWIDTH)%!(BADWIDTH)".toList ++ List.replicate 999999 'a' ++ "12\n".toList
      ∧ "d \n    %!(BADWIDTH)%!(BADWIDTH)".toList ++ List.replicate 999999 'a' ++ "12\n".toList
        ≠ "d \n    %!(BADWIDTH)".toList ++ List.replicate 999999 'a' ++ "1\t2\n".toList :=
  fixed_point_wide_account (List.replicate 999999 'a') (fun _ hc => List.eq_of_mem_replicate hc)
    (by rw [List.length_replicate])

/-! ## The amount part of a posting line -/

theorem finishPosting_eq_splits (acc r : Str) (hacc : acc ≠ []) :
    finishPosting acc r
      = { Account := acc,
          Amount := (annotationSplit (commentSplit (trimSpaceLeft r)).2).2,
          AmountExtra := (annotationSplit (commentSplit (trimSpaceLeft r)).2).1,
          DirectTag := (commentSplit (trimSpaceLeft r)).1, ExtraTags := [] } := by
  obtain ⟨c, m, rfl⟩ := List.exists_cons_of_ne_nil hacc
  have hb : (c :: m == []) = false := rfl
  unfold finishPosting commentSplit annotationSplit
  simp only [hb, Bool.false_eq_true, if_false]

theorem trimSpaceRight_initial (x : Str) : trimSpaceRight x <+: x := by
  rw [trimSpaceRight_eq_rdropWhile]; exact List.rdropWhile_prefix _ _

theorem trimSpaceRight_last (x : Str) :
    ∀ c, (trimSpaceRight x).getLast? = some c → isSpace c = false := by
  intro c hc
  rw [trimSpaceRight_eq_rdropWhile] at hc
  have hne : List.rdropWhile isSpace x ≠ [] := by intro e; rw [e] at hc; cases hc
  have := List.rdropWhile_last_not isSpace x hne
  rw [List.getLast?_eq_getLast _ hne] at hc
  simp only [Option.some.injEq] at hc
  rw [hc] at this
  simpa using this

theorem indexByte_some {s : Str} {b : Char} {i : Nat} (h : indexByte s b = some i) :
    s = s.take i ++ b :: s.drop (i + 1) ∧ b ∉ s.take i := by
  induction s generalizing i with
  | nil => simp [indexByte] at h
  | cons c cs ih =>
    unfold indexByte at h
    by_cases hc : (c == b) = true
    · simp only [hc, if_true, Option.some.injEq] at h
      subst h
      have : c = b := by simpa using hc
      simp [this]
    · simp only [hc, Bool.false_eq_true, if_false, Option.map_eq_some'] at h
      obtain ⟨k, hk, rfl⟩ := h
      obtain ⟨h1, h2⟩ := ih hk
      refine ⟨?_, ?_⟩
      · simp only [List.take_succ_cons, List.drop_succ_cons, List.cons_append]
        rw [← h1]
      · simp only [List.take_succ_cons, List.mem_cons, not_or]
        exact ⟨fun e => hc (by simp [e]), h2⟩

theorem indexByte_none {s : Str} {b : Char} (h : indexByte s b = none) : b ∉ s := by
  induction s with
  | nil => simp
  | cons c cs ih =>
    unfold indexByte at h
    by_cases hc : (c == b) = true
    · simp [hc] at h
    · simp only [hc, Bool.false_eq_true, if_false, Option.map_eq_none'] at h
      simp only [List.mem_cons, not_or]
      exact ⟨fun e => hc (by simp [e]), ih h⟩

theorem indexAny_some {s cs : Str} {i : Nat} (h : indexAny s cs = some i) :
    ∃ b ∈ cs, s = s.take i ++ b :: s.drop (i + 1) ∧ ∀ d ∈ s.take i, d ∉ cs := by
  induction s generalizing i with
  | nil => simp [indexAny] at h
  | cons c s ih =>
    unfold indexAny at h
    by_cases hc : cs.contains c = true
    · simp only [hc, if_true, Option.some.injEq] at h
      subst h
      exact ⟨c, by simpa using hc, by simp, by simp⟩
    · simp only [hc, Bool.false_eq_true, if_false, Option.map_eq_some'] at h
      obtain ⟨k, hk, rfl⟩ := h
      obtain ⟨b, hb, h1, h2⟩ := ih hk
      refine ⟨b, hb, ?_, ?_⟩
      · simp only [List.take_succ_cons, List.drop_succ_cons, List.cons_append]
        rw [← h1]
      · intro d hd
        simp only [List.take_succ_cons, List.mem_cons] at hd
        rcases hd with rfl | hd
        · simpa using hc
        · exact h2 d hd

theorem indexAny_none {s cs : Str} (h : indexAny s cs = none) : ∀ d ∈ s, d ∉ cs := by
  induction s with
  | nil => simp
  | cons c s ih =>
    unfold indexAny at h
    by_cases hc : cs.contains c = true
    · rw [if_pos hc] at h; cases h
    · simp only [hc, Bool.false_eq_true, if_false, Option.map_eq_none'] at h
      intro d hd
      rcases List.mem_cons.mp hd with rfl | hd
      · simpa using hc
      · exact ih h d hd

theorem beginsWithSpace_of_initial {y x : Str} (h : y <+: x) (hx : beginsWithSpace x = false) :
    beginsWithSpace y = false := by
  obtain ⟨t, rfl⟩ := h
  cases y with
  | nil => rfl
  | cons c m => simpa [beginsWithSpace] using hx

theorem getLast?_of_suffix {e x : Str} (h : e <:+ x) {c : Char} (hc : e.getLast? = some c) :
    x.getLast? = some c := by
  obtain ⟨t, rfl⟩ := h
  rw [List.getLast?_append, hc]
  rfl

theorem drop_of_split {x : Str} {i : Nat} {b : Char}
    (h1 : x = x.take i ++ b :: x.drop (i + 1)) : x.drop i = b :: x.drop (i + 1) := by
  have hlt : i < x.length := by
    by_contra hlt
    rw [List.take_of_length_le (by omega)] at h1
    have := congrArg List.length h1
    simp at this
  have hlen : (x.take i).length = i := by rw [List.length_take]; omega
  have := congrArg (List.drop i) h1
  rw [List.drop_left' hlen] at this
  exact this

theorem commentSplit_spec (x : Str) :
    ((commentSplit x).1 = [] ∨ beginsWith ';' (commentSplit x).1 = true)
      ∧ (commentSplit x).1 <:+ x
      ∧ (commentSplit x).2 <+: x
      ∧ ';' ∉ (commentSplit x).2
      ∧ ∀ c, (commentSplit x).2.getLast? = some c → isSpace c = false := by
  unfold commentSplit
  cases h : indexByte x ';' with
  | none =>
    refine ⟨Or.inl rfl, List.nil_suffix, trimSpaceRight_initial x, ?_, trimSpaceRight_last x⟩
    exact fun hm => indexByte_none h ((trimSpaceRight_initial x).subset hm)
  | some i =>
    obtain ⟨h1, h2⟩ := indexByte_some h
    have hd : x.drop i = ';' :: x.drop (i + 1) := drop_of_split h1
    refine ⟨Or.inr (by dsimp only; rw [hd]; rfl), List.drop_suffix _ _,
      (trimSpaceRight_initial _).trans (List.take_prefix _ _), ?_, trimSpaceRight_last _⟩
    exact fun hm => h2 ((trimSpaceRight_initial _).subset hm)

theorem annotationSplit_spec (x : Str) (hl : ∀ c, x.getLast? = some c → isSpace c = false) :
    ((annotationSplit x).1 = [] ∨ beginsWith '@' (annotationSplit x).1 = true
        ∨ beginsWith '=' (annotationSplit x).1 = true)
      ∧ (annotationSplit x).1 <:+ x
      ∧ (∀ c, (annotationSplit x).1.getLast? = some c → isSpace c = false)
      ∧ (annotationSplit x).2 <+: x
      ∧ (∀ c ∈ (annotationSplit x).2, c ≠ '@' ∧ c ≠ '=')
      ∧ ∀ c, (annotationSplit x).2.getLast? = some c → isSpace c = false := by
  unfold annotationSplit
  cases h : indexAny x ['@', '='] with
  | none =>
    refine ⟨Or.inl rfl, List.nil_suffix, by simp, List.prefix_refl _, ?_, hl⟩
    intro c hc
    have := indexAny_none h c hc
    simpa using this
  | some i =>
    obtain ⟨b, hb, h1, h2⟩ := indexAny_some h
    have hd : x.drop i = b :: x.drop (i + 1) := drop_of_split h1
    refine ⟨Or.inr ?_, List.drop_suffix _ _, ?_, (trimSpaceRight_initial _).trans (List.take_prefix _ _),
      ?_, trimSpaceRight_last _⟩
    · dsimp only
      rw [hd]
      simp only [List.mem_cons, List.mem_singleton, List.not_mem_nil, or_false] at hb
      rcases hb with rfl | rfl
      · exact Or.inl rfl
      · exact Or.inr rfl
    · intro c hc
      exact hl c (getLast?_of_suffix (List.drop_suffix i x) hc)
    · intro c hc
      have := h2 c ((trimSpaceRight_initial _).subset hc)
      simpa using this

/-! ## Where the account ends -/

theorem NoSeparator.nil : NoSeparator [] := by
  constructor
  · simp
  · intro h; have := h.length_le; simp at this

theorem NoSeparator.cons {c : Char} {a : Str} (hc : c ≠ '\t') (ha : NoSeparator a)
    (hs : ¬ (c = ' ' ∧ a.head? = some ' ')) : NoSeparator (c :: a) := by
  constructor
  · simp only [List.mem_cons, not_or]
    exact ⟨fun e => hc e.symm, ha.1⟩
  · intro hi
    rcases List.infix_cons_iff.mp hi with hp | hi
    · obtain ⟨t, ht⟩ := hp
      simp only [List.cons_append, List.nil_append, List.cons.injEq] at ht
      exact hs ⟨ht.1.symm, by rw [← ht.2]; rfl⟩
    · exact ha.2 hi

/-- Every line either has no account separator, or is a stretch without
separator followed by a tab, or such a stretch, not ending in a space, followed
by two spaces. -/
theorem account_decomposition (l : Str) :
    NoSeparator l
      ∨ (∃ a r, l = a ++ '\t' :: r ∧ NoSeparator a)
      ∨ (∃ a r, l = a ++ ' ' :: ' ' :: r ∧ NoSeparator a ∧ a.getLast? ≠ some ' ') := by
  induction l with
  | nil => exact Or.inl NoSeparator.nil
  | cons c l ih =>
    by_cases hct : c = '\t'
    · exact Or.inr (Or.inl ⟨[], l, by simp [hct], NoSeparator.nil⟩)
    by_cases hs : c = ' ' ∧ l.head? = some ' '
    · obtain ⟨rfl, hh⟩ := hs
      cases l with
      | nil => simp at hh
      | cons d r =>
        simp only [List.head?_cons, Option.some.injEq] at hh
        subst hh
        exact Or.inr (Or.inr ⟨[], r, by simp, NoSeparator.nil, by simp⟩)
    rcases ih with h | ⟨a, r, rfl, ha⟩ | ⟨a, r, rfl, ha, hl⟩
    · exact Or.inl (NoSeparator.cons hct h hs)
    · refine Or.inr (Or.inl ⟨c :: a, r, by simp, NoSeparator.cons hct ha ?_⟩)
      rintro ⟨h1, h2⟩
      apply hs
      refine ⟨h1, ?_⟩
      cases a with
      | nil => simp at h2
      | cons d a => simpa using h2
    · have hs' : ¬ (c = ' ' ∧ a.head? = some ' ') := by
        rintro ⟨h1, h2⟩
        apply hs
        refine ⟨h1, ?_⟩
        cases a with
        | nil => simp at h2
        | cons d a => simpa using h2
      refine Or.inr (Or.inr ⟨c :: a, r, by simp, NoSeparator.cons hct ha hs', ?_⟩)
      cases a with
      | nil =>
        simp only [List.getLast?_singleton, ne_eq, Option.some.injEq]
        intro e
        exact hs ⟨e, by simp⟩
      | cons d a =>
        rw [List.getLast?_cons_cons]
        exact hl

theorem notIndented_of_initial {y x : Str} (h : y <+: x) (hy : y ≠ [])
    (hx : notIndented x = true) : notIndented y = true := by
  obtain ⟨t, rfl⟩ := h
  cases y with
  | nil => exact absurd rfl hy
  | cons c m => simpa [notIndented] using hx

theorem trimSpaceRight_ne_nil {l : Str} (h : notIndented l = true) : trimSpaceRight l ≠ [] := by
  obtain ⟨c, m, rfl, hc⟩ := notIndented_eq_true h
  rw [trimSpaceRight_eq_rdropWhile]
  intro e
  rw [List.rdropWhile_eq_nil_iff] at e
  have := e c (List.mem_cons_self _ _)
  rw [hc] at this
  cases this

theorem head?_of_initial {y x : Str} (h : y <+: x) (hy : y ≠ []) : y.head? = x.head? := by
  obtain ⟨t, rfl⟩ := h
  cases y with
  | nil => exact absurd rfl hy
  | cons c m => rfl

/-! ## The shape of a tokenized posting -/

theorem beginsWithSpace_trimSpaceLeft (r : Str) : beginsWithSpace (trimSpaceLeft r) = false := by
  cases h : trimSpaceLeft r with
  | nil => rfl
  | cons c m => simpa [beginsWithSpace] using head_trimSpaceLeft h

theorem trimSpaceLeft_suffix (r : Str) : trimSpaceLeft r <:+ r := by
  rw [trimSpaceLeft_eq_dropWhile]; exact List.dropWhile_suffix _

theorem finishPosting_shape (acc r : Str) (h1 : notIndented acc = true) (h2 : NoSeparator acc)
    (h3 : ∀ c, acc.getLast? = some c → isSpace c = false) :
    PostingShape (finishPosting acc r) ∧ (finishPosting acc r).ExtraTags = []
      ∧ (finishPosting acc r).Account = acc
      ∧ ∀ c, (c ∈ (finishPosting acc r).Amount ∨ c ∈ (finishPosting acc r).AmountExtra
          ∨ c ∈ (finishPosting acc r).DirectTag) → c ∈ r := by
  have hne : acc ≠ [] := by
    obtain ⟨c, m, rfl, _⟩ := notIndented_eq_true h1
    simp
  rw [finishPosting_eq_splits acc r hne]
  obtain ⟨c1, c2, c3, c4, c5⟩ := commentSplit_spec (trimSpaceLeft r)
  obtain ⟨a1, a2, a3, a4, a5, a6⟩ := annotationSplit_spec (commentSplit (trimSpaceLeft r)).2 c5
  have hx := beginsWithSpace_trimSpaceLeft r
  have hsub := (trimSpaceLeft_suffix r).subset
  refine ⟨⟨h1, h2, h3, ?_, ?_, a6, a1, ?_, a3, c1⟩, rfl, rfl, ?_⟩
  · intro c hc
    have hc1 := a4.subset hc
    exact ⟨fun e => c4 (e ▸ hc1), a5 c hc⟩
  · exact beginsWithSpace_of_initial (a4.trans c3) hx
  · exact fun hm => c4 (a2.subset hm)
  · rintro c (hc | hc | hc)
    · exact hsub (c3.subset (a4.subset hc))
    · exact hsub (c3.subset (a2.subset hc))
    · exact hsub (c2.subset hc)

theorem finishPosting_nil_shape (l : Str) (h1 : notIndented l = true) (h2 : NoSeparator l) :
    PostingShape (finishPosting [] l) ∧ (finishPosting [] l).ExtraTags = []
      ∧ (finishPosting [] l).Account = trimSpaceRight l
      ∧ ∀ c, (c ∈ (finishPosting [] l).Amount ∨ c ∈ (finishPosting [] l).AmountExtra
          ∨ c ∈ (finishPosting [] l).DirectTag) → c ∈ l := by
  have : finishPosting [] l = Posting.mk (trimSpaceRight l) [] [] [] [] := rfl
  rw [this]
  refine ⟨⟨?_, ?_, trimSpaceRight_last l, by simp, rfl, by simp, Or.inl rfl, by simp, by simp,
    Or.inl rfl⟩, rfl, rfl, by simp⟩
  · exact notIndented_of_initial (trimSpaceRight_initial l) (trimSpaceRight_ne_nil h1) h1
  · obtain ⟨t, ht⟩ := trimSpaceRight_initial l
    exact NoSeparator.of_append_left (ht ▸ h2)

/-- On a line that begins with a byte other than space and tab, `parsePosting`
returns a posting of the expected shape, with no extra tags, whose account
begins like the line and whose fields are made of bytes of the line. -/
theorem parsePosting_spec (l : Str) (hl : notIndented l = true) :
    ∃ q, parsePosting l = .ok q ∧ PostingShape q ∧ q.ExtraTags = []
      ∧ q.Account.head? = l.head?
      ∧ ∀ c, (c ∈ q.Account ∨ c ∈ q.Amount ∨ c ∈ q.AmountExtra ∨ c ∈ q.DirectTag) → c ∈ l := by
  obtain ⟨c0, m0, hl0, hc0⟩ := notIndented_eq_true hl
  rcases account_decomposition l with h | ⟨a, r, rfl, ha⟩ | ⟨a, r, rfl, ha, hlast⟩
  · obtain ⟨s1, s2, s3, s4⟩ := finishPosting_nil_shape l hl h
    refine ⟨_, parsePosting_no_separator l h hl, s1, s2, ?_, ?_⟩
    · rw [s3]
      exact head?_of_initial (trimSpaceRight_initial l) (trimSpaceRight_ne_nil hl)
    · rintro c (hc | hc)
      · rw [s3] at hc
        exact (trimSpaceRight_initial l).subset hc
      · exact s4 c hc
  · have hane : a ≠ [] := by
      intro e; subst e
      simp only [List.nil_append, List.cons.injEq] at hl0
      rw [← hl0.1] at hc0; exact absurd hc0 (by decide)
    have hani : notIndented a = true := notIndented_of_initial (List.prefix_append _ _) hane hl
    have hpre : trimSpaceRight a <+: a ++ '\t' :: r :=
      (trimSpaceRight_initial a).trans (List.prefix_append _ _)
    obtain ⟨s1, s2, s3, s4⟩ := finishPosting_shape (trimSpaceRight a) r
      (notIndented_of_initial (trimSpaceRight_initial a) (trimSpaceRight_ne_nil hani) hani)
      (by obtain ⟨t, ht⟩ := trimSpaceRight_initial a; exact NoSeparator.of_append_left (ht ▸ ha))
      (trimSpaceRight_last a)
    refine ⟨_, parsePosting_tab a r ha hani, s1, s2, ?_, ?_⟩
    · rw [s3]
      exact head?_of_initial hpre (trimSpaceRight_ne_nil hani)
    · rintro c (hc | hc)
      · rw [s3] at hc
        exact hpre.subset hc
      · exact List.mem_append_right _ (List.mem_cons_of_mem _ (s4 c hc))
  · have hane : a ≠ [] := by
      intro e; subst e
      simp only [List.nil_append, List.cons.injEq] at hl0
      rw [← hl0.1] at hc0; exact absurd hc0 (by decide)
    have hani : notIndented a = true := notIndented_of_initial (List.prefix_append _ _) hane hl
    have hend : ∀ c, a.getLast? = some c → isSpace c = false := by
      intro c hc
      cases hs : isSpace c with
      | false => rfl
      | true =>
        rcases (isSpace_iff c).mp hs with rfl | rfl
        · exact absurd hc hlast
        · exact absurd (List.mem_of_getLast?_eq_some hc) ha.1
    obtain ⟨s1, s2, s3, s4⟩ := finishPosting_shape a r hani ha hend
    refine ⟨_, parsePosting_two_spaces a r ha hani hlast, s1, s2, ?_, ?_⟩
    · rw [s3]
      exact head?_of_initial (List.prefix_append _ _) hane
    · rintro c (hc | hc)
      · rw [s3] at hc
        exact List.mem_append_left _ hc
      · exact List.mem_append_right _
          (List.mem_cons_of_mem _ (List.mem_cons_of_mem _ (s4 c hc)))

/-! ## What `Parse` returns is canonical -/

theorem indexSpace_none {s : Str} (h : indexSpace s = none) : ∀ c ∈ s, isSpace c = false := by
  induction s with
  | nil => simp
  | cons c cs ih =>
    unfold indexSpace at h
    by_cases hc : isSpace c = true
    · rw [if_pos hc] at h; cases h
    · simp only [hc, Bool.false_eq_true, if_false, Option.map_eq_none'] at h
      intro d hd
      rcases List.mem_cons.mp hd with rfl | hd
      · simpa using hc
      · exact ih h d hd

theorem indexSpace_some {s : Str} {i : Nat} (h : indexSpace s = some i) :
    (∀ c ∈ s.take i, isSpace c = false) ∧ beginsWithSpace (s.drop i) = true := by
  induction s generalizing i with
  | nil => simp [indexSpace] at h
  | cons c cs ih =>
    unfold indexSpace at h
    by_cases hc : isSpace c = true
    · simp only [hc, if_true, Option.some.injEq] at h
      subst h
      simp [beginsWithSpace, hc]
    · simp only [hc, Bool.false_eq_true, if_false, Option.map_eq_some'] at h
      obtain ⟨k, hk, rfl⟩ := h
      obtain ⟨h1, h2⟩ := ih hk
      refine ⟨?_, by simpa using h2⟩
      intro d hd
      simp only [List.take_succ_cons, List.mem_cons] at hd
      rcases hd with rfl | hd
      · simpa using hc
      · exact h1 d hd

theorem parseHeader_canon (l : Str) (hl : notIndented l = true) (hlf : '\n' ∉ l) :
    CanonTransaction (parseHeader l) := by
  obtain ⟨c0, m0, rfl, hc0⟩ := notIndented_eq_true hl
  have key : ∀ (date rest : Str), notIndented date = true →
      (∀ c ∈ date, isSpace c = false ∧ c ≠ '\n') → beginsWithSpace rest = false → '\n' ∉ rest →
      CanonTransaction
        (match rest with
          | [] => ({ Date := date, Status := 0, Description := rest } : Transaction)
          | c :: rest' =>
            if c == '*' || c == '!' then
              { Date := date, Status := (c.toNat : Int), Description := trimSpaceLeft rest' }
            else { Date := date, Status := 0, Description := rest }) := by
    intro date rest h1 h2 h3 h4
    cases rest with
    | nil => exact ⟨h1, h2, Or.inl rfl, rfl, fun _ => ⟨rfl, rfl⟩, by simp, by simp, by simp⟩
    | cons c rest' =>
      by_cases hm : (c == '*' || c == '!') = true
      · simp only [hm, if_true]
        refine ⟨h1, h2, ?_, beginsWithSpace_trimSpaceLeft _, ?_, ?_, by simp, by simp⟩
        · simp only [Bool.or_eq_true, beq_iff_eq] at hm
          rcases hm with rfl | rfl
          · exact Or.inr (Or.inl rfl)
          · exact Or.inr (Or.inr rfl)
        · intro h0
          simp only [Bool.or_eq_true, beq_iff_eq] at hm
          rcases hm with rfl | rfl <;> simp at h0
        · exact fun hm' => h4 (List.mem_cons_of_mem _ ((trimSpaceLeft_suffix rest').subset hm'))
      · simp only [hm, Bool.false_eq_true, if_false]
        simp only [Bool.or_eq_true, beq_iff_eq, not_or] at hm
        refine ⟨h1, h2, Or.inl rfl, h3, fun _ => ⟨?_, ?_⟩, h4, by simp, by simp⟩
        · simpa [beginsWith] using hm.1
        · simpa [beginsWith] using hm.2
  have hunf : (parseHeader (c0 :: m0) : Transaction)
      = (match indexSpace (c0 :: m0) with
          | none => (match ([] : Str) with
            | [] => ({ Date := c0 :: m0, Status := 0, Description := [] } : Transaction)
            | c :: rest' =>
              if c == '*' || c == '!' then
                { Date := c0 :: m0, Status := (c.toNat : Int), Description := trimSpaceLeft rest' }
              else { Date := c0 :: m0, Status := 0, Description := [] })
          | some i => (match trimSpaceLeft ((c0 :: m0).drop i) with
            | [] => ({ Date := (c0 :: m0).take i, Status := 0,
                       Description := trimSpaceLeft ((c0 :: m0).drop i) } : Transaction)
            | c :: rest' =>
              if c == '*' || c == '!' then
                { Date := (c0 :: m0).take i, Status := (c.toNat : Int),
                  Description := trimSpaceLeft rest' }
              else { Date := (c0 :: m0).take i, Status := 0,
                     Description := trimSpaceLeft ((c0 :: m0).drop i) })) := by
    unfold parseHeader
    cases indexSpace (c0 :: m0) with
    | none => rfl
    | some i =>
      dsimp only
      cases trimSpaceLeft ((c0 :: m0).drop i) with
      | nil => rfl
      | cons c r => dsimp only; split <;> rfl
  rw [hunf]
  cases hi : indexSpace (c0 :: m0) with
  | none =>
    have hs := indexSpace_none hi
    exact key (c0 :: m0) [] hl (fun c hc => ⟨hs c hc, fun e => hlf (e ▸ hc)⟩) rfl (by simp)
  | some i =>
    obtain ⟨h1, h2⟩ := indexSpace_some hi
    have hipos : i ≠ 0 := by
      intro e; subst e
      simp [beginsWithSpace, hc0] at h2
    obtain ⟨k, rfl⟩ : ∃ k, i = k + 1 := ⟨i - 1, by omega⟩
    have := key ((c0 :: m0).take (k + 1)) (trimSpaceLeft ((c0 :: m0).drop (k + 1)))
      (by simp [notIndented, hc0])
      (fun c hc => ⟨h1 c hc, fun e => hlf (List.mem_of_mem_take (e ▸ hc))⟩)
      (beginsWithSpace_trimSpaceLeft _)
      (fun hm => hlf (List.mem_of_mem_drop ((trimSpaceLeft_suffix _).subset hm)))
    exact this

theorem postingOf_canon (l : Str) (hl : notIndented l = true) (hsc : beginsWith ';' l = false)
    (hlf : '\n' ∉ l) : CanonPosting (postingOf l) := by
  obtain ⟨q, h1, h2, h3, h4, h5⟩ := parsePosting_spec l hl
  rw [postingOf_eq h1]
  refine ⟨h2, ?_, ⟨?_, ?_, ?_, ?_⟩, by rw [h3]; simp⟩
  · obtain ⟨c, m, hq, _⟩ := notIndented_eq_true h2.account_start
    obtain ⟨c0, m0, rfl, _⟩ := notIndented_eq_true hl
    rw [hq] at h4 ⊢
    simp only [List.head?_cons, Option.some.injEq] at h4
    subst h4
    simpa [beginsWith] using hsc
  · exact fun hm => hlf (h5 _ (Or.inl hm))
  · exact fun hm => hlf (h5 _ (Or.inr (Or.inl hm)))
  · exact fun hm => hlf (h5 _ (Or.inr (Or.inr (Or.inl hm))))
  · exact fun hm => hlf (h5 _ (Or.inr (Or.inr (Or.inr hm))))

theorem PostingShape.with_tags {q : Posting} (tags : List Str) (h : PostingShape q) :
    PostingShape { q with ExtraTags := tags } :=
  ⟨h.account_start, h.account_nosep, h.account_end, h.amount_chars, h.amount_start,
    h.amount_end, h.extra_start, h.extra_chars, h.extra_end, h.tag_start⟩

theorem addComment_canon (t : Transaction) (tag : Str) (ht : CanonTransaction t)
    (h : beginsWith ';' tag = true) (hlf : '\n' ∉ tag) : CanonTransaction (addComment t tag) := by
  unfold addComment
  cases hq : t.Postings.getLast? with
  | none =>
    refine ⟨ht.date_start, ht.date_chars, ht.status, ht.desc_start, ht.desc_marker, ht.desc_lf,
      ?_, ht.postings⟩
    intro x hx
    rcases List.mem_append.mp hx with hx | hx
    · exact ht.tags x hx
    · simp only [List.mem_singleton] at hx; subst hx; exact ⟨h, hlf⟩
  | some q =>
    have hqm : q ∈ t.Postings := List.mem_of_getLast?_eq_some hq
    refine ⟨ht.date_start, ht.date_chars, ht.status, ht.desc_start, ht.desc_marker, ht.desc_lf,
      ht.tags, ?_⟩
    intro x hx
    rcases List.mem_append.mp hx with hx | hx
    · exact ht.postings x (List.mem_of_mem_dropLast hx)
    · simp only [List.mem_singleton] at hx
      subst hx
      have hc := ht.postings q hqm
      refine ⟨hc.shape.with_tags _, hc.not_comment, hc.no_lf, ?_⟩
      intro y hy
      rcases List.mem_append.mp hy with hy | hy
      · exact hc.extra_tags y hy
      · simp only [List.mem_singleton] at hy; subst hy; exact ⟨h, hlf⟩

theorem beginsWithSpace_of_not (l : Str) (h1 : notIndented l = false)
    (h2 : isEmptyLine l = false) : beginsWithSpace l = true := by
  cases l with
  | nil => simp [isEmptyLine, indexNotSpace] at h2
  | cons c m => simpa [notIndented, beginsWithSpace] using h1

theorem step_canon {σ σ' : Asm} {l : Str} (hσ : ∀ t ∈ σ.out, CanonTransaction t)
    (hlf : '\n' ∉ l) (hs : σ.step l = some σ') : ∀ t ∈ σ'.out, CanonTransaction t := by
  obtain ⟨closed, current⟩ := σ
  by_cases hn : notIndented l = true
  · have hh := parseHeader_canon l hn hlf
    cases current with
    | none =>
      rw [step_file _ _ rfl, fileStep_header _ hn] at hs
      simp only [Option.some.injEq] at hs
      subst hs
      intro t ht
      simp only [Asm.out, Option.toList, List.mem_append, List.mem_singleton] at ht
      rcases ht with ht | rfl
      · exact hσ t (by simp [Asm.out, ht])
      · exact hh
    | some t0 =>
      rw [step_body_header _ t0 rfl hn] at hs
      simp only [Option.some.injEq] at hs
      subst hs
      intro t ht
      simp only [Asm.out, Option.toList, List.mem_append, List.mem_singleton] at ht
      rcases ht with (ht | rfl) | rfl
      · exact hσ t (by simp [Asm.out, ht])
      · exact hσ t (by simp [Asm.out])
      · exact hh
  · simp only [Bool.not_eq_true] at hn
    by_cases hb : isEmptyLine l = true
    · cases current with
      | none =>
        rw [step_file _ _ rfl, fileStep_blank _ hb] at hs
        simp only [Option.some.injEq] at hs
        subst hs
        exact hσ
      | some t0 =>
        rw [step_body_blank _ t0 rfl hb] at hs
        simp only [Option.some.injEq] at hs
        subst hs
        intro t ht
        exact hσ t (by simpa [Asm.out] using ht)
    · simp only [Bool.not_eq_true] at hb
      cases current with
      | none =>
        rw [step_file _ _ rfl, fileStep_indented _ (beginsWithSpace_of_not l hn hb) hb] at hs
        cases hs
      | some t0 =>
        have ht0 : CanonTransaction t0 := hσ t0 (by simp [Asm.out])
        have hcl : ∀ t ∈ closed, CanonTransaction t := fun t ht => hσ t (by simp [Asm.out, ht])
        have hsub : ∀ c ∈ trimSpaceLeft l, c ∈ l := fun c hc => (trimSpaceLeft_suffix l).subset hc
        by_cases hc : beginsWith ';' (trimSpaceLeft l) = true
        · rw [step_body_comment _ t0 rfl hn hc] at hs
          simp only [Option.some.injEq] at hs
          subst hs
          intro t ht
          simp only [Asm.out, Option.toList, List.mem_append, List.mem_singleton] at ht
          rcases ht with ht | rfl
          · exact hcl t ht
          · exact addComment_canon t0 _ ht0 hc (fun hm => hlf (hsub _ hm))
        · simp only [Bool.not_eq_true] at hc
          rw [(step_body_posting _ t0 rfl hn hb hc).1] at hs
          simp only [Option.some.injEq] at hs
          subst hs
          intro t ht
          simp only [Asm.out, Option.toList, List.mem_append, List.mem_singleton] at ht
          rcases ht with ht | rfl
          · exact hcl t ht
          · have hni : notIndented (trimSpaceLeft l) = true := by
              cases htl : trimSpaceLeft l with
              | nil => rw [(trimSpaceLeft_eq_nil_iff l).mp htl] at hb; cases hb
              | cons c m => simp [notIndented, head_trimSpaceLeft htl]
            refine ⟨ht0.date_start, ht0.date_chars, ht0.status, ht0.desc_start, ht0.desc_marker,
              ht0.desc_lf, ht0.tags, ?_⟩
            intro q hq
            rcases List.mem_append.mp hq with hq | hq
            · exact ht0.postings q hq
            · simp only [List.mem_singleton] at hq
              subst hq
              exact postingOf_canon _ hni hc (fun hm => hlf (hsub _ hm))

theorem run_canon (ls : List Str) : ∀ (σ : Asm) (n : Nat),
    (∀ t ∈ σ.out, CanonTransaction t) → (∀ l ∈ ls, '\n' ∉ l) →
    ∀ t ∈ (Asm.run σ n ls).1, CanonTransaction t := by
  induction ls with
  | nil => intro σ n hσ _; simpa [Asm.run] using hσ
  | cons l ls ih =>
    intro σ n hσ hls
    cases hs : σ.step l with
    | none => rw [run_cons_none _ _ hs]; exact hσ
    | some σ' =>
      rw [run_cons_some _ _ hs]
      exact ih σ' (n + 1) (step_canon hσ (hls l (List.mem_cons_self _ _)) hs)
        (fun x hx => hls x (List.mem_cons_of_mem _ hx))

/-- Every transaction `Parse` returns is canonical. -/
theorem Parse_canon {s : Str} {ts : List Transaction} {e : Option ParseError}
    (h : Parse s = .ok (ts, e)) : ∀ t ∈ ts, CanonTransaction t := by
  rw [Parse_eq_assemble] at h
  simp only [Except.ok.injEq] at h
  have := run_canon (terminatedLines s) {} 0 (by simp [Asm.out]) (terminatedLines_no_lf s)
  rw [assemble] at h
  rw [h] at this
  exact this

/-! ## The canonical text, line by line -/

theorem joinLines_append (a b : List Str) : joinLines (a ++ b) = joinLines a ++ joinLines b := by
  simp [joinLines]

theorem joinLines_map_tagLine (tags : List Str) :
    joinLines (tags.map tagLine)
      = (tags.map (fun tag => "    ".toList ++ tag ++ ['\n'])).flatten := by
  induction tags with
  | nil => rfl
  | cons t ts ih =>
    rw [List.map_cons, joinLines_cons, ih]
    simp [tagLine]

theorem writePosting_eq_lines (p : Posting) : writePosting p = joinLines (postingLines p) := by
  rw [postingLines, joinLines_cons, joinLines_map_tagLine]
  unfold writePosting postingText
  by_cases h : (p.Amount != [] || p.AmountExtra != []) = true
  · simp only [h, if_true, List.append_assoc, List.cons_append, List.nil_append,
      List.singleton_append]
  · simp only [h, Bool.false_eq_true, if_false, List.append_assoc, List.cons_append,
      List.nil_append, List.singleton_append]

theorem joinLines_flatten (ls : List (List Str)) :
    joinLines ls.flatten = (ls.map joinLines).flatten := by
  induction ls with
  | nil => rfl
  | cons l ls ih => simp [joinLines_append, ih]

theorem write_eq_lines (t : Transaction) : t.write = joinLines (canonLines t) := by
  rw [canonLines, joinLines_cons, joinLines_append, joinLines_map_tagLine, joinLines_flatten,
    List.map_map]
  have : (joinLines ∘ postingLines) = writePosting := by
    funext p; exact (writePosting_eq_lines p).symm
  rw [this]
  simp [Transaction.write, headerLine]

theorem serialize_eq_lines (ts : List Transaction) :
    serializeTransactions ts = joinLines (textLines ts) := by
  cases ts with
  | nil => rfl
  | cons t ts =>
    rw [serializeTransactions, textLines, joinLines_append, joinLines_flatten, List.map_map]
    have : (joinLines ∘ fun u : Transaction => [] :: canonLines u)
        = fun u : Transaction => '\n' :: u.String := by
      funext u
      simp [joinLines_cons, Transaction.String, write_eq_lines]
    rw [this, Transaction.String, write_eq_lines]

/-! ## Reading a canonical line back -/

theorem trimSpaceLeft_of_not_space {x : Str} (h : beginsWithSpace x = false) :
    trimSpaceLeft x = x := by
  rw [trimSpaceLeft_eq_dropWhile]
  cases x with
  | nil => rfl
  | cons c m =>
    have : isSpace c = false := by simpa [beginsWithSpace] using h
    simp [List.dropWhile, this]

theorem trimSpaceLeft_spaces_append {w x : Str} (hw : ∀ c ∈ w, isSpace c = true)
    (hx : beginsWithSpace x = false) : trimSpaceLeft (w ++ x) = x := by
  rw [trimSpaceLeft_eq_dropWhile]
  apply dropWhile_isSpace_run hw
  intro c hc
  cases x with
  | nil => simp at hc
  | cons d m =>
    simp only [List.head?_cons, Option.mem_def, Option.some.injEq] at hc
    subst hc
    simpa [beginsWithSpace] using hx

theorem trimSpaceRight_append_spaces {x w : Str} (hw : ∀ c ∈ w, isSpace c = true)
    (hx : ∀ c, x.getLast? = some c → isSpace c = false) : trimSpaceRight (x ++ w) = x := by
  rw [trimSpaceRight_eq_rdropWhile, List.rdropWhile, List.reverse_append]
  rw [dropWhile_isSpace_run (fun c hc => hw c (List.mem_reverse.mp hc)) x.reverse]
  · simp
  · intro c hc
    rw [List.head?_reverse] at hc
    exact hx c hc

theorem commentSplit_append (P D : Str) (hP : ';' ∉ P)
    (hD : D = [] ∨ beginsWith ';' D = true) : commentSplit (P ++ D) = (D, trimSpaceRight P) := by
  unfold commentSplit
  rcases hD with rfl | hD
  · rw [List.append_nil, indexByte_eq_none hP]
  · cases D with
    | nil => simp [beginsWith] at hD
    | cons d D' =>
      have : d = ';' := by simpa [beginsWith] using hD
      subst this
      rw [indexByte_append hP]
      simp

theorem indexAny_append {A : Str} {cs : Str} (hA : ∀ c ∈ A, c ∉ cs) (b : Char) (hb : b ∈ cs)
    (E : Str) : indexAny (A ++ b :: E) cs = some A.length := by
  induction A with
  | nil => simp [indexAny, hb]
  | cons a A ih =>
    have h1 : a ∉ cs := hA a (List.mem_cons_self _ _)
    have h2 : ∀ c ∈ A, c ∉ cs := fun c hc => hA c (List.mem_cons_of_mem _ hc)
    simp [indexAny, h1, ih h2]

theorem indexAny_eq_none {A : Str} {cs : Str} (hA : ∀ c ∈ A, c ∉ cs) : indexAny A cs = none := by
  induction A with
  | nil => rfl
  | cons a A ih =>
    have h1 : a ∉ cs := hA a (List.mem_cons_self _ _)
    have h2 : ∀ c ∈ A, c ∉ cs := fun c hc => hA c (List.mem_cons_of_mem _ hc)
    simp [indexAny, h1, ih h2]

theorem annotationSplit_append (A E : Str) (hA : ∀ c ∈ A, c ≠ '@' ∧ c ≠ '=')
    (hE : beginsWith '@' E = true ∨ beginsWith '=' E = true) :
    annotationSplit (A ++ E) = (E, trimSpaceRight A) := by
  unfold annotationSplit
  have hA' : ∀ c ∈ A, c ∉ ['@', '='] := by
    intro c hc; have := hA c hc; simp [this.1, this.2]
  cases E with
  | nil => simp [beginsWith] at hE
  | cons e E' =>
    have he : e ∈ ['@', '='] := by
      rcases hE with h | h
      · have : e = '@' := by simpa [beginsWith] using h
        simp [this]
      · have : e = '=' := by simpa [beginsWith] using h
        simp [this]
    rw [indexAny_append hA' e he]
    simp

theorem annotationSplit_plain (A : Str) (hA : ∀ c ∈ A, c ≠ '@' ∧ c ≠ '=') :
    annotationSplit A = ([], A) := by
  unfold annotationSplit
  have hA' : ∀ c ∈ A, c ∉ ['@', '='] := by
    intro c hc; have := hA c hc; simp [this.1, this.2]
  rw [indexAny_eq_none hA']

theorem runeCountFuel_le (fuel : Nat) (s : Str) : runeCountFuel fuel s ≤ fuel := by
  induction fuel generalizing s with
  | zero => simp [runeCountFuel]
  | succ f ih =>
    cases s with
    | nil => simp [runeCountFuel]
    | cons c m =>
      simp only [runeCountFuel]
      have := ih ((c :: m).drop (runeSize (c :: m)))
      omega

theorem runeCount_le (s : Str) : runeCount s ≤ s.length := runeCountFuel_le _ _

theorem fmtWidthS_pad (acc : Str) (w : Int) (h1 : (acc.length : Int) + 2 ≤ w)
    (h2 : w ≤ 1000000) :
    ∃ k, fmtWidthS (-w) acc = acc ++ ' ' :: ' ' :: List.replicate k ' ' := by
  have hrc := runeCount_le acc
  have hc1 : (-w > 1000000 || -w < -1000000) = false := by
    simp only [Bool.or_eq_false_iff, decide_eq_false_iff_not]
    constructor <;> omega
  have hc2 : ((-w).natAbs == 0) = false := by
    simp only [beq_eq_false_iff_ne, ne_eq]; omega
  have hc3 : decide (-w < 0) = true := by
    simp only [decide_eq_true_eq]; omega
  obtain ⟨k, hk⟩ : ∃ k, (-w).natAbs - runeCount acc = k + 2 :=
    ⟨(-w).natAbs - runeCount acc - 2, by omega⟩
  refine ⟨k, ?_⟩
  simp only [fmtWidthS, hc1, Bool.false_eq_true, if_false, hc2, hc3, if_true, hk]
  rfl

theorem parseHeader_date_rest (d X : Str) (hd : ∀ c ∈ d, isSpace c = false) :
    (parseHeader (d ++ ' ' :: X) : Transaction)
      = (match trimSpaceLeft X with
          | [] => ({ Date := d, Status := 0, Description := [] } : Transaction)
          | c :: rest' =>
            if c == '*' || c == '!' then
              { Date := d, Status := (c.toNat : Int), Description := trimSpaceLeft rest' }
            else { Date := d, Status := 0, Description := c :: rest' }) := by
  have hidx : indexSpace (d ++ ' ' :: X) = some d.length := indexSpace_append hd ' ' rfl X
  have htl : trimSpaceLeft (' ' :: X) = trimSpaceLeft X := by
    simp [trimSpaceLeft_eq_dropWhile, List.dropWhile, isSpace]
  unfold parseHeader
  simp only [hidx, List.take_left, List.drop_left, htl]
  cases trimSpaceLeft X with
  | nil => rfl
  | cons c r => dsimp only; split <;> rfl

theorem parseHeader_headerLine (t : Transaction) (ht : CanonTransaction t) :
    (parseHeader (headerLine t) : Transaction)
      = { Date := t.Date, Status := t.Status, Description := t.Description, Tags := [],
          Postings := [] } := by
  have hd : ∀ c ∈ t.Date, isSpace c = false := fun c hc => (ht.date_chars c hc).1
  have hdesc := trimSpaceLeft_of_not_space ht.desc_start
  have hdesc2 : trimSpaceLeft (' ' :: t.Description) = t.Description := by
    have := trimSpaceLeft_spaces_append (w := [' ']) (by decide) ht.desc_start
    simpa using this
  rcases ht.status with h0 | h1 | h2
  · have hl : headerLine t = t.Date ++ ' ' :: t.Description := by
      simp [headerLine, h0]
    rw [hl, parseHeader_date_rest _ _ hd, hdesc, h0]
    cases hD : t.Description with
    | nil => rfl
    | cons c r =>
      obtain ⟨m1, m2⟩ := ht.desc_marker h0
      rw [hD] at m1 m2
      have : (c == '*' || c == '!') = false := by
        simp only [beginsWith] at m1 m2
        simp [m1, m2]
      simp only [this, Bool.false_eq_true, if_false]
  · have hl : headerLine t = t.Date ++ ' ' :: ('*' :: ' ' :: t.Description) := by
      have e : encodeRune 42 = ['*'] := by decide
      have n : ((42 : Int) != 0) = true := by decide
      simp only [headerLine, h1, e, n, if_true, List.append_assoc, List.cons_append,
        List.nil_append]
    rw [hl, parseHeader_date_rest _ _ hd,
      trimSpaceLeft_of_not_space (x := '*' :: ' ' :: t.Description) rfl, h1]
    simp only [beq_self_eq_true, Bool.true_or, if_true, hdesc2]
    rfl
  · have hl : headerLine t = t.Date ++ ' ' :: ('!' :: ' ' :: t.Description) := by
      have e : encodeRune 33 = ['!'] := by decide
      have n : ((33 : Int) != 0) = true := by decide
      simp only [headerLine, h2, e, n, if_true, List.append_assoc, List.cons_append,
        List.nil_append]
    rw [hl, parseHeader_date_rest _ _ hd,
      trimSpaceLeft_of_not_space (x := '!' :: ' ' :: t.Description) rfl, h2]
    simp only [beq_self_eq_true, Bool.or_true, if_true, hdesc2]
    rfl

theorem commentSplit_core (core dtag : Str) (hc : ';' ∉ core)
    (hl : ∀ c, core.getLast? = some c → isSpace c = false)
    (hd : dtag = [] ∨ beginsWith ';' dtag = true) :
    commentSplit (core ++ (if dtag != [] then "  ".toList ++ dtag else [])) = (dtag, core) := by
  by_cases h : dtag = []
  · subst h
    have := commentSplit_append core [] hc (Or.inl rfl)
    rw [trimSpaceRight_eq_self hl] at this
    simpa using this
  · have hb : (dtag != []) = true := by simpa using h
    simp only [hb, if_true]
    have hP : ';' ∉ core ++ "  ".toList := by
      intro hm
      rcases List.mem_append.mp hm with hm | hm
      · exact hc hm
      · revert hm; decide
    have := commentSplit_append (core ++ "  ".toList) dtag hP hd
    rw [trimSpaceRight_append_spaces (by decide) hl] at this
    simpa using this

theorem finishPosting_of_splits (acc r X core amount extra dtag : Str) (hacc : acc ≠ [])
    (h1 : trimSpaceLeft r = X) (h2 : commentSplit X = (dtag, core))
    (h3 : annotationSplit core = (extra, amount)) :
    finishPosting acc r
      = { Account := acc, Amount := amount, AmountExtra := extra, DirectTag := dtag,
          ExtraTags := [] } := by
  rw [finishPosting_eq_splits acc r hacc, h1, h2, h3]

theorem beginsWithSpace_append_left {a : Str} (b : Str) (ha : a ≠ [])
    (h : beginsWithSpace a = false) : beginsWithSpace (a ++ b) = false := by
  cases a with
  | nil => exact absurd rfl ha
  | cons c m => simpa [beginsWithSpace] using h

theorem beginsWithSpace_of_beginsWith {b : Char} {x : Str} (hb : isSpace b = false)
    (h : beginsWith b x = true) : beginsWithSpace x = false := by
  cases x with
  | nil => rfl
  | cons c m =>
    have : c = b := by simpa [beginsWith] using h
    subst this
    simpa [beginsWithSpace] using hb

/-- The amount part of a canonical posting line is split back into the
fields it was written from. -/
theorem finishPosting_canonical (acc w amount extra dtag : Str) (hacc : acc ≠ [])
    (hw : ∀ c ∈ w, isSpace c = true)
    (ha1 : ∀ c ∈ amount, c ≠ ';' ∧ c ≠ '@' ∧ c ≠ '=')
    (ha2 : beginsWithSpace amount = false)
    (ha3 : ∀ c, amount.getLast? = some c → isSpace c = false)
    (he1 : extra = [] ∨ beginsWith '@' extra = true ∨ beginsWith '=' extra = true)
    (he2 : ';' ∉ extra)
    (he3 : ∀ c, extra.getLast? = some c → isSpace c = false)
    (hd : dtag = [] ∨ beginsWith ';' dtag = true) :
    finishPosting acc
        (w ++ (amount ++ ((if extra != [] then " ".toList ++ extra else [])
          ++ (if dtag != [] then "  ".toList ++ dtag else []))))
      = { Account := acc, Amount := amount, AmountExtra := extra, DirectTag := dtag,
          ExtraTags := [] } := by
  have hsemi : ';' ∉ amount := fun hm => (ha1 _ hm).1 rfl
  have hann : ∀ c ∈ amount, c ≠ '@' ∧ c ≠ '=' := fun c hc => (ha1 c hc).2
  have hebs : extra ≠ [] → beginsWithSpace extra = false := by
    intro hne
    rcases he1 with h | h | h
    · exact absurd h hne
    · exact beginsWithSpace_of_beginsWith (by decide) h
    · exact beginsWithSpace_of_beginsWith (by decide) h
  by_cases hE : extra = []
  · subst hE
    simp only [bne_self_eq_false, Bool.false_eq_true, if_false, List.nil_append]
    by_cases hA : amount = []
    · subst hA
      simp only [List.nil_append]
      by_cases hD : dtag = []
      · subst hD
        simp only [bne_self_eq_false, Bool.false_eq_true, if_false]
        exact finishPosting_of_splits acc _ [] [] [] [] [] hacc
          (trimSpaceLeft_spaces_append hw rfl) rfl rfl
      · have hb : (dtag != []) = true := by simpa using hD
        have hdb : beginsWith ';' dtag = true := by
          rcases hd with h | h
          · exact absurd h hD
          · exact h
        simp only [hb, if_true]
        have h1 : trimSpaceLeft (w ++ ("  ".toList ++ dtag)) = dtag := by
          rw [← List.append_assoc]
          apply trimSpaceLeft_spaces_append
          · intro c hc
            rcases List.mem_append.mp hc with hc | hc
            · exact hw c hc
            · exact (by decide : ∀ c ∈ "  ".toList, isSpace c = true) c hc
          · exact beginsWithSpace_of_beginsWith (by decide) hdb
        have h2 : commentSplit dtag = (dtag, []) := by
          have := commentSplit_append [] dtag (by simp) (Or.inr hdb)
          simpa using this
        exact finishPosting_of_splits acc _ dtag [] [] [] dtag hacc h1 h2 rfl
    · have h1 : trimSpaceLeft (w ++ (amount ++ (if dtag != [] then "  ".toList ++ dtag else [])))
          = amount ++ (if dtag != [] then "  ".toList ++ dtag else []) :=
        trimSpaceLeft_spaces_append hw (beginsWithSpace_append_left _ hA ha2)
      exact finishPosting_of_splits acc _ _ amount amount [] dtag hacc h1
        (commentSplit_core amount dtag hsemi ha3 hd) (annotationSplit_plain amount hann)
  · have hb : (extra != []) = true := by simpa using hE
    have hann2 : beginsWith '@' extra = true ∨ beginsWith '=' extra = true := by
      rcases he1 with h | h
      · exact absurd h hE
      · exact h
    simp only [hb, if_true]
    by_cases hA : amount = []
    · subst hA
      have h1 : trimSpaceLeft (w ++ ([] ++ (" ".toList ++ extra
            ++ (if dtag != [] then "  ".toList ++ dtag else []))))
          = extra ++ (if dtag != [] then "  ".toList ++ dtag else []) := by
        have : w ++ ([] ++ (" ".toList ++ extra
              ++ (if dtag != [] then "  ".toList ++ dtag else [])))
            = (w ++ " ".toList) ++ (extra ++ (if dtag != [] then "  ".toList ++ dtag else [])) := by
          simp
        rw [this]
        apply trimSpaceLeft_spaces_append
        · intro c hc
          rcases List.mem_append.mp hc with hc | hc
          · exact hw c hc
          · exact (by decide : ∀ c ∈ " ".toList, isSpace c = true) c hc
        · exact beginsWithSpace_append_left _ hE (hebs hE)
      have h3 : annotationSplit extra = (extra, []) := by
        have := annotationSplit_append [] extra (by simp) hann2
        simpa using this
      exact finishPosting_of_splits acc _ _ extra [] extra dtag hacc h1
        (commentSplit_core extra dtag he2 he3 hd) h3
    · have hcore : amount ++ (" ".toList ++ extra ++ (if dtag != [] then "  ".toList ++ dtag else []))
          = (amount ++ " ".toList ++ extra) ++ (if dtag != [] then "  ".toList ++ dtag else []) := by
        simp
      have h1 : trimSpaceLeft (w ++ (amount ++ (" ".toList ++ extra
            ++ (if dtag != [] then "  ".toList ++ dtag else []))))
          = (amount ++ " ".toList ++ extra)
              ++ (if dtag != [] then "  ".toList ++ dtag else []) := by
        rw [hcore]
        apply trimSpaceLeft_spaces_append hw
        rw [List.append_assoc, List.append_assoc]
        exact beginsWithSpace_append_left _ hA ha2
      have hc1 : ';' ∉ amount ++ " ".toList ++ extra := by
        intro hm
        rcases List.mem_append.mp hm with hm | hm
        · rcases List.mem_append.mp hm with hm | hm
          · exact hsemi hm
          · revert hm; decide
        · exact he2 hm
      have hc2 : ∀ c, (amount ++ " ".toList ++ extra).getLast? = some c → isSpace c = false := by
        intro c hc
        rw [List.getLast?_append] at hc
        cases hx : extra.getLast? with
        | none =>
          rw [List.getLast?_eq_none_iff] at hx
          exact absurd hx hE
        | some d =>
          rw [hx] at hc
          simp only [Option.or_some, Option.some.injEq] at hc
          subst hc
          exact he3 d hx
      have h3 : annotationSplit (amount ++ " ".toList ++ extra) = (extra, amount) := by
        have := annotationSplit_append (amount ++ " ".toList) extra
          (by
            intro c hc
            rcases List.mem_append.mp hc with hc | hc
            · exact hann c hc
            · exact (by decide : ∀ c ∈ " ".toList, c ≠ '@' ∧ c ≠ '=') c hc) hann2
        rw [trimSpaceRight_append_spaces (by decide) ha3] at this
        exact this
      exact finishPosting_of_splits acc _ _ _ amount extra dtag hacc h1
        (commentSplit_core _ dtag hc1 hc2 hd) h3

theorem CanonPosting.account_last {q : Posting} (hq : CanonPosting q) :
    q.Account.getLast? ≠ some ' ' :=
  fun e => absurd (hq.shape.account_end _ e) (by decide)

/-- A canonical posting line, for an account that `fmt` can pad, begins with
the account, has no line feed, and `parsePosting` reads the posting back from
it. -/
theorem parsePosting_postingText (q : Posting) (hq : CanonPosting q)
    (hw : q.Account.length + 2 ≤ 1000000) :
    parsePosting (postingText q)
        = .ok { Account := q.Account, Amount := q.Amount, AmountExtra := q.AmountExtra,
                DirectTag := q.DirectTag, ExtraTags := [] }
      ∧ ∃ rest, postingText q = q.Account ++ rest ∧ '\n' ∉ rest := by
  have sh := hq.shape
  have hacc : q.Account ≠ [] := by
    obtain ⟨c, m, h, _⟩ := notIndented_eq_true sh.account_start
    rw [h]; simp
  obtain ⟨lf1, lf2, lf3, lf4⟩ := hq.no_lf
  have htail : ∀ c ∈ (if q.AmountExtra != [] then " ".toList ++ q.AmountExtra else [])
      ++ (if q.DirectTag != [] then "  ".toList ++ q.DirectTag else []), c ≠ '\n' := by
    intro c hc e
    subst e
    rcases List.mem_append.mp hc with hc | hc
    · split at hc
      · rcases List.mem_append.mp hc with hc | hc
        · revert hc; decide
        · exact lf3 hc
      · simp at hc
    · split at hc
      · rcases List.mem_append.mp hc with hc | hc
        · revert hc; decide
        · exact lf4 hc
      · simp at hc
  by_cases h : (q.Amount != [] || q.AmountExtra != []) = true
  · have hwid : ∃ k, fmtWidthS
        (-(if (q.Account.length : Int) + 2 < 48 - (q.Amount.length : Int) then
            48 - (q.Amount.length : Int) else (q.Account.length : Int) + 2)) q.Account
          = q.Account ++ ' ' :: ' ' :: List.replicate k ' ' := by
      apply fmtWidthS_pad
      · split <;> omega
      · split <;> omega
    obtain ⟨k, hk⟩ := hwid
    have htext : postingText q = q.Account ++ ' ' :: ' ' :: (List.replicate k ' '
        ++ (q.Amount ++ ((if q.AmountExtra != [] then " ".toList ++ q.AmountExtra else [])
          ++ (if q.DirectTag != [] then "  ".toList ++ q.DirectTag else [])))) := by
      unfold postingText
      simp only [h, if_true, hk]
      by_cases hD : (q.DirectTag != []) = true
      · simp only [hD, if_true, List.append_assoc, List.cons_append]
      · simp only [hD, Bool.false_eq_true, if_false, List.append_assoc, List.cons_append,
          List.append_nil]
    refine ⟨?_, _, htext, ?_⟩
    · rw [htext, parsePosting_two_spaces _ _ sh.account_nosep sh.account_start hq.account_last,
        finishPosting_canonical q.Account _ q.Amount q.AmountExtra q.DirectTag hacc
          (fun c hc => by rw [List.eq_of_mem_replicate hc]; rfl)
          sh.amount_chars sh.amount_start sh.amount_end sh.extra_start sh.extra_chars
          sh.extra_end sh.tag_start]
    · intro hm
      simp only [List.mem_cons] at hm
      rcases hm with hm | hm | hm
      · revert hm; decide
      · revert hm; decide
      · rcases List.mem_append.mp hm with hm | hm
        · exact absurd (List.eq_of_mem_replicate hm) (by decide)
        · rcases List.mem_append.mp hm with hm | hm
          · exact lf2 hm
          · exact htail _ hm rfl
  · simp only [Bool.or_eq_true, bne_iff_ne, ne_eq, not_or, not_not] at h
    obtain ⟨hA, hE⟩ := h
    have hb : (q.Amount != [] || q.AmountExtra != []) = false := by simp [hA, hE]
    by_cases hD : q.DirectTag = []
    · have htext : postingText q = q.Account ++ [] := by
        unfold postingText
        simp [hb, hD]
      refine ⟨?_, [], htext, by simp⟩
      rw [htext, List.append_nil,
        parsePosting_no_separator _ sh.account_nosep sh.account_start,
        finishPosting_nil _ sh.account_end, hA, hE, hD]
    · have hdb : beginsWith ';' q.DirectTag = true := by
        rcases sh.tag_start with h | h
        · exact absurd h hD
        · exact h
      have htext : postingText q = q.Account ++ ' ' :: ' ' :: q.DirectTag := by
        unfold postingText
        have : (q.DirectTag != []) = true := by simpa using hD
        simp only [hb, Bool.false_eq_true, if_false, this, if_true]
        rfl
      refine ⟨?_, _, htext, ?_⟩
      · have h2 : commentSplit q.DirectTag = (q.DirectTag, []) := by
          have := commentSplit_append [] q.DirectTag (by simp) (Or.inr hdb)
          simpa using this
        rw [htext, parsePosting_two_spaces _ _ sh.account_nosep sh.account_start hq.account_last,
          finishPosting_of_splits q.Account q.DirectTag q.DirectTag [] [] [] q.DirectTag hacc
            (trimSpaceLeft_of_not_space (beginsWithSpace_of_beginsWith (by decide) hdb)) h2 rfl,
          hA, hE]
      · intro hm
        simp only [List.mem_cons] at hm
        rcases hm with hm | hm | hm
        · revert hm; decide
        · revert hm; decide
        · exact lf4 hm

/-! ## Parsing the canonical text -/

theorem run_body_append (body : List Str) : ∀ (cl : List Transaction) (t : Transaction) (n : Nat)
    (rest : List Str), (∀ l ∈ body, beginsWithSpace l = true ∧ isEmptyLine l = false) →
    Asm.run ⟨cl, some t⟩ n (body ++ rest)
      = Asm.run ⟨cl, some ((body.map trimSpaceLeft).foldl bodyLine t)⟩ (n + body.length) rest := by
  induction body with
  | nil => intro cl t n rest _; rfl
  | cons l body ih =>
    intro cl t n rest hb
    have h1 := hb l (List.mem_cons_self _ _)
    have h2 : ∀ l ∈ body, beginsWithSpace l = true ∧ isEmptyLine l = false :=
      fun l hl => hb l (List.mem_cons_of_mem _ hl)
    have hstep : (Asm.mk cl (some t)).step l = some ⟨cl, some (bodyLine t (trimSpaceLeft l))⟩ := by
      by_cases hc : beginsWith ';' (trimSpaceLeft l) = true
      · rw [step_body_comment _ t rfl (notIndented_of_beginsWithSpace h1.1) hc]
        simp [bodyLine, hc]
      · simp only [Bool.not_eq_true] at hc
        rw [(step_body_posting _ t rfl (notIndented_of_beginsWithSpace h1.1) h1.2 hc).1]
        simp [bodyLine, hc]
    have hlen : n + (l :: body).length = n + 1 + body.length := by
      simp only [List.length_cons]; omega
    rw [List.cons_append, run_cons_some _ _ hstep, ih cl _ (n + 1) rest h2, hlen]
    rfl

theorem indented_line (x : Str) (hx : notIndented x = true) :
    beginsWithSpace ("    ".toList ++ x) = true ∧ isEmptyLine ("    ".toList ++ x) = false
      ∧ trimSpaceLeft ("    ".toList ++ x) = x := by
  have h3 : trimSpaceLeft ("    ".toList ++ x) = x := trimSpaceLeft_run (by decide) hx
  refine ⟨rfl, ?_, h3⟩
  cases hb : isEmptyLine ("    ".toList ++ x) with
  | false => rfl
  | true =>
    have := (trimSpaceLeft_eq_nil_iff _).mpr hb
    rw [h3] at this
    rw [this] at hx
    simp [notIndented] at hx

theorem notIndented_of_beginsWith {b : Char} {x : Str} (hb : isSpace b = false)
    (h : beginsWith b x = true) : notIndented x = true := by
  cases x with
  | nil => simp [beginsWith] at h
  | cons c m =>
    have : c = b := by simpa [beginsWith] using h
    subst this
    simpa [notIndented] using hb

theorem takeWhile_comments (cs rest : List Str) (hcs : ∀ x ∈ cs, beginsWith ';' x = true)
    (hr : ∀ x, rest.head? = some x → beginsWith ';' x = false) :
    (cs ++ rest).takeWhile (beginsWith ';') = cs := by
  induction cs with
  | nil =>
    cases rest with
    | nil => rfl
    | cons r rs => simp [List.takeWhile, hr r rfl]
  | cons c cs ih =>
    have h1 := hcs c (List.mem_cons_self _ _)
    have h2 : ∀ x ∈ cs, beginsWith ';' x = true := fun x hx => hcs x (List.mem_cons_of_mem _ hx)
    simp [List.takeWhile, h1, ih h2]

theorem specPostings_comments (cs rest : List Str) (hcs : ∀ x ∈ cs, beginsWith ';' x = true) :
    specPostings (cs ++ rest) = specPostings rest := by
  induction cs with
  | nil => rfl
  | cons c cs ih =>
    have h1 := hcs c (List.mem_cons_self _ _)
    have h2 : ∀ x ∈ cs, beginsWith ';' x = true := fun x hx => hcs x (List.mem_cons_of_mem _ hx)
    simp [specPostings, h1, ih h2]

theorem postingText_head (q : Posting) (hq : CanonPosting q)
    (hw : q.Account.length + 2 ≤ 1000000) :
    notIndented (postingText q) = true ∧ beginsWith ';' (postingText q) = false
      ∧ '\n' ∉ postingText q := by
  obtain ⟨_, rest, hr, hlf⟩ := parsePosting_postingText q hq hw
  obtain ⟨c, m, hacc, hc⟩ := notIndented_eq_true hq.shape.account_start
  have hnc := hq.not_comment
  rw [hr]
  rw [hacc] at hnc ⊢
  refine ⟨by simpa [notIndented] using hc, by simpa [beginsWith] using hnc, ?_⟩
  intro hm
  rcases List.mem_append.mp hm with hm | hm
  · exact hq.no_lf.1 (hacc ▸ hm)
  · exact hlf hm

theorem specPostings_postings (qs : List Posting) (hq : ∀ q ∈ qs, CanonPosting q)
    (hw : ∀ q ∈ qs, q.Account.length + 2 ≤ 1000000) :
    specPostings (qs.map (fun q => postingText q :: q.ExtraTags)).flatten = qs
      ∧ ∀ x, (qs.map (fun q => postingText q :: q.ExtraTags)).flatten.head? = some x →
          beginsWith ';' x = false := by
  induction qs with
  | nil => exact ⟨rfl, by simp⟩
  | cons q qs ih =>
    have hq1 := hq q (List.mem_cons_self _ _)
    have hw1 := hw q (List.mem_cons_self _ _)
    obtain ⟨ih1, ih2⟩ := ih (fun x hx => hq x (List.mem_cons_of_mem _ hx))
      (fun x hx => hw x (List.mem_cons_of_mem _ hx))
    obtain ⟨h1, h2, _⟩ := postingText_head q hq1 hw1
    have hp := postingOf_eq (parsePosting_postingText q hq1 hw1).1
    have hcs : ∀ x ∈ q.ExtraTags, beginsWith ';' x = true := fun x hx => (hq1.extra_tags x hx).1
    have hflat : ((q :: qs).map (fun q => postingText q :: q.ExtraTags)).flatten
        = postingText q
            :: (q.ExtraTags ++ (qs.map (fun q => postingText q :: q.ExtraTags)).flatten) := by
      simp
    rw [hflat]
    refine ⟨?_, ?_⟩
    · have hsp : specPostings (postingText q
            :: (q.ExtraTags ++ (qs.map (fun q => postingText q :: q.ExtraTags)).flatten))
          = { Account := (postingOf (postingText q)).Account,
              Amount := (postingOf (postingText q)).Amount,
              AmountExtra := (postingOf (postingText q)).AmountExtra,
              DirectTag := (postingOf (postingText q)).DirectTag,
              ExtraTags := (q.ExtraTags
                ++ (qs.map (fun q => postingText q :: q.ExtraTags)).flatten).takeWhile
                  (beginsWith ';') }
            :: specPostings (q.ExtraTags
                ++ (qs.map (fun q => postingText q :: q.ExtraTags)).flatten) := by
        rw [specPostings, if_neg (by simp [h2])]
      rw [hsp, hp, takeWhile_comments _ _ hcs ih2, specPostings_comments _ _ hcs, ih1]
    · intro x hx
      simp only [List.head?_cons, Option.some.injEq] at hx
      subst hx
      exact h2

theorem tagLines_facts (xs : List Str) (hx : ∀ x ∈ xs, beginsWith ';' x = true ∧ '\n' ∉ x) :
    (∀ l ∈ xs.map tagLine, beginsWithSpace l = true ∧ isEmptyLine l = false ∧ '\n' ∉ l)
      ∧ (xs.map tagLine).map trimSpaceLeft = xs := by
  induction xs with
  | nil => simp
  | cons x xs ih =>
    obtain ⟨h1, h2⟩ := hx x (List.mem_cons_self _ _)
    obtain ⟨i1, i2⟩ := ih (fun y hy => hx y (List.mem_cons_of_mem _ hy))
    obtain ⟨a, b, c⟩ := indented_line x (notIndented_of_beginsWith (by decide) h1)
    have hlf : '\n' ∉ tagLine x := by
      intro hm
      rcases List.mem_append.mp hm with hm | hm
      · revert hm; decide
      · exact h2 hm
    refine ⟨?_, ?_⟩
    · intro l hl
      simp only [List.map_cons, List.mem_cons] at hl
      rcases hl with rfl | hl
      · exact ⟨a, b, hlf⟩
      · exact i1 l hl
    · simp only [List.map_cons, i2]
      rw [show trimSpaceLeft (tagLine x) = x from c]

theorem postingLines_facts (qs : List Posting) (hq : ∀ q ∈ qs, CanonPosting q)
    (hw : ∀ q ∈ qs, q.Account.length + 2 ≤ 1000000) :
    (∀ l ∈ (qs.map postingLines).flatten,
        beginsWithSpace l = true ∧ isEmptyLine l = false ∧ '\n' ∉ l)
      ∧ ((qs.map postingLines).flatten).map trimSpaceLeft
          = (qs.map (fun q => postingText q :: q.ExtraTags)).flatten := by
  induction qs with
  | nil => simp
  | cons q qs ih =>
    have hq1 := hq q (List.mem_cons_self _ _)
    have hw1 := hw q (List.mem_cons_self _ _)
    obtain ⟨i1, i2⟩ := ih (fun x hx => hq x (List.mem_cons_of_mem _ hx))
      (fun x hx => hw x (List.mem_cons_of_mem _ hx))
    obtain ⟨p1, _, p3⟩ := postingText_head q hq1 hw1
    obtain ⟨a, b, c⟩ := indented_line (postingText q) p1
    obtain ⟨t1, t2⟩ := tagLines_facts q.ExtraTags hq1.extra_tags
    have hlf : '\n' ∉ "    ".toList ++ postingText q := by
      intro hm
      rcases List.mem_append.mp hm with hm | hm
      · revert hm; decide
      · exact p3 hm
    refine ⟨?_, ?_⟩
    · intro l hl
      simp only [List.map_cons, List.flatten_cons, postingLines, List.cons_append,
        List.mem_cons, List.mem_append] at hl
      rcases hl with rfl | hl | hl
      · exact ⟨a, b, hlf⟩
      · exact t1 l hl
      · exact i1 l hl
    · simp only [List.map_cons, List.flatten_cons, postingLines, List.cons_append,
        List.map_append, t2, i2, c]

theorem headerLine_facts (t : Transaction) (ht : CanonTransaction t) :
    notIndented (headerLine t) = true ∧ '\n' ∉ headerLine t := by
  obtain ⟨c, m, hd, hc⟩ := notIndented_eq_true ht.date_start
  constructor
  · simp only [headerLine, hd, List.cons_append, List.append_assoc, notIndented, hc, Bool.not_false]
  · have hst : '\n' ∉ (if t.Status != 0 then encodeRune t.Status ++ [' '] else []) := by
      rcases ht.status with h | h | h <;> rw [h] <;> decide
    intro hm
    simp only [headerLine, List.mem_append, List.mem_singleton] at hm
    rcases hm with ((hm | hm) | hm) | hm
    · exact (ht.date_chars _ hm).2 rfl
    · revert hm; decide
    · exact hst hm
    · exact ht.desc_lf hm

/-- The lines of a canonical transaction, met at file scope, leave the
assembler with that transaction under construction. -/
theorem run_canonLines (t : Transaction) (ht : CanonTransaction t)
    (hw : ∀ q ∈ t.Postings, q.Account.length + 2 ≤ 1000000) (cl : List Transaction) (n : Nat)
    (rest : List Str) :
    Asm.run ⟨cl, none⟩ n (canonLines t ++ rest)
      = Asm.run ⟨cl, some t⟩ (n + (canonLines t).length) rest := by
  obtain ⟨hh, _⟩ := headerLine_facts t ht
  obtain ⟨t1, t2⟩ := tagLines_facts t.Tags ht.tags
  obtain ⟨p1, p2⟩ := postingLines_facts t.Postings ht.postings hw
  obtain ⟨s1, s2⟩ := specPostings_postings t.Postings ht.postings hw
  have hstep : (Asm.mk cl none).step (headerLine t)
      = some ⟨cl, some { Date := t.Date, Status := t.Status, Description := t.Description,
                         Tags := [], Postings := [] }⟩ := by
    rw [step_file _ _ rfl, fileStep_header _ hh, parseHeader_headerLine t ht]
  have hbody : ∀ l ∈ t.Tags.map tagLine ++ (t.Postings.map postingLines).flatten,
      beginsWithSpace l = true ∧ isEmptyLine l = false := by
    intro l hl
    rcases List.mem_append.mp hl with hl | hl
    · exact ⟨(t1 l hl).1, (t1 l hl).2.1⟩
    · exact ⟨(p1 l hl).1, (p1 l hl).2.1⟩
  have hlen : n + (canonLines t).length
      = n + 1 + (t.Tags.map tagLine ++ (t.Postings.map postingLines).flatten).length := by
    simp only [canonLines, List.length_cons]; omega
  rw [canonLines, List.cons_append, run_cons_some _ _ hstep, run_body_append _ _ _ _ _ hbody,
    foldl_bodyLine, List.map_append, t2, p2, ← canonLines, hlen]
  have hcs : ∀ x ∈ t.Tags, beginsWith ';' x = true := fun x hx => (ht.tags x hx).1
  simp only [List.getLast?_nil, specTags, takeWhile_comments _ _ hcs s2,
    specPostings_comments _ _ hcs, s1, List.nil_append]

theorem canonLines_no_lf (t : Transaction) (ht : CanonTransaction t)
    (hw : ∀ q ∈ t.Postings, q.Account.length + 2 ≤ 1000000) :
    ∀ l ∈ canonLines t, '\n' ∉ l := by
  intro l hl
  simp only [canonLines, List.mem_cons, List.mem_append] at hl
  rcases hl with rfl | hl | hl
  · exact (headerLine_facts t ht).2
  · exact ((tagLines_facts t.Tags ht.tags).1 l hl).2.2
  · exact ((postingLines_facts t.Postings ht.postings hw).1 l hl).2.2

theorem run_following (ts : List Transaction) : ∀ (cl : List Transaction) (t : Transaction)
    (n : Nat), (∀ u ∈ ts, CanonTransaction u) →
    (∀ u ∈ ts, ∀ q ∈ u.Postings, q.Account.length + 2 ≤ 1000000) →
    (Asm.run ⟨cl, some t⟩ n (ts.map (fun u => [] :: canonLines u)).flatten).1 = cl ++ t :: ts
      ∧ (Asm.run ⟨cl, some t⟩ n (ts.map (fun u => [] :: canonLines u)).flatten).2 = none := by
  induction ts with
  | nil => intro cl t n _ _; simp [Asm.run, Asm.out]
  | cons u ts ih =>
    intro cl t n hc hw
    have hstep : (Asm.mk cl (some t)).step [] = some ⟨cl ++ [t], none⟩ :=
      step_body_blank _ t rfl rfl
    have := ih (cl ++ [t]) u (n + 1 + (canonLines u).length)
      (fun x hx => hc x (List.mem_cons_of_mem _ hx))
      (fun x hx => hw x (List.mem_cons_of_mem _ hx))
    rw [List.map_cons, List.flatten_cons, List.cons_append, run_cons_some _ _ hstep,
      run_canonLines u (hc u (List.mem_cons_self _ _)) (hw u (List.mem_cons_self _ _))]
    simpa using this

/-- The canonical text of canonical transactions whose accounts `fmt` can pad
parses, without error, to the same transactions. -/
theorem Parse_serialize_canon (ts : List Transaction) (hc : ∀ t ∈ ts, CanonTransaction t)
    (hw : ∀ t ∈ ts, ∀ q ∈ t.Postings, q.Account.length + 2 ≤ 1000000) :
    Parse (serializeTransactions ts) = .ok (ts, none) := by
  have hls : ∀ l ∈ textLines ts, '\n' ∉ l := by
    cases ts with
    | nil => simp [textLines]
    | cons t ts =>
      intro l hl
      simp only [textLines, List.mem_append, List.mem_flatten, List.mem_map] at hl
      rcases hl with hl | ⟨ls, ⟨u, hu, rfl⟩, hl⟩
      · exact canonLines_no_lf t (hc t (List.mem_cons_self _ _)) (hw t (List.mem_cons_self _ _))
          l hl
      · rcases List.mem_cons.mp hl with rfl | hl
        · simp
        · exact canonLines_no_lf u (hc u (List.mem_cons_of_mem _ hu))
            (hw u (List.mem_cons_of_mem _ hu)) l hl
  have := Parse_joinLines (textLines ts) [] hls (by simp)
  rw [List.append_nil] at this
  rw [serialize_eq_lines, this]
  cases ts with
  | nil => rfl
  | cons t ts =>
    rw [textLines, run_canonLines t (hc t (List.mem_cons_self _ _))
      (hw t (List.mem_cons_self _ _))]
    obtain ⟨h1, h2⟩ := run_following ts [] t (0 + (canonLines t).length)
      (fun x hx => hc x (List.mem_cons_of_mem _ hx))
      (fun x hx => hw x (List.mem_cons_of_mem _ hx))
    rw [List.nil_append] at h1
    rw [← h1, ← h2]

/-- The round trip holds whenever every account is shorter than 999999
bytes: the transactions of a successful `Parse` come back, without error, from
their canonical text, so the canonical text is a fixed point. -/
theorem round_trip_of_narrow_accounts (s : Str) (ts : List Transaction)
    (h : Parse s = .ok (ts, none))
    (hw : ∀ t ∈ ts, ∀ q ∈ t.Postings, q.Account.length + 2 ≤ 1000000) :
    Parse (serializeTransactions ts) = .ok (ts, none) :=
  Parse_serialize_canon ts (Parse_canon h) hw

theorem round_trip_of_narrow_accounts_witness :
    Parse (serializeTransactions
        [{ Date := "2022/05/12".toList, Status := 42, Description := "Test".toList, Tags := [],
           Postings := [{ Account := "A".toList, Amount := "1 USD".toList },
                        { Account := "B".toList }] }])
      = .ok ([{ Date := "2022/05/12".toList, Status := 42, Description := "Test".toList,
                Tags := [],
                Postings := [{ Account := "A".toList, Amount := "1 USD".toList },
                             { Account := "B".toList }] }], none) :=
  round_trip_of_narrow_accounts "2022/05/12 * Test\n    A  1 USD\n    B\n".toList _
    (by decide) (by decide)

/-! ## Claims on the posting tokenizer -/

/-- C11: an account text `a` and an amount text `m`, joined by one tab or by a
run of two or more spaces, are tokenized into account `a` and amount `m`, with
no amount extra and no direct tag; the number of spaces plays no part. -/
theorem parsePosting_separator (a m : Str) (k : Nat)
    (ha : notIndented a = true ∧ NoSeparator a ∧ ∀ c, a.getLast? = some c → isSpace c = false)
    (hm : m ≠ [] ∧ beginsWithSpace m = false ∧ (∀ c, m.getLast? = some c → isSpace c = false)
      ∧ ∀ c ∈ m, c ≠ ';' ∧ c ≠ '@' ∧ c ≠ '=') :
    parsePosting (a ++ ['\t'] ++ m)
        = .ok { Account := a, Amount := m, AmountExtra := [], DirectTag := [], ExtraTags := [] }
      ∧ parsePosting (a ++ List.replicate (k + 2) ' ' ++ m)
        = .ok { Account := a, Amount := m, AmountExtra := [], DirectTag := [],
                ExtraTags := [] } := by
  obtain ⟨ha1, ha2, ha3⟩ := ha
  obtain ⟨_, hm2, hm3, hm4⟩ := hm
  have hane : a ≠ [] := by
    obtain ⟨c, r, rfl, _⟩ := notIndented_eq_true ha1
    simp
  have hlast : a.getLast? ≠ some ' ' := fun e => absurd (ha3 _ e) (by decide)
  have hfin : ∀ w : Str, (∀ c ∈ w, isSpace c = true) →
      finishPosting a (w ++ m)
        = { Account := a, Amount := m, AmountExtra := [], DirectTag := [], ExtraTags := [] } := by
    intro w hw
    have := finishPosting_canonical a w m [] [] hane hw hm4 hm2 hm3 (Or.inl rfl) (by simp)
      (by simp) (Or.inl rfl)
    simpa using this
  constructor
  · have h1 := parsePosting_tab a m ha2 ha1
    rw [trimSpaceRight_eq_self ha3] at h1
    have h2 := hfin [] (by simp)
    rw [List.nil_append] at h2
    rw [List.append_assoc, List.singleton_append, h1, h2]
  · have h1 := parsePosting_two_spaces a (List.replicate k ' ' ++ m) ha2 ha1 hlast
    have h2 := hfin (List.replicate k ' ') (fun c hc => by rw [List.eq_of_mem_replicate hc]; rfl)
    have h3 : a ++ List.replicate (k + 2) ' ' ++ m
        = a ++ ' ' :: ' ' :: (List.replicate k ' ' ++ m) := by
      simp [List.replicate_succ]
    rw [h3, h1, h2]

theorem parsePosting_separator_witness :
    parsePosting ("Assets:Cash".toList ++ ['\t'] ++ "50.00 EUR".toList)
        = .ok { Account := "Assets:Cash".toList, Amount := "50.00 EUR".toList,
                AmountExtra := [], DirectTag := [], ExtraTags := [] }
      ∧ parsePosting ("Assets:Cash".toList ++ List.replicate (3 + 2) ' ' ++ "50.00 EUR".toList)
        = .ok { Account := "Assets:Cash".toList, Amount := "50.00 EUR".toList,
                AmountExtra := [], DirectTag := [], ExtraTags := [] } :=
  parsePosting_separator "Assets:Cash".toList "50.00 EUR".toList 3 (by decide) (by decide)

/-- C13: a line that begins with a byte other than space and tab and has no
tab and no two consecutive spaces is all account: the account is the line
without its trailing spaces, and amount, amount extra and direct tag are
empty, whatever `;`, `@` or `=` the line holds. -/
theorem parsePosting_without_separator (l : Str)
    (hl : notIndented l = true ∧ NoSeparator l) :
    parsePosting l
        = .ok { Account := trimSpaceRight l, Amount := [], AmountExtra := [], DirectTag := [],
                ExtraTags := [] }
      ∧ trimSpaceRight l = l.rdropWhile (· == ' ') := by
  constructor
  · rw [parsePosting_no_separator l hl.2 hl.1]
    rfl
  · rw [trimSpaceRight_eq_rdropWhile]
    have hnt : '\t' ∉ l := hl.2.1
    have : ∀ s : Str, '\t' ∉ s → s.dropWhile isSpace = s.dropWhile (· == ' ') := by
      intro s
      induction s with
      | nil => intro _; rfl
      | cons c s ih =>
        intro hs
        have hc : c ≠ '\t' := fun e => hs (by simp [e])
        have hs' : '\t' ∉ s := fun hm => hs (List.mem_cons_of_mem _ hm)
        have hsp : isSpace c = (c == ' ') := by simp [isSpace, hc]
        simp only [List.dropWhile, hsp]
        cases c == ' '
        · rfl
        · exact ih hs'
    simp only [List.rdropWhile]
    rw [this l.reverse (by simpa using hnt)]

theorem parsePosting_without_separator_witness :
    parsePosting "Assets:Cash ;x @ 1 ".toList
        = .ok { Account := trimSpaceRight "Assets:Cash ;x @ 1 ".toList, Amount := [],
                AmountExtra := [], DirectTag := [], ExtraTags := [] }
      ∧ trimSpaceRight "Assets:Cash ;x @ 1 ".toList
          = "Assets:Cash ;x @ 1 ".toList.rdropWhile (· == ' ') :=
  parsePosting_without_separator "Assets:Cash ;x @ 1 ".toList (by decide)

/-- C18: on a non-empty line whose first byte is not a space, a tab or `;`,
`parsePosting` returns a posting with (1) a non-empty account that neither
begins nor ends with a space or tab and has no tab and no two consecutive
spaces, (2) an amount that neither begins nor ends with a space or tab and
has none of `;`, `@`, `=`, (3) an amount extra that is empty or begins with
`@` or `=`, does not end with a space or tab and has no `;`, and (4) a direct
tag that is empty or begins with `;`. -/
theorem parsePosting_shape (l : Str) (hl : notIndented l = true ∧ beginsWith ';' l = false) :
    ∃ q, parsePosting l = .ok q
      ∧ (q.Account ≠ [] ∧ beginsWithSpace q.Account = false
          ∧ (∀ c, q.Account.getLast? = some c → isSpace c = false)
          ∧ '\t' ∉ q.Account ∧ ¬ [' ', ' '] <:+: q.Account)
      ∧ (beginsWithSpace q.Amount = false
          ∧ (∀ c, q.Amount.getLast? = some c → isSpace c = false)
          ∧ ∀ c ∈ q.Amount, c ≠ ';' ∧ c ≠ '@' ∧ c ≠ '=')
      ∧ ((q.AmountExtra = [] ∨ beginsWith '@' q.AmountExtra = true
            ∨ beginsWith '=' q.AmountExtra = true)
          ∧ (∀ c, q.AmountExtra.getLast? = some c → isSpace c = false)
          ∧ ';' ∉ q.AmountExtra)
      ∧ (q.DirectTag = [] ∨ beginsWith ';' q.DirectTag = true) := by
  obtain ⟨q, h1, sh, _, _, _⟩ := parsePosting_spec l hl.1
  obtain ⟨c, m, hq, hc⟩ := notIndented_eq_true sh.account_start
  refine ⟨q, h1, ⟨by rw [hq]; simp, by rw [hq]; simpa [beginsWithSpace] using hc,
    sh.account_end, sh.account_nosep.1, sh.account_nosep.2⟩,
    ⟨sh.amount_start, sh.amount_end, sh.amount_chars⟩,
    ⟨sh.extra_start, sh.extra_end, sh.extra_chars⟩, sh.tag_start⟩

theorem parsePosting_shape_witness :
    ∃ q, parsePosting "Assets:Cash \t 10 EUR @ 2 USD  ; note ".toList = .ok q
      ∧ (q.Account ≠ [] ∧ beginsWithSpace q.Account = false
          ∧ (∀ c, q.Account.getLast? = some c → isSpace c = false)
          ∧ '\t' ∉ q.Account ∧ ¬ [' ', ' '] <:+: q.Account)
      ∧ (beginsWithSpace q.Amount = false
          ∧ (∀ c, q.Amount.getLast? = some c → isSpace c = false)
          ∧ ∀ c ∈ q.Amount, c ≠ ';' ∧ c ≠ '@' ∧ c ≠ '=')
      ∧ ((q.AmountExtra = [] ∨ beginsWith '@' q.AmountExtra = true
            ∨ beginsWith '=' q.AmountExtra = true)
          ∧ (∀ c, q.AmountExtra.getLast? = some c → isSpace c = false)
          ∧ ';' ∉ q.AmountExtra)
      ∧ (q.DirectTag = [] ∨ beginsWith ';' q.DirectTag = true) :=
  parsePosting_shape "Assets:Cash \t 10 EUR @ 2 USD  ; note ".toList (by decide)

/-! ## Termination and safety -/

theorem parseLoop_more_fuel (fuel k : Nat) : ∀ (st : StateFn) (p : Parser) (h : Heap)
    (r : Parser × Heap × Option ParseError), parseLoop fuel st p h = .ok r →
    parseLoop (fuel + k) st p h = .ok r := by
  induction fuel with
  | zero => intro st p h r hr; simp [parseLoop] at hr
  | succ f ih =>
    intro st p h r hr
    rw [show f + 1 + k = (f + k) + 1 by omega]
    unfold parseLoop at hr ⊢
    cases hs : st.run p.next h with
    | error e => rw [hs] at hr; cases hr
    | ok x =>
      obtain ⟨p', h', st', e'⟩ := x
      rw [hs] at hr
      cases e' with
      | some e => simpa using hr
      | none =>
        cases st' with
        | none => simpa using hr
        | some s =>
          simp only at hr ⊢
          exact ih s p' h' r hr

theorem next_shortens (p : Parser) :
    p.next.input.length < p.input.length ∨ p.next.eof = true := by
  unfold Parser.next
  cases hi : indexByte p.input '\n' with
  | none => right; dsimp only; split <;> rfl
  | some idx =>
    left
    obtain ⟨h1, _⟩ := indexByte_some hi
    have hlen : idx < p.input.length := by
      by_contra hlt
      rw [List.take_of_length_le (by omega)] at h1
      have := congrArg List.length h1
      simp at this
    have : (p.input.drop (idx + 1)).length < p.input.length := by
      rw [List.length_drop]; omega
    dsimp only
    split <;> exact this

theorem parseFile_returns (p : Parser) (h : Heap) : ∃ r, parseFile p h = .ok r := by
  unfold parseFile
  by_cases he : p.eof = true
  · exact ⟨_, by rw [if_pos he]⟩
  · rw [if_neg he]
    by_cases hb : isEmptyLine p.cur = true
    · exact ⟨_, by rw [if_pos hb]⟩
    · rw [if_neg hb]
      cases hc : p.cur with
      | nil => rw [hc] at hb; exact absurd rfl hb
      | cons c l =>
        dsimp only
        split <;> exact ⟨_, rfl⟩

/-- C19: `Parse` returns on every input, without a panic: no index or slice
out of range, no nil pointer followed, and the loop ends within one iteration
for each byte of the input and one more (more iterations change nothing),
from any state of a reused parser as well. Each call of `next` shortens the
input or reaches its end; `parseFile` looks at `p.cur[0]` only on non-empty
lines and never panics; `parsePosting` returns on every line that does not
begin with a space, and on a line that begins with a space its slice
`line[:i-1]` is out of range. -/
theorem Parse_total_and_safe (content : Str) :
    (∃ ts e, Parse content = .ok (ts, e))
      ∧ (∀ (p : Parser) (h : Heap), ∃ p' h' e ts, Parser.Parse p h content = .ok (p', h', e)
          ∧ h'.readTransactions p'.transactions = .ok ts
          ∧ ∀ fuel, content.length < fuel →
              parseLoop fuel .parseFile
                { p with input := content, lineno := 0, eof := false, transactions := [] } h
                = .ok (p', h', e))
      ∧ (∀ p : Parser, p.next.input.length < p.input.length ∨ p.next.eof = true)
      ∧ (∀ (p : Parser) (h : Heap), ∃ r, parseFile p h = .ok r)
      ∧ (∀ (c : Char) (l : Str), c ≠ ' ' → ∃ q, parsePosting (c :: l) = .ok q)
      ∧ (∀ l : Str, parsePosting (' ' :: l) = .error .outOfRange) := by
  refine ⟨⟨_, _, Parse_eq_assemble content⟩, ?_, next_shortens, parseFile_returns,
    fun c l hc => ⟨_, parsePosting_ok c l hc⟩, fun l => rfl⟩
  intro p h
  obtain ⟨p', h', h1, h2⟩ := Parser.Parse_from_any_state p h content
  refine ⟨p', h', _, _, h1, h2, ?_⟩
  intro fuel hf
  obtain ⟨k, rfl⟩ : ∃ k, fuel = content.length + 1 + k := ⟨fuel - (content.length + 1), by omega⟩
  exact parseLoop_more_fuel _ k _ _ _ _ h1

/-- C20: a second call of `Parse` on the same parser, which still holds the
`cur`, `tr` and `p` of the first call and works on the heap the first call
left, returns the transactions and the error that `Parse` on a new parser
returns for the same text. -/
theorem Parser_reuse (a b : Str) (p0 : Parser) (h0 : Heap) :
    ∃ p1 h1 e1, Parser.Parse p0 h0 a = .ok (p1, h1, e1)
      ∧ ∃ p2 h2 e2 ts2, Parser.Parse p1 h1 b = .ok (p2, h2, e2)
        ∧ h2.readTransactions p2.transactions = .ok ts2
        ∧ Parse b = .ok (ts2, e2) := by
  obtain ⟨p1, h1, g1, _⟩ := Parser.Parse_from_any_state p0 h0 a
  obtain ⟨p2, h2, g2, g3⟩ := Parser.Parse_from_any_state p1 h1 b
  exact ⟨p1, h1, _, g1, p2, h2, _, _, g2, g3, Parse_eq_assemble b⟩

/-! ## Comment split and annotation split -/

theorem trimSpaceLeft_append_of_not_space (xs ys : Str) (y : Char) (hy : isSpace y = false) :
    trimSpaceLeft (xs ++ y :: ys) = trimSpaceLeft xs ++ y :: ys := by
  simp only [trimSpaceLeft_eq_dropWhile]
  induction xs with
  | nil => simp [List.dropWhile, hy]
  | cons x xs ih =>
    cases hx : isSpace x
    · simp [List.dropWhile, hx]
    · simp [List.dropWhile, hx, ih]

theorem amountFields_of_split (q : Posting) (T : Str)
    (h : annotationSplit (trimSpaceRight (trimSpaceLeft T)) = (q.AmountExtra, q.Amount)) :
    AmountFieldsFrom q T := by
  constructor
  · intro u b v hP hb hu
    have hb' : beginsWith '@' (b :: v) = true ∨ beginsWith '=' (b :: v) = true := by
      rcases hb with rfl | rfl
      · exact Or.inl rfl
      · exact Or.inr rfl
    rw [hP, annotationSplit_append u (b :: v) hu hb'] at h
    simp only [Prod.mk.injEq] at h
    exact ⟨h.1.symm, h.2.symm⟩
  · intro hT
    have hP : ∀ c ∈ trimSpaceRight (trimSpaceLeft T), c ≠ '@' ∧ c ≠ '=' := fun c hc =>
      hT c ((trimSpaceLeft_suffix T).subset ((trimSpaceRight_initial _).subset hc))
    rw [annotationSplit_plain _ hP] at h
    simp only [Prod.mk.injEq] at h
    exact ⟨h.1.symm, h.2.symm⟩

theorem finishPosting_comment (acc r : Str) (hacc : acc ≠ []) :
    (';' ∉ r → (finishPosting acc r).DirectTag = [] ∧ AmountFieldsFrom (finishPosting acc r) r)
      ∧ ∀ pre post, r = pre ++ ';' :: post → ';' ∉ pre →
          (finishPosting acc r).DirectTag = ';' :: post
            ∧ AmountFieldsFrom (finishPosting acc r) pre
            ∧ (finishPosting acc pre).Amount = (finishPosting acc r).Amount
            ∧ (finishPosting acc pre).AmountExtra = (finishPosting acc r).AmountExtra
            ∧ (finishPosting acc pre).DirectTag = [] := by
  have plain : ∀ T : Str, ';' ∉ T →
      commentSplit (trimSpaceLeft T) = ([], trimSpaceRight (trimSpaceLeft T)) := by
    intro T hT
    have := commentSplit_append (trimSpaceLeft T) []
      (fun hm => hT ((trimSpaceLeft_suffix T).subset hm)) (Or.inl rfl)
    simpa using this
  constructor
  · intro hr
    rw [finishPosting_eq_splits acc r hacc, plain r hr]
    exact ⟨rfl, amountFields_of_split _ r rfl⟩
  · intro pre post hrp hpre
    have hcs : commentSplit (trimSpaceLeft r) = (';' :: post, trimSpaceRight (trimSpaceLeft pre)) := by
      rw [hrp, trimSpaceLeft_append_of_not_space pre post ';' (by decide)]
      exact commentSplit_append (trimSpaceLeft pre) (';' :: post)
        (fun hm => hpre ((trimSpaceLeft_suffix pre).subset hm)) (Or.inr rfl)
    rw [finishPosting_eq_splits acc r hacc, finishPosting_eq_splits acc pre hacc, hcs,
      plain pre hpre]
    exact ⟨rfl, amountFields_of_split _ pre rfl, rfl, rfl, rfl⟩

/-- C12: the comment split comes before the annotation split. On a non-empty
line whose first byte is not a space, a tab or `;`, with `r` the text after the
account separator (the first tab, or the first two consecutive spaces): if `r`
holds a `;`, the direct tag is the text from the first `;` to the end of the
line, untrimmed, and amount and amount extra are those of the text before that
`;` alone, the same as for the line cut before the `;`; if `r` holds no `;`,
the direct tag is empty. The amount extra starts at the first `@` or `=` of
the comment-stripped text and runs to its right-trimmed end; an `@` or `=` in
the comment gives none. The amount has none of `;`, `@`, `=`. -/
theorem parsePosting_comment_split (l : Str)
    (hl : notIndented l = true ∧ beginsWith ';' l = false) :
    ∃ q, parsePosting l = .ok q
      ∧ (∀ c ∈ q.Amount, c ≠ ';' ∧ c ≠ '@' ∧ c ≠ '=')
      ∧ ∀ a sep r, l = a ++ sep ++ r → NoSeparator a →
          (sep = ['\t'] ∨ (sep = [' ', ' '] ∧ a.getLast? ≠ some ' ')) →
          (';' ∉ r → q.DirectTag = [] ∧ AmountFieldsFrom q r)
            ∧ ∀ pre post, r = pre ++ ';' :: post → ';' ∉ pre →
                q.DirectTag = ';' :: post ∧ AmountFieldsFrom q pre
                  ∧ ∃ q', parsePosting (a ++ sep ++ pre) = .ok q' ∧ q'.Amount = q.Amount
                      ∧ q'.AmountExtra = q.AmountExtra ∧ q'.DirectTag = [] := by
  obtain ⟨q, hq, sh, _, _, _⟩ := parsePosting_spec l hl.1
  refine ⟨q, hq, sh.amount_chars, ?_⟩
  intro a sep r hlr ha hsep
  obtain ⟨c0, m0, hl0, hc0⟩ := notIndented_eq_true hl.1
  have hane : a ≠ [] := by
    intro e
    subst e
    rcases hsep with rfl | ⟨rfl, _⟩
    · rw [hlr] at hl0
      simp only [List.nil_append, List.cons_append, List.cons.injEq] at hl0
      rw [← hl0.1] at hc0; exact absurd hc0 (by decide)
    · rw [hlr] at hl0
      simp only [List.nil_append, List.cons_append, List.cons.injEq] at hl0
      rw [← hl0.1] at hc0; exact absurd hc0 (by decide)
  have hani : notIndented a = true :=
    notIndented_of_initial (by rw [hlr, List.append_assoc]; exact List.prefix_append _ _) hane hl.1
  -- the account the loop leaves, and the parse of any line with this account and separator
  obtain ⟨acc, hacc, hparse⟩ : ∃ acc : Str, acc ≠ [] ∧
      ∀ x : Str, parsePosting (a ++ sep ++ x) = .ok (finishPosting acc x) := by
    rcases hsep with rfl | ⟨rfl, hlast⟩
    · refine ⟨trimSpaceRight a, trimSpaceRight_ne_nil hani, fun x => ?_⟩
      rw [List.append_assoc, List.singleton_append]
      exact parsePosting_tab a x ha hani
    · refine ⟨a, hane, fun x => ?_⟩
      rw [List.append_assoc]
      exact parsePosting_two_spaces a x ha hani hlast
  have hqr : q = finishPosting acc r := by
    have := hparse r
    rw [← hlr, hq] at this
    exact Except.ok.inj this
  obtain ⟨f1, f2⟩ := finishPosting_comment acc r hacc
  rw [hqr]
  refine ⟨f1, ?_⟩
  intro pre post hrp hpre
  obtain ⟨g1, g2, g3, g4, g5⟩ := f2 pre post hrp hpre
  exact ⟨g1, g2, _, hparse pre, g3, g4, g5⟩

theorem parsePosting_comment_split_witness :
    ∃ q, parsePosting "Assets:Cash  50.00 EUR @ 2 ; a @ b = c ".toList = .ok q
      ∧ (∀ c ∈ q.Amount, c ≠ ';' ∧ c ≠ '@' ∧ c ≠ '=')
      ∧ ∀ a sep r, "Assets:Cash  50.00 EUR @ 2 ; a @ b = c ".toList = a ++ sep ++ r →
          NoSeparator a →
          (sep = ['\t'] ∨ (sep = [' ', ' '] ∧ a.getLast? ≠ some ' ')) →
          (';' ∉ r → q.DirectTag = [] ∧ AmountFieldsFrom q r)
            ∧ ∀ pre post, r = pre ++ ';' :: post → ';' ∉ pre →
                q.DirectTag = ';' :: post ∧ AmountFieldsFrom q pre
                  ∧ ∃ q', parsePosting (a ++ sep ++ pre) = .ok q' ∧ q'.Amount = q.Amount
                      ∧ q'.AmountExtra = q.AmountExtra ∧ q'.DirectTag = [] :=
  parsePosting_comment_split "Assets:Cash  50.00 EUR @ 2 ; a @ b = c ".toList (by decide)

/-! ## The width of the account field -/

theorem accountWidth_ge (p : Posting) : (p.Account.length : Int) + 2 ≤ accountWidth p := by
  unfold accountWidth
  split <;> omega

theorem accountWidth_eq_spec (p : Posting) : accountWidth p = specFieldWidth p := by
  unfold accountWidth specFieldWidth
  split <;> omega

theorem writePosting_accountWidth (p : Posting) (hne : p.Amount ≠ [] ∨ p.AmountExtra ≠ []) :
    writePosting p
      = "    ".toList ++ fmtWidthS (-(accountWidth p)) p.Account ++ p.Amount ++ amountSuffix p
          ++ ['\n'] ++ extraTagLines p := by
  have h : (p.Amount != [] || p.AmountExtra != []) = true := by
    rcases hne with h | h
    · simp [h]
    · simp [h]
  simp only [writePosting, h, if_true, accountWidth, amountSuffix, extraTagLines]

theorem runeSize_ascii (c : Char) (rest : Str) (hc : c.toNat < 128) :
    runeSize (c :: rest) = 1 := by
  simp [runeSize, hc]

theorem runeCountFuel_ascii (fuel : Nat) : ∀ s : Str, (∀ c ∈ s, c.toNat < 128) →
    s.length ≤ fuel → runeCountFuel fuel s = s.length := by
  induction fuel with
  | zero =>
    intro s _ hl
    have : s = [] := List.length_eq_zero.mp (by omega)
    subst this; rfl
  | succ f ih =>
    intro s hs hl
    cases s with
    | nil => rfl
    | cons c rest =>
      have hc := hs c (List.mem_cons_self _ _)
      simp only [runeCountFuel, runeSize_ascii c rest hc, List.drop_succ_cons, List.drop_zero,
        List.length_cons]
      rw [ih rest (fun d hd => hs d (List.mem_cons_of_mem _ hd))
        (by simp only [List.length_cons] at hl; omega)]
      omega

theorem runeCount_ascii (s : Str) (hs : ∀ c ∈ s, c.toNat < 128) : runeCount s = s.length :=
  runeCountFuel_ascii _ s hs (Nat.le_refl _)

theorem fmtWidthS_ascii (acc : Str) (w : Int) (hs : ∀ c ∈ acc, c.toNat < 128)
    (h1 : (acc.length : Int) + 2 ≤ w) (h2 : w ≤ 1000000) :
    fmtWidthS (-w) acc = acc ++ List.replicate (w.toNat - acc.length) ' ' := by
  have hc1 : (-w > 1000000 || -w < -1000000) = false := by
    simp only [Bool.or_eq_false_iff, decide_eq_false_iff_not]
    constructor <;> omega
  have hc2 : ((-w).natAbs == 0) = false := by
    simp only [beq_eq_false_iff_ne, ne_eq]; omega
  have hc3 : decide (-w < 0) = true := by
    simp only [decide_eq_true_eq]; omega
  have hk : (-w).natAbs = w.toNat := by omega
  simp only [fmtWidthS, hc1, Bool.false_eq_true, if_false, hc2, hc3, if_true,
    runeCount_ascii acc hs]
  rw [hk]

/-- The alignment of the amount for an account of ASCII characters short
enough for `fmt` to accept the width: the posting line is that of the
specification, and when `length(account) + 2 ≤ 48 - length(amount)` the amount
ends at column 52. -/
theorem writePosting_aligned (p : Posting) (hne : p.Amount ≠ [] ∨ p.AmountExtra ≠ [])
    (hascii : ∀ c ∈ p.Account, c.toNat < 128) (hw : p.Account.length + 2 ≤ 1000000) :
    writePosting p = specPostingLine p ++ extraTagLines p
      ∧ ((p.Account.length : Int) + 2 ≤ 48 - (p.Amount.length : Int) →
          ("    ".toList
            ++ (p.Account ++ List.replicate ((specFieldWidth p).toNat - p.Account.length) ' ')
            ++ p.Amount).length = 52) := by
  have hle : accountWidth p ≤ 1000000 := by
    unfold accountWidth
    split <;> omega
  constructor
  · rw [writePosting_accountWidth p hne,
      fmtWidthS_ascii p.Account (accountWidth p) hascii (accountWidth_ge p) hle,
      accountWidth_eq_spec]
    unfold specPostingLine amountSuffix
    by_cases h1 : p.AmountExtra = [] <;> by_cases h2 : p.DirectTag = [] <;> simp [h1, h2]
  · intro h
    have : specFieldWidth p = 48 - (p.Amount.length : Int) := by
      unfold specFieldWidth; omega
    simp only [List.length_append, List.length_replicate, this]
    have : ("    ".toList).length = 4 := rfl
    omega

theorem writePosting_column_example :
    writePosting { Account := "Assets:Cash".toList, Amount := "50.00 EUR".toList }
        = "    Assets:Cash                            50.00 EUR\n".toList := by
  decide

theorem specPostingLine_wide (a m : Str) (hlen : 46 ≤ a.length) :
    specFieldWidth { Account := a, Amount := m } = (a.length : Int) + 2
      ∧ specPostingLine { Account := a, Amount := m }
          = "    ".toList ++ a ++ "  ".toList ++ m ++ ['\n'] := by
  have h1 : specFieldWidth { Account := a, Amount := m } = (a.length : Int) + 2 := by
    simp only [specFieldWidth]; omega
  refine ⟨h1, ?_⟩
  have h2 : ((a.length : Int) + 2).toNat - a.length = 2 := by omega
  simp only [specPostingLine, h1, h2]
  simp

theorem writePosting_wide_ne_spec (a m : Str) (hm : m ≠ []) (ha : ∀ c ∈ a, c = 'a')
    (hlen : 999999 ≤ a.length) :
    writePosting { Account := a, Amount := m } ≠ specPostingLine { Account := a, Amount := m } := by
  rw [writePosting_wide a m hm hlen, (specPostingLine_wide a m (by omega)).2]
  cases a with
  | nil => simp at hlen
  | cons c r =>
    have hc : c = 'a' := ha c (List.mem_cons_self _ _)
    subst hc
    intro h
    have := congrArg (fun s : Str => s[4]?) h
    revert this
    simp

theorem writePosting_wide_no_gap (a m : Str) (hm : m ≠ []) (hlen : 999999 ≤ a.length)
    (ha : ' ' ∉ a) (hms : ' ' ∉ m) :
    ¬ ∃ x y, writePosting { Account := a, Amount := m } = x ++ a ++ ' ' :: y := by
  rintro ⟨x, y, h⟩
  rw [writePosting_wide a m hm hlen] at h
  have hd := congrArg (List.drop 4) h
  have hx : 4 ≤ (x ++ a).length := by simp only [List.length_append]; omega
  rw [List.drop_append_of_le_length hx] at hd
  have hmem : ' ' ∈ List.drop 4 (x ++ a) ++ ' ' :: y := by simp
  rw [← hd] at hmem
  have e : List.drop 4 ("    ".toList ++ ("%!(BADWIDTH)".toList ++ a) ++ m ++ ['\n'])
      = "%!(BADWIDTH)".toList ++ a ++ m ++ ['\n'] := by
    simp
  rw [e] at hmem
  simp only [List.mem_append, List.mem_singleton] at hmem
  rcases hmem with ((hmem | hmem) | hmem) | hmem
  · revert hmem; decide
  · exact ha hmem
  · exact hms hmem
  · revert hmem; decide

theorem alignment_wide (a : Str) (ha : ∀ c ∈ a, c = 'a') (hlen : a.length = 999999) :
    a.all (fun c => decide (c.toNat < 128)) = true
      ∧ specFieldWidth { Account := a, Amount := "1".toList } = 1000001
      ∧ specPostingLine { Account := a, Amount := "1".toList }
          = "    ".toList ++ a ++ "  1\n".toList
      ∧ writePosting { Account := a, Amount := "1".toList }
          = "    %!(BADWIDTH)".toList ++ a ++ "1\n".toList
      ∧ writePosting { Account := a, Amount := "1".toList }
          ≠ specPostingLine { Account := a, Amount := "1".toList } := by
  obtain ⟨s1, s2⟩ := specPostingLine_wide a "1".toList (by omega)
  refine ⟨?_, ?_, ?_, ?_, ?_⟩
  · rw [List.all_eq_true]
    intro c hc
    rw [ha c hc]; decide
  · rw [s1, hlen]; rfl
  · rw [s2]; simp
  · rw [writePosting_wide _ _ (by decide) (by omega)]; simp
  · exact writePosting_wide_ne_spec _ _ (by decide) ha (by omega)

theorem gap_wide (a : Str) (ha : ∀ c ∈ a, c = 'a') (hlen : a.length = 999999) :
    accountWidth { Account := a, Amount := "1".toList } = (a.length : Int) + 2
      ∧ accountWidth { Account := a, Amount := "1".toList } = 1000001
      ∧ writePosting { Account := a, Amount := "1".toList }
          = "    ".toList
            ++ fmtWidthS (-(accountWidth { Account := a, Amount := "1".toList })) a
            ++ "1\n".toList
      ∧ fmtWidthS (-1000001) a = "%!(BADWIDTH)".toList ++ a
      ∧ ¬ ∃ x y, writePosting { Account := a, Amount := "1".toList } = x ++ a ++ ' ' :: y := by
  have hw : accountWidth { Account := a, Amount := "1".toList } = (a.length : Int) + 2 := by
    simp only [accountWidth, hlen]
    rfl
  have hw2 : accountWidth { Account := a, Amount := "1".toList } = 1000001 := by
    rw [hw, hlen]; rfl
  refine ⟨hw, hw2, ?_, ?_, ?_⟩
  · rw [writePosting_accountWidth _ (Or.inl (by simp))]
    simp [amountSuffix, extraTagLines]
  · simp [fmtWidthS]
  · exact writePosting_wide_no_gap _ _ (by decide) (by omega)
      (fun hm => absurd (ha _ hm) (by decide)) (by decide)

/-- C14: the amount alignment fails for a wide account. The posting with
the ASCII account `aa..a` of 999999 bytes and the amount `1` has the field
width 1000001, so the specification's line is four spaces, the account, two
spaces, the amount; `Transaction.write` passes the width to `fmt`, which
refuses a width beyond one million and writes `%!(BADWIDTH)`, then the account
without any padding, so the line written is another one. -/
theorem posting_alignment_wide_account :
    (List.replicate 999999 'a').all (fun c => decide (c.toNat < 128)) = true
      ∧ specFieldWidth { Account := List.replicate 999999 'a', Amount := "1".toList } = 1000001
      ∧ specPostingLine { Account := List.replicate 999999 'a', Amount := "1".toList }
          = "    ".toList ++ List.replicate 999999 'a' ++ "  1\n".toList
      ∧ writePosting { Account := List.replicate 999999 'a', Amount := "1".toList }
          = "    %!(BADWIDTH)".toList ++ List.replicate 999999 'a' ++ "1\n".toList
      ∧ writePosting { Account := List.replicate 999999 'a', Amount := "1".toList }
          ≠ specPostingLine { Account := List.replicate 999999 'a', Amount := "1".toList } :=
  alignment_wide (List.replicate 999999 'a') (fun _ hc => List.eq_of_mem_replicate hc)
    (List.length_replicate _ _)

/-- C15: the gap of two spaces is lost for a wide account. For the posting
with the account `aa..a` of 999999 bytes and the amount `1` the computed
`accountWidth` is 1000001, which is `len(account) + 2`; `fmt` refuses this
width, and the line written is four spaces, `%!(BADWIDTH)`, the account and
the amount right after it: no space follows the account anywhere in the
line. -/
theorem minimum_gap_wide_account :
    accountWidth { Account := List.replicate 999999 'a', Amount := "1".toList }
        = ((List.replicate 999999 'a').length : Int) + 2
      ∧ accountWidth { Account := List.replicate 999999 'a', Amount := "1".toList } = 1000001
      ∧ writePosting { Account := List.replicate 999999 'a', Amount := "1".toList }
          = "    ".toList
            ++ fmtWidthS
                (-(accountWidth { Account := List.replicate 999999 'a', Amount := "1".toList }))
                (List.replicate 999999 'a')
            ++ "1\n".toList
      ∧ fmtWidthS (-1000001) (List.replicate 999999 'a')
          = "%!(BADWIDTH)".toList ++ List.replicate 999999 'a'
      ∧ ¬ ∃ x y, writePosting { Account := List.replicate 999999 'a', Amount := "1".toList }
            = x ++ List.replicate 999999 'a' ++ ' ' :: y :=
  gap_wide (List.replicate 999999 'a') (fun _ hc => List.eq_of_mem_replicate hc)
    (List.length_replicate _ _)

/-! ## The lines of the rendered text -/

theorem fmtWidthS_chars (w : Int) (s : Str) :
    ∀ c ∈ fmtWidthS w s, c ∈ s ∨ c = ' ' ∨ c ∈ "%!(BADWIDTH)".toList := by
  intro c hc
  unfold fmtWidthS at hc
  split at hc
  · rcases List.mem_append.mp hc with h | h
    · exact Or.inr (Or.inr h)
    · exact Or.inl h
  · simp only at hc
    split at hc
    · exact Or.inl hc
    · split at hc
      · rcases List.mem_append.mp hc with h | h
        · exact Or.inl h
        · exact Or.inr (Or.inl (List.eq_of_mem_replicate h))
      · rcases List.mem_append.mp hc with h | h
        · exact Or.inr (Or.inl (List.eq_of_mem_replicate h))
        · exact Or.inl h

theorem postingText_no_lf (q : Posting) (hq : CanonPosting q) : '\n' ∉ postingText q := by
  obtain ⟨h1, h2, h3, h4⟩ := hq.no_lf
  have hw : ∀ w : Int, '\n' ∉ fmtWidthS w q.Account := by
    intro w hm
    rcases fmtWidthS_chars w q.Account _ hm with h | h | h
    · exact h1 h
    · exact absurd h (by decide)
    · revert h; decide
  have hsp : '\n' ∉ " ".toList := by decide
  have hsp2 : '\n' ∉ "  ".toList := by decide
  unfold postingText
  by_cases hc : (q.Amount != [] || q.AmountExtra != []) = true
  · simp only [hc, if_true]
    by_cases he : (q.AmountExtra != []) = true <;> by_cases hd : (q.DirectTag != []) = true <;>
      simp only [he, hd, if_true, Bool.false_eq_true, if_false, List.mem_append, not_or,
        List.not_mem_nil, not_false_eq_true, and_true] <;>
      simp only [hw, h2, h3, h4, hsp, hsp2, not_false_eq_true, and_self]
  · simp only [hc, Bool.false_eq_true, if_false]
    by_cases hd : (q.DirectTag != []) = true <;>
      simp only [hd, if_true, Bool.false_eq_true, if_false, List.mem_append, not_or,
        List.not_mem_nil, not_false_eq_true, and_true] <;>
      simp only [h1, h4, hsp2, not_false_eq_true, and_self]

theorem canonLines_lines (t : Transaction) (ht : CanonTransaction t) :
    ∀ l ∈ canonLines t, l ≠ [] ∧ '\n' ∉ l := by
  intro l hl
  simp only [canonLines, List.mem_cons, List.mem_append, List.mem_flatten, List.mem_map] at hl
  rcases hl with rfl | hl | ⟨ls, ⟨q, hq, rfl⟩, hl⟩
  · obtain ⟨h1, h2⟩ := headerLine_facts t ht
    refine ⟨?_, h2⟩
    intro e; rw [e] at h1; cases h1
  · obtain ⟨_, h2, h3⟩ := (tagLines_facts t.Tags ht.tags).1 l (List.mem_map.mpr hl)
    refine ⟨?_, h3⟩
    intro e; rw [e] at h2; cases h2
  · simp only [postingLines, List.mem_cons, List.mem_map] at hl
    have hcq := ht.postings q hq
    rcases hl with rfl | hl
    · refine ⟨by simp, ?_⟩
      intro hm
      rcases List.mem_append.mp hm with hm | hm
      · revert hm; decide
      · exact postingText_no_lf q hcq hm
    · obtain ⟨_, h2, h3⟩ := (tagLines_facts q.ExtraTags hcq.extra_tags).1 l
        (List.mem_map.mpr hl)
      refine ⟨?_, h3⟩
      intro e; rw [e] at h2; cases h2

theorem terminatedLines_joinLines_self (ls : List Str) (hls : ∀ l ∈ ls, '\n' ∉ l) :
    terminatedLines (joinLines ls) = ls ∧ unterminatedRest (joinLines ls) = [] := by
  have h1 : terminatedLines (joinLines ls) = ls := by
    have := terminatedLines_joinLines ls [] hls
    simpa [terminatedLines] using this
  refine ⟨h1, ?_⟩
  have h2 := lines_decompose (joinLines ls)
  rw [h1] at h2
  exact List.self_eq_append_right.mp h2

theorem textLines_eq_intercalate (t : Transaction) (ts : List Transaction) :
    textLines (t :: ts) = List.intercalate [[]] ((t :: ts).map canonLines) := by
  induction ts generalizing t with
  | nil => simp [textLines, List.intercalate, List.intersperse]
  | cons u us ih =>
    have := ih u
    simp only [textLines, List.map_cons, List.intercalate, List.intersperse,
      List.flatten_cons] at this ⊢
    rw [← this]
    simp

theorem textLines_no_lf (ts : List Transaction) (hc : ∀ t ∈ ts, CanonTransaction t) :
    ∀ l ∈ textLines ts, '\n' ∉ l := by
  cases ts with
  | nil => simp [textLines]
  | cons t ts =>
    intro l hl
    simp only [textLines, List.mem_append, List.mem_flatten, List.mem_map] at hl
    rcases hl with hl | ⟨ls, ⟨u, hu, rfl⟩, hl⟩
    · exact (canonLines_lines t (hc t (List.mem_cons_self _ _)) l hl).2
    · rcases List.mem_cons.mp hl with rfl | hl
      · simp
      · exact (canonLines_lines u (hc u (List.mem_cons_of_mem _ hu)) l hl).2

theorem count_nil_following (ts : List Transaction) (hc : ∀ t ∈ ts, CanonTransaction t) :
    ((ts.map (fun u => [] :: canonLines u)).flatten).count ([] : Str) = ts.length := by
  induction ts with
  | nil => rfl
  | cons u us ih =>
    have h1 : (canonLines u).count ([] : Str) = 0 :=
      List.count_eq_zero.mpr
        (fun hm => (canonLines_lines u (hc u (List.mem_cons_self _ _)) [] hm).1 rfl)
    simp only [List.map_cons, List.flatten_cons, List.cons_append, List.count_cons_self,
      List.count_append, h1, ih (fun t ht => hc t (List.mem_cons_of_mem _ ht)),
      List.length_cons]
    omega

theorem textLines_last (ts : List Transaction) (hne : ts ≠ []) :
    ∃ init t l, textLines ts = init ++ [l] ∧ t ∈ ts ∧ l ∈ canonLines t := by
  have key : ∀ (pre : List Str) (u : Transaction),
      ∃ init l, pre ++ canonLines u = init ++ [l] ∧ l ∈ canonLines u := by
    intro pre u
    have hn : canonLines u ≠ [] := by simp [canonLines]
    refine ⟨pre ++ (canonLines u).dropLast, (canonLines u).getLast hn, ?_, List.getLast_mem hn⟩
    rw [List.append_assoc, List.dropLast_append_getLast]
  cases ts with
  | nil => exact absurd rfl hne
  | cons t ts =>
    rcases List.eq_nil_or_concat ts with rfl | ⟨us, u, rfl⟩
    · obtain ⟨init, l, h1, h2⟩ := key [] t
      exact ⟨init, t, l, by simpa [textLines] using h1, List.mem_cons_self _ _, h2⟩
    · obtain ⟨init, l, h1, h2⟩ :=
        key (canonLines t ++ (us.map (fun u => [] :: canonLines u)).flatten ++ [[]]) u
      refine ⟨init, u, l, ?_, by simp, h2⟩
      rw [← h1]
      simp [textLines]

/-- C16: the blank lines of the rendering of several transactions. For a
non-empty list `ts` of transactions that `Parse` returns: every rendered transaction
is a text of line-feed-terminated lines, none of them empty, the first its
header line; the rendering of the sequence is the lines of the transactions
in order with one empty line between two consecutive ones, so it has
`n - 1` empty lines, each right before the header line of one of the
transactions 2..n; it does not begin with a line feed, and it ends with a line
feed that follows another byte. -/
theorem serialize_blank_lines (s : Str) (ts : List Transaction) (e : Option ParseError)
    (h : Parse s = .ok (ts, e)) (hne : ts ≠ []) :
    (∀ t ∈ ts, unterminatedRest t.String = [] ∧ [] ∉ terminatedLines t.String
        ∧ (terminatedLines t.String).head? = some (headerLine t))
      ∧ unterminatedRest (serializeTransactions ts) = []
      ∧ terminatedLines (serializeTransactions ts)
          = List.intercalate [[]] (ts.map (fun t => terminatedLines t.String))
      ∧ (terminatedLines (serializeTransactions ts)).count [] = ts.length - 1
      ∧ (serializeTransactions ts).head? ≠ some '\n'
      ∧ ∃ x c, serializeTransactions ts = x ++ [c, '\n'] ∧ c ≠ '\n' := by
  have hc := Parse_canon h
  have hT : ∀ t ∈ ts, terminatedLines t.String = canonLines t ∧ unterminatedRest t.String = [] := by
    intro t ht
    rw [Transaction.String, write_eq_lines]
    exact terminatedLines_joinLines_self _ (fun l hl => (canonLines_lines t (hc t ht) l hl).2)
  obtain ⟨hS1, hS2⟩ := terminatedLines_joinLines_self (textLines ts) (textLines_no_lf ts hc)
  rw [← serialize_eq_lines] at hS1 hS2
  obtain ⟨t, us, rfl⟩ := List.exists_cons_of_ne_nil hne
  have hct := hc t (List.mem_cons_self _ _)
  refine ⟨?_, hS2, ?_, ?_, ?_, ?_⟩
  · intro u hu
    obtain ⟨h1, h2⟩ := hT u hu
    refine ⟨h2, ?_, ?_⟩
    · rw [h1]
      exact fun hm => (canonLines_lines u (hc u hu) [] hm).1 rfl
    · rw [h1]; rfl
  · rw [hS1, textLines_eq_intercalate]
    congr 1
    exact List.map_congr_left (fun u hu => (hT u hu).1.symm)
  · rw [hS1, textLines, List.count_append,
      count_nil_following us (fun u hu => hc u (List.mem_cons_of_mem _ hu))]
    have h1 : (canonLines t).count ([] : Str) = 0 :=
      List.count_eq_zero.mpr (fun hm => (canonLines_lines t hct [] hm).1 rfl)
    simp only [h1, List.length_cons]
    omega
  · obtain ⟨hn, hlf⟩ := headerLine_facts t hct
    obtain ⟨c, m, hd, _⟩ := notIndented_eq_true hn
    have hcne : c ≠ '\n' := by
      intro e'; apply hlf; rw [hd, e']; exact List.mem_cons_self _ _
    rw [serialize_eq_lines, textLines, canonLines, List.cons_append, joinLines_cons, hd]
    simpa using hcne
  · obtain ⟨init, u, l, h1, hu, hl⟩ := textLines_last (t :: us) hne
    obtain ⟨hl1, hl2⟩ := canonLines_lines u (hc u hu) l hl
    refine ⟨joinLines init ++ l.dropLast, l.getLast hl1, ?_, ?_⟩
    · rw [serialize_eq_lines, h1, joinLines_append, joinLines_cons]
      conv_lhs => rw [← List.dropLast_append_getLast hl1]
      simp [joinLines]
    · intro e'
      exact hl2 (e' ▸ List.getLast_mem hl1)

theorem serialize_blank_lines_witness :
    (∀ t ∈ [(⟨"d1".toList, 0, [], ["; t".toList], [⟨"a".toList, "1".toList, [], [], []⟩]⟩ : Transaction),
          (⟨"d2".toList, 42, "x".toList, [], [⟨"b".toList, [], [], [], []⟩]⟩ : Transaction)],
        unterminatedRest (Transaction.String t) = [] ∧ [] ∉ terminatedLines (Transaction.String t)
          ∧ (terminatedLines (Transaction.String t)).head? = some (headerLine t))
      ∧ unterminatedRest (serializeTransactions
          [(⟨"d1".toList, 0, [], ["; t".toList], [⟨"a".toList, "1".toList, [], [], []⟩]⟩ : Transaction),
          (⟨"d2".toList, 42, "x".toList, [], [⟨"b".toList, [], [], [], []⟩]⟩ : Transaction)]) = []
      ∧ terminatedLines (serializeTransactions
          [(⟨"d1".toList, 0, [], ["; t".toList], [⟨"a".toList, "1".toList, [], [], []⟩]⟩ : Transaction),
          (⟨"d2".toList, 42, "x".toList, [], [⟨"b".toList, [], [], [], []⟩]⟩ : Transaction)])
          = List.intercalate [[]] (List.map (fun t => terminatedLines (Transaction.String t))
          [(⟨"d1".toList, 0, [], ["; t".toList], [⟨"a".toList, "1".toList, [], [], []⟩]⟩ : Transaction),
          (⟨"d2".toList, 42, "x".toList, [], [⟨"b".toList, [], [], [], []⟩]⟩ : Transaction)])
      ∧ (terminatedLines (serializeTransactions
          [(⟨"d1".toList, 0, [], ["; t".toList], [⟨"a".toList, "1".toList, [], [], []⟩]⟩ : Transaction),
          (⟨"d2".toList, 42, "x".toList, [], [⟨"b".toList, [], [], [], []⟩]⟩ : Transaction)])).count []
          = List.length
          [(⟨"d1".toList, 0, [], ["; t".toList], [⟨"a".toList, "1".toList, [], [], []⟩]⟩ : Transaction),
          (⟨"d2".toList, 42, "x".toList, [], [⟨"b".toList, [], [], [], []⟩]⟩ : Transaction)] - 1
      ∧ (serializeTransactions
          [(⟨"d1".toList, 0, [], ["; t".toList], [⟨"a".toList, "1".toList, [], [], []⟩]⟩ : Transaction),
          (⟨"d2".toList, 42, "x".toList, [], [⟨"b".toList, [], [], [], []⟩]⟩ : Transaction)]).head? ≠ some '\n'
      ∧ ∃ x c, serializeTransactions
          [(⟨"d1".toList, 0, [], ["; t".toList], [⟨"a".toList, "1".toList, [], [], []⟩]⟩ : Transaction),
          (⟨"d2".toList, 42, "x".toList, [], [⟨"b".toList, [], [], [], []⟩]⟩ : Transaction)] = x ++ [c, '\n'] ∧ c ≠ '\n' :=
  serialize_blank_lines "d1\n ; t\n a  1\nd2 * x\n b\n".toList
    [(⟨"d1".toList, 0, [], ["; t".toList], [⟨"a".toList, "1".toList, [], [], []⟩]⟩ : Transaction),
          (⟨"d2".toList, 42, "x".toList, [], [⟨"b".toList, [], [], [], []⟩]⟩ : Transaction)] none (by decide) (by decide)

/-! ## Concatenation at a header boundary -/

theorem step_offset (pre cl : List Transaction) (cur : Option Transaction) (l : Str) :
    (Asm.mk (pre ++ cl) cur).step l
      = ((Asm.mk cl cur).step l).map (fun σ => Asm.mk (pre ++ σ.closed) σ.current) := by
  have hf : ∀ c : List Transaction,
      fileStep (pre ++ c) l = (fileStep c l).map (fun σ => Asm.mk (pre ++ σ.closed) σ.current) := by
    intro c
    unfold fileStep
    split
    · rfl
    · split
      · rfl
      · split <;> rfl
  cases cur with
  | none => simp only [Asm.step]; exact hf cl
  | some t =>
    simp only [Asm.step]
    split
    · rw [List.append_assoc]; exact hf (cl ++ [t])
    · split
      · simp
      · split <;> simp

theorem run_offset (ls : List Str) : ∀ (pre cl : List Transaction) (cur : Option Transaction)
    (n k : Nat),
    Asm.run (Asm.mk (pre ++ cl) cur) (k + n) ls
      = (pre ++ (Asm.run (Asm.mk cl cur) n ls).1,
         (Asm.run (Asm.mk cl cur) n ls).2.map (fun e => syntaxError (e.lineno + k))) := by
  induction ls with
  | nil => intro pre cl cur n k; simp [Asm.run, Asm.out]
  | cons l ls ih =>
    intro pre cl cur n k
    have hs := step_offset pre cl cur l
    cases h : (Asm.mk cl cur).step l with
    | none =>
      rw [h] at hs
      rw [run_cons_none _ _ h, run_cons_none _ _ hs]
      simp only [Asm.out, List.append_assoc, Option.map_some', syntaxError, Prod.mk.injEq,
        true_and, Option.some.injEq, ParseError.mk.injEq]
      omega
    | some σ' =>
      rw [h] at hs
      rw [run_cons_some _ _ h, run_cons_some _ _ hs]
      exact ih pre σ'.closed σ'.current (n + 1) k

theorem run_at_header (ls : List Str) : ∀ (σ : Asm) (n k : Nat), startsAtHeader ls = true →
    Asm.run σ (k + n) ls
      = (σ.out ++ (Asm.run {} n ls).1,
         (Asm.run {} n ls).2.map (fun e => syntaxError (e.lineno + k))) := by
  induction ls with
  | nil => intro σ n k _; simp [Asm.run, Asm.out]
  | cons l ls ih =>
    intro σ n k hst
    by_cases hb : isEmptyLine l = true
    · have hst' : startsAtHeader ls = true := by simpa [startsAtHeader, hb] using hst
      have h0 : (({} : Asm)).step l = some {} := by
        rw [step_file _ _ rfl]; exact fileStep_blank _ hb
      have h1 : σ.step l = some (Asm.mk σ.out none) := by
        cases hc : σ.current with
        | none =>
          rw [step_file _ _ hc, fileStep_blank _ hb]
          simp [Asm.out, hc]
        | some t =>
          rw [step_body_blank σ t hc hb]
          simp [Asm.out, hc]
      rw [run_cons_some _ _ h1, run_cons_some _ _ h0]
      have e := ih (Asm.mk σ.out none) (n + 1) k hst'
      have ho : (Asm.mk σ.out none).out = σ.out := by simp [Asm.out]
      rw [ho] at e
      exact e
    · have hn : notIndented l = true := by simpa [startsAtHeader, hb] using hst
      have h0 : (({} : Asm)).step l = some (Asm.mk [] (some (parseHeader l))) := by
        rw [step_file _ _ rfl]; exact fileStep_header _ hn
      have h1 : σ.step l = some (Asm.mk (σ.out ++ []) (some (parseHeader l))) := by
        cases hc : σ.current with
        | none =>
          rw [step_file _ _ hc, fileStep_header _ hn]
          simp [Asm.out, hc]
        | some t =>
          rw [step_body_header σ t hc hn]
          simp [Asm.out, hc]
      rw [run_cons_some _ _ h1, run_cons_some _ _ h0]
      exact run_offset ls σ.out [] _ (n + 1) k

theorem run_append_of_no_error (la : List Str) : ∀ (σ : Asm) (n : Nat) (ts : List Transaction),
    Asm.run σ n la = (ts, none) →
    ∃ σ' : Asm, σ'.out = ts ∧ ∀ rest, Asm.run σ n (la ++ rest) = Asm.run σ' (n + la.length) rest := by
  induction la with
  | nil =>
    intro σ n ts h
    refine ⟨σ, ?_, fun rest => rfl⟩
    simpa [Asm.run] using h
  | cons l la ih =>
    intro σ n ts h
    cases hs : σ.step l with
    | none => rw [run_cons_none _ _ hs] at h; simp at h
    | some σ1 =>
      rw [run_cons_some _ _ hs] at h
      obtain ⟨σ', h1, h2⟩ := ih σ1 (n + 1) ts h
      refine ⟨σ', h1, fun rest => ?_⟩
      rw [List.cons_append, run_cons_some _ _ hs, h2 rest, List.length_cons]
      congr 1
      omega

theorem unterminatedRest_of_final_lf (A : Str) (hA : A = [] ∨ A.getLast? = some '\n') :
    unterminatedRest A = [] := by
  rcases hA with rfl | hA
  · rfl
  · by_contra hne
    have hd := lines_decompose A
    have hl : A.getLast? = (unterminatedRest A).getLast? := by
      conv_lhs => rw [hd]
      exact List.getLast?_append_of_ne_nil _ hne
    rw [hA] at hl
    have hm : '\n' ∈ unterminatedRest A := List.mem_of_getLast?_eq_some hl.symm
    exact unterminatedRest_no_lf A hm

/-- C17: `Parse` distributes over concatenation at a header boundary. When
`A` is empty or ends with a line feed and parses without error to `tsA`, and
the first line-feed-terminated line of `B` that is not blank (if there is one)
does not begin with a space or a tab, then with `(tsB, eB)` the result of
`Parse B`, `Parse (A ++ B)` returns the transactions `tsA ++ tsB`, and an error
exactly when `Parse B` does: the same error, its line number counted from the
start of `A`. -/
theorem Parse_append_at_header (A B : Str) (tsA tsB : List Transaction)
    (eB : Option ParseError)
    (hA : A = [] ∨ A.getLast? = some '\n') (hPA : Parse A = .ok (tsA, none))
    (hB : startsAtHeader (terminatedLines B) = true) (hPB : Parse B = .ok (tsB, eB)) :
    Parse (A ++ B)
        = .ok (tsA ++ tsB,
            eB.map (fun e => syntaxError (e.lineno + (terminatedLines A).length)))
      ∧ returnsError (Parse (A ++ B)) = returnsError (Parse B) := by
  have hrA := unterminatedRest_of_final_lf A hA
  have hdA := lines_decompose A
  rw [hrA, List.append_nil] at hdA
  have hlines : terminatedLines (A ++ B) = terminatedLines A ++ terminatedLines B := by
    conv_lhs => rw [hdA]
    exact terminatedLines_joinLines _ _ (terminatedLines_no_lf A)
  rw [Parse_eq_assemble, assemble] at hPA hPB
  simp only [Except.ok.injEq] at hPA hPB
  obtain ⟨σ', h1, h2⟩ := run_append_of_no_error (terminatedLines A) {} 0 tsA hPA
  have h3 := run_at_header (terminatedLines B) σ' 0 (terminatedLines A).length hB
  have hmain : Parse (A ++ B)
      = .ok (tsA ++ tsB,
          eB.map (fun e => syntaxError (e.lineno + (terminatedLines A).length))) := by
    rw [Parse_eq_assemble, assemble, hlines, h2, Nat.zero_add]
    rw [Nat.add_zero] at h3
    rw [h3, hPB, h1]
  refine ⟨hmain, ?_⟩
  rw [hmain, Parse_eq_assemble, assemble, hPB]
  cases eB <;> rfl

theorem Parse_append_at_header_witness :
    Parse ("d1\n a  1\n".toList ++ "d2\n ; c\n  x\n\n y".toList)
        = .ok ([⟨"d1".toList, 0, [], [], [⟨"a".toList, "1".toList, [], [], []⟩]⟩]
              ++ [⟨"d2".toList, 0, [], ["; c".toList], [⟨"x".toList, [], [], [], []⟩]⟩],
            (none : Option ParseError).map
              (fun e => syntaxError (e.lineno + (terminatedLines "d1\n a  1\n".toList).length)))
      ∧ returnsError (Parse ("d1\n a  1\n".toList ++ "d2\n ; c\n  x\n\n y".toList))
          = returnsError (Parse "d2\n ; c\n  x\n\n y".toList) :=
  Parse_append_at_header "d1\n a  1\n".toList "d2\n ; c\n  x\n\n y".toList
    [⟨"d1".toList, 0, [], [], [⟨"a".toList, "1".toList, [], [], []⟩]⟩]
    [⟨"d2".toList, 0, [], ["; c".toList], [⟨"x".toList, [], [], [], []⟩]⟩]
    none (Or.inr (by decide)) (by decide) (by decide) (by decide)

end Ldg
